import Mathlib

/-!
# mold front end: glob matcher, file-type sniffing, archive reader

A shallow embedding of `common/glob.cc`, `lib/filetype.h` and
`common/archive-file.h`, and the properties proved about them.

Conventions of the embedding

* a byte is a `Fin 256`; a `std::string` / `std::string_view` is a `List Byte`;
* a `while`/`for(;;)` loop is a function recursive on an iteration budget;
  `Res.more` is the answer of a loop whose budget ran out, `Res.err` stands for
  what the C++ code does when it does not produce a value (an empty
  `std::optional`, a thrown exception, undefined behaviour such as a read
  outside the buffer);
* the loops of the glob code get a budget they never exhaust, one more than
  the length of the text they consume (`compile_loop_ne_more`,
  `do_match_ne_more`); the archive scan gets one more than the length of the
  buffer.
-/

namespace Mold

/-- One byte of a pattern, a text or a file. -/
abbrev Byte := Fin 256

/-- Outcome of a loop run under an iteration budget. -/
inductive Res (α : Type) where
  | val (a : α)
  | err
  | more
deriving DecidableEq, Repr

/-! ## `common/glob.cc` -/

namespace Glob

/-- The element kinds `STRING`, `STAR`, `QUESTION`, `BRACKET` of `Glob`. -/
inductive Kind where
  | STRING
  | STAR
  | QUESTION
  | BRACKET
deriving DecidableEq, Repr

/-- Modelled from the spec: the declaration of `Glob::Element` (in `common.h`) is
not among the sources. The fields are the three that `glob.cc` reads and
writes: `kind`, `str` (the literal run of a `STRING`) and `bitset` (the
`std::bitset<256>` of a `BRACKET`, kept as the 256-bit number whose bit `i` is
`bitset[i]`). The spec calls the four kinds Literal, Star, Question and
BracketSet. -/
structure Element where
  kind : Kind
  str : List Byte
  bitset : Nat
deriving DecidableEq, Repr

/-- `{STRING}`, `{STAR}`, ...: an element of the given kind with an empty
string and an all-zero bitset. -/
def Element.ofKind (k : Kind) : Element := ⟨k, [], 0⟩

/-- `bitset[i] = true`. -/
def bitset_set (bitset : Nat) (i : Nat) : Nat := bitset ||| (1 <<< i)

/-- `bitset[i]` for `i < 256`. -/
def bitset_test (bitset : Nat) (i : Nat) : Bool := bitset.testBit i

/-- `bitset.flip()` on a `std::bitset<256>`. -/
def bitset_flip (bitset : Nat) : Nat := bitset ^^^ (2 ^ 256 - 1)

/-- `for (i64 i = start; i <= end; i++) bitset[i] = true;` -/
def bitset_set_range (bitset : Nat) (start stop : Nat) : Nat :=
  (List.range (stop + 1 - start)).foldl (fun b i => bitset_set b (start + i)) bitset

/-- The inner `while (!pat.empty())` loop of the `'['` case of `Glob::compile`
(glob.cc lines 34-69) followed by the `if (!closed) return {}` test. `pat` is the
text after `[` and an optional `^`. Returns the bitset and the text after the
closing `]`; `Res.err` is `return {}`. -/
def bracket_loop : Nat → List Byte → Nat → Res (Nat × List Byte)
  | 0, _, _ => .more
  | _ + 1, [], _ => .err
  | n + 1, c :: rest, bitset =>
    if c = 93 then .val (bitset, rest)
    else
      match (if c = 92 then rest else c :: rest) with
      | [] => .err
      | [a] => bracket_loop n [] (bitset_set bitset a.val)
      | [a, b] => bracket_loop n [b] (bitset_set bitset a.val)
      | a :: b :: e :: pat3 =>
        if b = 45 then
          if e = 92 then
            match pat3 with
            | [] => .err
            | e2 :: pat4 =>
              if e2 < a then .err
              else bracket_loop n pat4 (bitset_set_range bitset a.val e2.val)
          else
            if e < a then .err
            else bracket_loop n pat3 (bitset_set_range bitset a.val e.val)
        else bracket_loop n (b :: e :: pat3) (bitset_set bitset a.val)

/-- The two statements shared by the `'\\'` and `default` cases:
`if (vec.empty() || vec.back().kind != STRING) vec.push_back({STRING});`
`vec.back().str += c;` -/
def append_char (vec : List Element) (c : Byte) : List Element :=
  match vec.getLast? with
  | none => [⟨.STRING, [c], 0⟩]
  | some e =>
    if e.kind = .STRING then vec.dropLast ++ [⟨e.kind, e.str ++ [c], e.bitset⟩]
    else vec ++ [⟨.STRING, [c], 0⟩]

/-- The outer `while (!pat.empty())` loop of `Glob::compile`. -/
def compile_loop : Nat → List Byte → List Element → Res (List Element)
  | 0, _, _ => .more
  | _ + 1, [], vec => .val vec
  | n + 1, c :: pat, vec =>
    if c = 91 then
      let negate : Bool := pat.head? = some 94
      let pat1 := if negate then pat.tail else pat
      match bracket_loop (pat1.length + 1) pat1 0 with
      | .val (bitset, pat2) =>
        compile_loop n pat2
          (vec ++ [⟨.BRACKET, [], if negate then bitset_flip bitset else bitset⟩])
      | .err => .err
      | .more => .more
    else if c = 63 then compile_loop n pat (vec ++ [Element.ofKind .QUESTION])
    else if c = 42 then compile_loop n pat (vec ++ [Element.ofKind .STAR])
    else if c = 92 then
      match pat with
      | [] => .err
      | d :: pat1 => compile_loop n pat1 (append_char vec d)
    else compile_loop n pat (append_char vec c)

/-- `Glob::compile`: the element vector of the compiled glob, or `none` for the
empty `std::optional`. -/
def compile (pat : List Byte) : Option (List Element) :=
  match compile_loop (pat.length + 1) pat [] with
  | .val vec => some vec
  | _ => none

/-- `std::string_view::find`: the first position at which `lit` occurs in
`str`, `none` for `npos`. -/
def find : List Byte → List Byte → Option Nat
  | [], lit => if lit.isEmpty then some 0 else none
  | c :: str, lit =>
    if lit.isPrefixOf (c :: str) then some 0 else (find str lit).map (· + 1)

/-- The `for (;;)` loop of the `STAR` case (glob.cc lines 128-136); `k` is
`do_match` on the elements after the literal. `str.substr(pos + 1)` throws
`std::out_of_range` when `pos + 1 > str.size()`. -/
def star_string_loop (lit : List Byte) (k : List Byte → Res Bool) :
    Nat → List Byte → Res Bool
  | 0, _ => .more
  | n + 1, str =>
    match find str lit with
    | none => .val false
    | some pos =>
      match k (str.drop (pos + lit.length)) with
      | .val true => .val true
      | .val false =>
        if pos + 1 ≤ str.length then star_string_loop lit k n (str.drop (pos + 1))
        else .err
      | .err => .err
      | .more => .more

/-- The loop `for (i64 j = 0; j < str.size(); j++) if (body(j)) return true;`
followed by `return false;`, given the list of the values `j` takes. -/
def for_loop (body : Nat → Res Bool) : List Nat → Res Bool
  | [] => .val false
  | j :: js =>
    match body j with
    | .val true => .val true
    | .val false => for_loop body js
    | .err => .err
    | .more => .more

/-- The conversion of `str[0]`, a `char`, to the `size_t` argument of
`std::bitset::operator[]`. Where `char` is signed (`signed_char = true`) a byte
of 128 or more is a negative `char` and converts to a value near `2^64`. -/
def char_to_size_t (signed_char : Bool) (c : Byte) : Nat :=
  if signed_char && decide (128 ≤ c.val) then 2 ^ 64 - 256 + c.val else c.val

/-- `Glob::do_match`. `signed_char` tells whether `char` is a signed type on
the platform. `Res.err` is a thrown `std::out_of_range` or an out-of-range
`bitset[...]`. -/
def do_match (signed_char : Bool) : List Element → List Byte → Res Bool
  | [], str => .val str.isEmpty
  | e :: elements, str =>
    match e.kind with
    | .STRING =>
      if e.str.isPrefixOf str then do_match signed_char elements (str.drop e.str.length)
      else .val false
    | .STAR =>
      match elements with
      | [] => .val true
      | e1 :: rest =>
        if e1.kind = .STRING then
          star_string_loop e1.str (do_match signed_char rest) (str.length + 1) str
        else
          for_loop (fun j => do_match signed_char (e1 :: rest) (str.drop j))
            (List.range str.length)
    | .QUESTION =>
      match str with
      | [] => .val false
      | _ :: str1 => do_match signed_char elements str1
    | .BRACKET =>
      match str with
      | [] => .val false
      | c :: str1 =>
        if char_to_size_t signed_char c < 256 then
          if bitset_test e.bitset (char_to_size_t signed_char c) then
            do_match signed_char elements str1
          else .val false
        else .err

/-- `Glob::match`. -/
def glob_match (signed_char : Bool) (elements : List Element) (str : List Byte) : Res Bool :=
  do_match signed_char elements str

/-! ### Definitions used to state the properties of the glob code -/

/-- What one pass of the outer loop of `compile` does to `vec` for a byte that
is neither `[` nor `\`. -/
def plain_step (vec : List Element) (c : Byte) : List Element :=
  if c = 63 then vec ++ [Element.ofKind .QUESTION]
  else if c = 42 then vec ++ [Element.ofKind .STAR]
  else append_char vec c

/-- `isalnum` in the C locale: a decimal digit or an ASCII letter. -/
def isalnum (c : Byte) : Bool :=
  (decide (48 ≤ c.val) && decide (c.val ≤ 57)) || (decide (65 ≤ c.val) && decide (c.val ≤ 90))
    || (decide (97 ≤ c.val) && decide (c.val ≤ 122))

/-- The piece of text an element stands for: a Literal its string, a Question
one byte, a BracketSet one byte that is a member of the set, a Star any run of
bytes, the empty run included. -/
def piece_ok (e : Element) (piece : List Byte) : Prop :=
  match e.kind with
  | .STRING => piece = e.str
  | .STAR => True
  | .QUESTION => piece.length = 1
  | .BRACKET => ∃ b : Byte, piece = [b] ∧ bitset_test e.bitset b.val = true

/-- The text `t` can be cut into consecutive pieces, one per element in order,
each piece being one its element stands for. -/
def Cut : List Element → List Byte → Prop
  | [], t => t = []
  | e :: es, t => ∃ piece rest, t = piece ++ rest ∧ piece_ok e piece ∧ Cut es rest

/-- Every `STRING` element holds at least one byte. -/
def lits_nonempty (elements : List Element) : Prop :=
  ∀ e ∈ elements, e.kind = .STRING → e.str ≠ []

/-- The element sequence does not end in two `STAR` elements. -/
def no_double_star_end (elements : List Element) : Prop :=
  ∀ (l : List Element) (a b : Element), elements = l ++ [a, b] →
    ¬ (a.kind = .STAR ∧ b.kind = .STAR)

/-- No two consecutive elements are both of kind `STRING`. -/
def Coalesced (vec : List Element) : Prop :=
  List.Chain' (fun a b => ¬ (a.kind = .STRING ∧ b.kind = .STRING)) vec

/-- The pattern that puts a backslash before every byte of `s`. -/
def escape (s : List Byte) : List Byte :=
  match s with
  | [] => []
  | c :: rest => 92 :: c :: escape rest

/-- The variant of `do_match` without the fast path: a `STAR` followed by a
`STRING` element is handled like a `STAR` followed by any other element, by the
loop that tries the split points of the remaining text in order. With
`with_end` the loop over a following `STRING` also tries the split point at the
very end of the text (the empty remainder); without it the loop is the generic
loop of `Glob::do_match` as written, `for (i64 j = 0; j < str.size(); j++)`. -/
def do_match_generic (signed_char with_end : Bool) : List Element → List Byte → Res Bool
  | [], str => .val str.isEmpty
  | e :: elements, str =>
    match e.kind with
    | .STRING =>
      if e.str.isPrefixOf str then
        do_match_generic signed_char with_end elements (str.drop e.str.length)
      else .val false
    | .STAR =>
      match elements with
      | [] => .val true
      | e1 :: rest =>
        if e1.kind = .STRING then
          for_loop (fun j => do_match_generic signed_char with_end (e1 :: rest) (str.drop j))
            (List.range (str.length + (if with_end then 1 else 0)))
        else
          for_loop (fun j => do_match_generic signed_char with_end (e1 :: rest) (str.drop j))
            (List.range str.length)
    | .QUESTION =>
      match str with
      | [] => .val false
      | _ :: str1 => do_match_generic signed_char with_end elements str1
    | .BRACKET =>
      match str with
      | [] => .val false
      | c :: str1 =>
        if char_to_size_t signed_char c < 256 then
          if bitset_test e.bitset (char_to_size_t signed_char c) then
            do_match_generic signed_char with_end elements str1
          else .val false
        else .err

end Glob

/-! ## `lib/filetype.h` -/

/-- The file kinds of `enum class FileType`. -/
inductive FileType where
  | UNKNOWN
  | EMPTY
  | ELF_OBJ
  | ELF_DSO
  | AR
  | THIN_AR
  | TEXT
  | GCC_LTO_OBJ
  | LLVM_BITCODE
deriving DecidableEq, Repr

/-- `std::string_view::starts_with`. -/
def starts_with (s pre : List Byte) : Bool := pre.isPrefixOf s

/-- The `n` bytes at offset `off` of the buffer; `none` when one of them lies
outside the buffer (the C++ code would read outside its mapping there). -/
def read_bytes (data : List Byte) (off n : Nat) : Option (List Byte) :=
  if off + n ≤ data.length then some ((data.drop off).take n) else none

/-- The value of a little-endian byte sequence. -/
def le_val : List Byte → Nat
  | [] => 0
  | b :: bs => b.val + 256 * le_val bs

/-- The value of a big-endian byte sequence. -/
def be_val (bs : List Byte) : Nat := le_val bs.reverse

/-- An unsigned integer field of `n` bytes at offset `off`, in the byte order
of the target. -/
def read_uint (is_le : Bool) (data : List Byte) (off n : Nat) : Option Nat :=
  (read_bytes data off n).map (fun bs => if is_le then le_val bs else be_val bs)

/-- The NUL-terminated string at offset `off` (what `std::string_view(const char *)`
measures with `strlen`); `none` when no NUL byte follows inside the buffer. -/
def c_str (data : List Byte) (off : Nat) : Option (List Byte) :=
  if (0 : Byte) ∈ data.drop off then some ((data.drop off).takeWhile (fun b => b != 0))
  else none

/-- Modelled from the spec: `elf.h` is not among the sources. A target `E` of
the templates `ElfEhdr<E>`, `ElfShdr<E>`, `ElfSym<E>` is its word size and byte
order; the field offsets below are those of the ELF format (`Elf32_*` and
`Elf64_*`). -/
structure Target where
  is_64 : Bool
  is_le : Bool
deriving DecidableEq, Repr

def I386 : Target := ⟨false, true⟩
def X86_64 : Target := ⟨true, true⟩
def M68K : Target := ⟨false, false⟩
def SPARC64 : Target := ⟨true, false⟩

def EI_CLASS : Nat := 4
def EI_DATA : Nat := 5
def ELFCLASS32 : Nat := 1
def ELFDATA2LSB : Nat := 1
def ET_REL : Nat := 1
def ET_DYN : Nat := 3
def SHN_XINDEX : Nat := 0xffff
def SHN_COMMON : Nat := 0xfff2
def SHT_SYMTAB : Nat := 2
def STT_NOTYPE : Nat := 0
def STT_SECTION : Nat := 3
def STT_FILE : Nat := 4

/-- Offset of `e_type` in `ElfEhdr<E>` (2 bytes, the same for every target). -/
def off_e_type : Nat := 16
/-- Offset and width of `e_shoff`. -/
def off_e_shoff (E : Target) : Nat × Nat := if E.is_64 then (40, 8) else (32, 4)
/-- Offset of `e_shnum` (2 bytes). -/
def off_e_shnum (E : Target) : Nat := if E.is_64 then 60 else 48
/-- Offset of `e_shstrndx` (2 bytes). -/
def off_e_shstrndx (E : Target) : Nat := if E.is_64 then 62 else 50
/-- `sizeof(ElfShdr<E>)`. -/
def sizeof_shdr (E : Target) : Nat := if E.is_64 then 64 else 40
/-- Offset of `sh_name` (4 bytes). -/
def off_sh_name : Nat := 0
/-- Offset of `sh_type` (4 bytes). -/
def off_sh_type : Nat := 4
/-- Offset and width of `sh_offset`. -/
def off_sh_offset (E : Target) : Nat × Nat := if E.is_64 then (24, 8) else (16, 4)
/-- Offset and width of `sh_size`. -/
def off_sh_size (E : Target) : Nat × Nat := if E.is_64 then (32, 8) else (20, 4)
/-- Offset of `sh_link` (4 bytes). -/
def off_sh_link (E : Target) : Nat := if E.is_64 then 40 else 24
/-- `sizeof(ElfSym<E>)`. -/
def sizeof_sym (E : Target) : Nat := if E.is_64 then 24 else 16
/-- Offset of `st_name` (4 bytes). -/
def off_st_name : Nat := 0
/-- Offset of the byte holding the bit-fields `st_type` (low 4 bits) and `st_bind`. -/
def off_st_info (E : Target) : Nat := if E.is_64 then 4 else 12
/-- Offset of `st_shndx` (2 bytes). -/
def off_st_shndx (E : Target) : Nat := if E.is_64 then 6 else 14

/-- `isprint` in the C locale, which answers false for every byte from 128 up. -/
def isprint (c : Byte) : Bool := decide (32 ≤ c.val) && decide (c.val ≤ 126)

/-- The lambda `istext` of `is_text_file`. -/
def istext (c : Byte) : Bool := isprint c || c == 10 || c == 9

/-- `is_text_file`: the size test comes first, so no byte outside the buffer
is read. -/
def is_text_file (data : List Byte) : Bool :=
  match data with
  | d0 :: d1 :: d2 :: d3 :: _ => istext d0 && istext d1 && istext d2 && istext d3
  | _ => false

/-- The lambda `skip` of `is_gcc_lto_obj`. -/
def skip (type : Nat) : Bool := type == STT_NOTYPE || type == STT_FILE || type == STT_SECTION

/-- The loop `i = 1; while (i < elf_syms.size() && skip(elf_syms[i].st_type)) i++;`
run over the list of the indices from 1 below `elf_syms.size()`: the first index
whose symbol type is not skipped, `some none` when the loop ends with
`i = elf_syms.size()`, `none` when a symbol lies outside the buffer. -/
def first_unskipped (E : Target) (data : List Byte) (symtab_off : Nat) :
    List Nat → Option (Option Nat)
  | [] => some none
  | i :: rest =>
    match read_uint E.is_le data (symtab_off + i * sizeof_sym E + off_st_info E) 1 with
    | none => none
    | some st_info =>
      if skip (st_info % 16) then first_unskipped E data symtab_off rest else some (some i)

/-- The body of `for (ElfShdr<E> &sec : shdrs)` in `is_gcc_lto_obj`, run over the
list of the section indices still to visit. `shdrs_off` is `e_shoff`. -/
def scan_sections (E : Target) (plugin : Bool) (data : List Byte)
    (shdrs_off shstrtab_idx : Nat) : List Nat → Option Bool
  | [] => some false
  | s :: rest =>
    let sec := shdrs_off + s * sizeof_shdr E
    let plugin_hit : Option Bool :=
      if plugin then
        match read_uint E.is_le data
            (shdrs_off + shstrtab_idx * sizeof_shdr E + (off_sh_offset E).1) (off_sh_offset E).2,
          read_uint E.is_le data (sec + off_sh_name) 4 with
        | some strtab_off, some sh_name =>
          (c_str data (strtab_off + sh_name)).map
            (fun name => starts_with name [46, 103, 110, 117, 46, 108, 116, 111, 95, 46, 115,
              121, 109, 116, 97, 98, 46])
        | _, _ => none
      else some false
    match plugin_hit with
    | none => none
    | some true => some true
    | some false =>
      match read_uint E.is_le data (sec + off_sh_type) 4 with
      | none => none
      | some sh_type =>
        if sh_type ≠ SHT_SYMTAB then scan_sections E plugin data shdrs_off shstrtab_idx rest
        else
          match read_uint E.is_le data (sec + (off_sh_offset E).1) (off_sh_offset E).2,
            read_uint E.is_le data (sec + (off_sh_size E).1) (off_sh_size E).2 with
          | some sh_offset, some sh_size =>
            match first_unskipped E data sh_offset
                (List.range' 1 (sh_size / sizeof_sym E - 1)) with
            | none => none
            | some none => some false
            | some (some i) =>
              match read_uint E.is_le data (sh_offset + i * sizeof_sym E + off_st_shndx E) 2 with
              | none => none
              | some st_shndx =>
                if st_shndx = SHN_COMMON then
                  match read_uint E.is_le data (sec + off_sh_link E) 4 with
                  | none => none
                  | some sh_link =>
                    match read_uint E.is_le data
                        (shdrs_off + sh_link * sizeof_shdr E + (off_sh_offset E).1)
                        (off_sh_offset E).2,
                      read_uint E.is_le data (sh_offset + i * sizeof_sym E + off_st_name) 4 with
                    | some strtab_off, some st_name =>
                      (c_str data (strtab_off + st_name)).map
                        (fun name => starts_with name [95, 95, 103, 110, 117, 95, 108, 116, 111, 95])
                    | _, _ => none
                else some false
          | _, _ => none

/-- `is_gcc_lto_obj<E>`. `plugin` is `!ctx.arg.plugin.empty()`. `none` when the
function reads a byte outside the buffer. -/
def is_gcc_lto_obj (E : Target) (plugin : Bool) (data : List Byte) : Option Bool :=
  match read_uint E.is_le data (off_e_shoff E).1 (off_e_shoff E).2,
    read_uint E.is_le data (off_e_shnum E) 2,
    read_uint E.is_le data (off_e_shstrndx E) 2 with
  | some e_shoff, some e_shnum, some e_shstrndx =>
    let shstrtab_idx : Option Nat :=
      if e_shstrndx = SHN_XINDEX then read_uint E.is_le data (e_shoff + off_sh_link E) 4
      else some e_shstrndx
    match shstrtab_idx with
    | none => none
    | some idx => scan_sections E plugin data e_shoff idx (List.range e_shnum)
  | _, _, _ => none

/-- The part of `get_file_type` that follows the choice of the header overlay
(`ElfEhdr<I386>` for `ELFDATA2LSB`, `ElfEhdr<M68K>` otherwise); `E32` and `E64`
are the targets handed to `is_gcc_lto_obj`. -/
def classify_elf (E32 E64 : Target) (plugin : Bool) (data : List Byte) : Option FileType :=
  match read_uint E32.is_le data off_e_type 2 with
  | none => none
  | some e_type =>
    if e_type = ET_REL then
      match read_uint E32.is_le data EI_CLASS 1 with
      | none => none
      | some cls =>
        match (if cls = ELFCLASS32 then is_gcc_lto_obj E32 plugin data
               else is_gcc_lto_obj E64 plugin data) with
        | none => none
        | some true => some .GCC_LTO_OBJ
        | some false => some .ELF_OBJ
    else if e_type = ET_DYN then some .ELF_DSO
    else some .UNKNOWN

/-- `get_file_type`. `none` when the function reads a byte outside the buffer. -/
def get_file_type (plugin : Bool) (data : List Byte) : Option FileType :=
  if data.isEmpty then some .EMPTY
  else if starts_with data [127, 69, 76, 70] then
    match read_uint true data EI_DATA 1 with
    | none => none
    | some byte_order =>
      if byte_order = ELFDATA2LSB then classify_elf I386 X86_64 plugin data
      else classify_elf M68K SPARC64 plugin data
  else if starts_with data [33, 60, 97, 114, 99, 104, 62, 10] then some .AR
  else if starts_with data [33, 60, 116, 104, 105, 110, 62, 10] then some .THIN_AR
  else if is_text_file data then some .TEXT
  else if starts_with data [222, 192, 23, 11] then some .LLVM_BITCODE
  else if starts_with data [66, 67, 192, 222] then some .LLVM_BITCODE
  else some .UNKNOWN

/-! ## `common/archive-file.h`

The archive is the byte buffer `buf` (`mf->data`, `mf->size`); a pointer into it
is its offset from `mf->data`, an integer, which corrupt size fields can move
before the buffer or behind it. A read at an offset outside the buffer is
`none` (`Res.err` in the loops). -/

/-- The bytes of the buffer from offset `p` on; `none` when `p` does not point
into the buffer or just behind it. -/
def at_off (buf : List Byte) (p : Int) : Option (List Byte) :=
  if 0 ≤ p ∧ p ≤ buf.length then some (buf.drop p.toNat) else none

/-- The `n` bytes at offset `p`: `none` when one of them lies outside the
buffer; no byte is read when `n = 0`. -/
def read_range (buf : List Byte) (p : Int) (n : Nat) : Option (List Byte) :=
  if n = 0 then some []
  else if 0 ≤ p ∧ p + n ≤ buf.length then some ((buf.drop p.toNat).take n) else none

/-- `isspace` in the C locale. -/
def isspace (c : Byte) : Bool := c == 32 || (decide (9 ≤ c.val) && decide (c.val ≤ 13))

/-- `isdigit`. -/
def isdigit (c : Byte) : Bool := decide (48 ≤ c.val) && decide (c.val ≤ 57)

/-- The digit loop of `strtol`: reads digits up to and including the first byte
that is not a digit; `none` when the buffer ends first. -/
def parse_digits : List Byte → Nat → Option Nat
  | [], _ => none
  | c :: cs, acc => if isdigit c then parse_digits cs (10 * acc + (c.val - 48)) else some acc

/-- The C library's decimal conversion shared by `atoi` and `atol`: skip white
space, take an optional sign, read the digits. The argument is the buffer from
the pointer on. -/
def strtol_core : List Byte → Option Int
  | [] => none
  | c :: cs =>
    if isspace c then strtol_core cs
    else if c = 45 then (parse_digits cs 0).map (fun v => - Int.ofNat v)
    else if c = 43 then (parse_digits cs 0).map Int.ofNat
    else (parse_digits (c :: cs) 0).map Int.ofNat

/-- `atoi`: undefined (here `none`) when the value is not an `int`. -/
def atoi (s : List Byte) : Option Int :=
  (strtol_core s).bind (fun v => if - 2 ^ 31 ≤ v ∧ v < 2 ^ 31 then some v else none)

/-- `atol`: undefined (here `none`) when the value is not a 64-bit `long`. -/
def atol (s : List Byte) : Option Int :=
  (strtol_core s).bind (fun v => if - 2 ^ 63 ≤ v ∧ v < 2 ^ 63 then some v else none)

/-- `strstr(s, needle)` for a needle without NUL byte: the offset of its first
occurrence in the C string at `s`; `none` when the terminating NUL or the end
of the buffer comes first (`strstr` then returns a null pointer or reads behind
the buffer). -/
def c_strstr : List Byte → List Byte → Option Nat
  | [], _ => none
  | c :: cs, needle =>
    if needle.isPrefixOf (c :: cs) then some 0
    else if c = 0 then none
    else (c_strstr cs needle).map (· + 1)

/-- `std::string::find(char)`: the position of the first occurrence of `c`,
`none` for `npos`. -/
def find_char : List Byte → Byte → Option Nat
  | [], _ => none
  | d :: ds, c => if d = c then some 0 else (find_char ds c).map (· + 1)

/-- The result of a 64-bit pointer computation, as a signed offset. -/
def wrap64 (x : Int) : Int := (x + 2 ^ 63) % 2 ^ 64 - 2 ^ 63

/-- Conversion to `u64`. -/
def to_u64 (x : Int) : Nat := (x % 2 ^ 64).toNat

/-- A `std::string_view` into the buffer: the offset of `data()` and `size()`. -/
structure StrView where
  off : Int
  size : Nat
deriving DecidableEq, Repr

/-- `ArHdr::starts_with(s)` for the header at offset `hdr`: compares the first
`s.size()` bytes of `ar_name` with `s`. -/
def ArHdr.starts_with (buf : List Byte) (hdr : Int) (s : List Byte) : Option Bool :=
  (read_range buf hdr s.length).map (fun name => name == s)

/-- `ArHdr::is_strtab`: `starts_with("// ")`. -/
def ArHdr.is_strtab (buf : List Byte) (hdr : Int) : Option Bool :=
  ArHdr.starts_with buf hdr [47, 47, 32]

/-- `ArHdr::is_symtab`: `starts_with("/ ") || starts_with("/SYM64/ ")`. -/
def ArHdr.is_symtab (buf : List Byte) (hdr : Int) : Option Bool :=
  match ArHdr.starts_with buf hdr [47, 32] with
  | none => none
  | some true => some true
  | some false => ArHdr.starts_with buf hdr [47, 83, 89, 77, 54, 52, 47, 32]

/-- `ArHdr::read_name(strtab, ptr)` for the header at offset `hdr`: the name and
the new value of `ptr`. `strtab` is `none` for a default-constructed
`std::string_view`, whose `data()` is a null pointer. In the BSD branch
`if (size_t pos = name.find('\0')) name = name.substr(0, pos);` keeps the whole
name both for `npos` (`substr(0, npos)`) and for `pos = 0` (the test is false). -/
def ArHdr.read_name (buf : List Byte) (hdr : Int) (strtab : Option StrView) (ptr : Int) :
    Option (List Byte × Int) :=
  match ArHdr.starts_with buf hdr [35, 49, 47] with
  | none => none
  | some true =>
    match (at_off buf (hdr + 3)).bind atoi with
    | none => none
    | some namelen =>
      if namelen < 0 then none
      else
        match read_range buf ptr namelen.toNat with
        | none => none
        | some name =>
          match find_char name 0 with
          | none => some (name, ptr + namelen)
          | some 0 => some (name, ptr + namelen)
          | some (pos + 1) => some (name.take (pos + 1), ptr + namelen)
  | some false =>
    match ArHdr.starts_with buf hdr [47] with
    | none => none
    | some true =>
      match strtab, (at_off buf (hdr + 1)).bind atoi with
      | some st, some k =>
        match at_off buf (st.off + k) with
        | none => none
        | some start => (c_strstr start [47, 10]).map (fun n => (start.take n, ptr))
      | _, _ => none
    | some false =>
      (read_range buf hdr 16).map (fun ar_name => (ar_name.takeWhile (fun c => c != 47), ptr))

/-- Modelled from the spec: `MappedFile::slice` (in `common.h`) is not among the
sources. A member of a fat archive is the byte range `src.slice(name,
body_offset, size)` inside the archive's own bytes; the record keeps the three
arguments of the call. -/
structure Member where
  name : List Byte
  start : Nat
  size : Nat
deriving DecidableEq, Repr

/-- Modelled from the spec: the bytes of the slice `src.slice(name, body_offset,
size)`, the byte range of that offset and size inside the archive's own
bytes. -/
def Member.bytes (buf : List Byte) (m : Member) : List Byte := (buf.drop m.start).take m.size

/-- The `while` loop of `read_fat_archive_members`; `data` is the offset of the
pointer `data` from `begin`. -/
def read_fat_loop : Nat → List Byte → Int → Option StrView → List Member → Res (List Member)
  | 0, _, _, _, _ => .more
  | n + 1, buf, data, strtab, vec =>
    if 2 ≤ wrap64 (buf.length - data) then
      let hdr := if data % 2 ≠ 0 then data + 1 else data
      let body := hdr + 60
      match (at_off buf (hdr + 48)).bind atol with
      | none => .err
      | some size =>
        let data1 := wrap64 (body + size)
        match ArHdr.is_strtab buf hdr with
        | none => .err
        | some true => read_fat_loop n buf data1 (some ⟨body, to_u64 size⟩) vec
        | some false =>
          match ArHdr.is_symtab buf hdr with
          | none => .err
          | some true => read_fat_loop n buf data1 strtab vec
          | some false =>
            match ArHdr.read_name buf hdr strtab body with
            | none => .err
            | some (name, body1) =>
              if name = [95, 95, 46, 83, 89, 77, 68, 69, 70]
                  ∨ name = [95, 95, 46, 83, 89, 77, 68, 69, 70, 32, 83, 79, 82, 84, 69, 68] then
                read_fat_loop n buf data1 strtab vec
              else
                read_fat_loop n buf data1 strtab
                  (vec ++ [⟨name, to_u64 body1, to_u64 (data1 - body1)⟩])
    else .val vec

/-- `read_fat_archive_members`. `Res.err` is a read outside the buffer. The
budget is `buf.length + 1` passes: every pass reads the size field of a header
inside the buffer and the next offset depends on the current one only, so a
run that uses up the budget has come back to an offset it visited before. -/
def read_fat_archive_members (buf : List Byte) : Res (List Member) :=
  read_fat_loop (buf.length + 1) buf 8 none []

/-- Modelled from the spec: `Fatal` (in `common.h`) is not among the sources.
`Fatal(ctx) << ...` reports a diagnostic and terminates the process, so the
statement after it is never reached. The two diagnostics that can end
`read_thin_archive_members` are told apart: the one of the reader itself and
the `cannot open` of `must_open_file`, with the path. -/
inductive Diag where
  | not_long_filename
  | cannot_open (path : List Byte)
deriving DecidableEq, Repr

/-- How a call that can end in `Fatal` comes out: it returns a value, it ends
the process with a diagnostic, its behaviour is undefined (a read outside the
buffer, a null pointer handed to `strstr`, an `atol` out of range), or the
budget of loop passes is used up. -/
inductive Run (α : Type) where
  | ret (a : α)
  | fatal (d : Diag)
  | undefined
  | more
deriving DecidableEq, Repr

/-- Modelled from the spec: `MappedFile` (in `common.h`) is not among the
sources. A file opened for a member of a thin archive: the path it was opened
under, its contents, and `thin_parent`, the archive it is a member of (kept as
that archive's `name`). -/
structure ThinFile where
  name : List Byte
  data : List Byte
  thin_parent : Option (List Byte)
deriving DecidableEq, Repr

/-- Modelled from the spec: `must_open_file` and `filepath` (in `common.h`) are
not among the sources. `open_file path` is the contents of the file that
`must_open_file(ctx, path)` maps, `none` when it cannot be opened (a fatal
error, says the spec); `parent_path` and `join` are
`std::filesystem::path::parent_path` and `operator/`, which `filepath` hands
the reader. -/
structure Env where
  open_file : List Byte → Option (List Byte)
  parent_path : List Byte → List Byte
  join : List Byte → List Byte → List Byte

/-- `if ((begin - data) % 2) data++;` -/
def align2 (data : Int) : Int := if data % 2 ≠ 0 then data + 1 else data

/-- The variables of the loop of `read_thin_archive_members`. -/
structure ThinState where
  data : Int
  strtab : Option StrView
  vec : List ThinFile
deriving DecidableEq, Repr

/-- `hdr.starts_with("#1/") || hdr.starts_with("/")`, the negation of the test
before `Fatal` in `read_thin_archive_members`. -/
def ArHdr.is_long_filename (buf : List Byte) (hdr : Int) : Option Bool :=
  match ArHdr.starts_with buf hdr [35, 49, 47] with
  | none => none
  | some true => some true
  | some false => ArHdr.starts_with buf hdr [47]

/-- One pass of `while (data < begin + mf->size)` in `read_thin_archive_members`:
the test and the body. The result is the state for the next pass, or the way
the call ends. `mf_name` is `mf->name`. -/
def thin_pass (env : Env) (mf_name buf : List Byte) (s : ThinState) :
    ThinState ⊕ Run (List ThinFile) :=
  if s.data < buf.length then
    let hdr := align2 s.data
    let body := hdr + 60
    match (at_off buf (hdr + 48)).bind atol with
    | none => .inr .undefined
    | some size =>
      match ArHdr.is_strtab buf hdr with
      | none => .inr .undefined
      | some true => .inl ⟨wrap64 (body + size), some ⟨body, to_u64 size⟩, s.vec⟩
      | some false =>
        match ArHdr.is_symtab buf hdr with
        | none => .inr .undefined
        | some true => .inl ⟨wrap64 (body + size), s.strtab, s.vec⟩
        | some false =>
          match ArHdr.is_long_filename buf hdr with
          | none => .inr .undefined
          | some false => .inr (.fatal .not_long_filename)
          | some true =>
            match ArHdr.read_name buf hdr s.strtab body with
            | none => .inr .undefined
            | some (name, body1) =>
              if name = [95, 95, 46, 83, 89, 77, 68, 69, 70]
                  ∨ name = [95, 95, 46, 83, 89, 77, 68, 69, 70, 32, 83, 79, 82, 84, 69, 68] then
                .inl s
              else
                let path :=
                  if name.head? = some 47 then name else env.join (env.parent_path mf_name) name
                match env.open_file path with
                | none => .inr (.fatal (.cannot_open path))
                | some contents =>
                  .inl ⟨body1, s.strtab, s.vec ++ [⟨path, contents, some mf_name⟩]⟩
  else .inr (.ret s.vec)

/-- The loop of `read_thin_archive_members`, with a budget of passes. -/
def read_thin_loop (env : Env) (mf_name buf : List Byte) : Nat → ThinState → Run (List ThinFile)
  | 0, _ => .more
  | n + 1, s =>
    match thin_pass env mf_name buf s with
    | .inl s1 => read_thin_loop env mf_name buf n s1
    | .inr r => r

/-- `read_thin_archive_members`. The loop has no bound of its own, so the
number of passes allowed is an argument; `Run.more` says that it did not
suffice. -/
def read_thin_archive_members (budget : Nat) (env : Env) (mf_name buf : List Byte) :
    Run (List ThinFile) :=
  read_thin_loop env mf_name buf budget ⟨8, none, []⟩

/-! ### The archive format, used to state the properties of the archive reader -/

/-- The ASCII digit of `d % 10`. -/
def digit (d : Nat) : Byte := ⟨48 + d % 10, by omega⟩

/-- The decimal digits of `n`, least significant first; the first argument
bounds their number. -/
def digits_rev : Nat → Nat → List Byte
  | 0, _ => []
  | f + 1, n => if n < 10 then [digit n] else digit n :: digits_rev f (n / 10)

/-- The decimal numeral of `n` in ASCII. -/
def decimal (n : Nat) : List Byte := (digits_rev (n + 1) n).reverse

/-- A header field: `s` padded with blanks on the right to `n` bytes. -/
def pad_right (s : List Byte) (n : Nat) : List Byte := s ++ List.replicate (n - s.length) 32

/-- A 60-byte member header: the name field (16 bytes), `misc` (the 32 bytes of
`ar_date`, `ar_uid`, `ar_gid`, `ar_mode`), the decimal size field (10 bytes) and
the terminator `ar_fmag`. -/
def ar_header (name_field misc : List Byte) (size : Nat) : List Byte :=
  pad_right name_field 16 ++ misc ++ pad_right (decimal size) 10 ++ [96, 10]

/-- The padding byte that follows a body of odd length. -/
def padding (payload : List Byte) : List Byte := if payload.length % 2 = 1 then [10] else []

/-- The three encodings of a member name. -/
inductive NameEnc where
  | short
  | bsd
  | sysv (offset : Nat)
deriving DecidableEq, Repr

/-- One item of a fat archive: a symbol table (`/ ` or `/SYM64/ `), a string
table (`// `), or a member with its name, its body, the encoding of its name
and the 32 bytes of its other header fields. -/
inductive Item where
  | symtab (sym64 : Bool) (misc body : List Byte)
  | strtab (misc body : List Byte)
  | member (name body : List Byte) (enc : NameEnc) (misc : List Byte)
deriving DecidableEq, Repr

/-- The name field of a member header, before padding. -/
def name_field (name : List Byte) : NameEnc → List Byte
  | .short => name ++ [47]
  | .bsd => [35, 49, 47] ++ decimal name.length
  | .sysv k => [47] ++ decimal k

/-- The bytes that follow a member header: the body, after the name for the
BSD encoding. -/
def payload (name body : List Byte) : NameEnc → List Byte
  | .bsd => name ++ body
  | _ => body

/-- The bytes of one item: header, body, padding. -/
def Item.serialize : Item → List Byte
  | .symtab sym64 misc body =>
    ar_header (if sym64 then [47, 83, 89, 77, 54, 52, 47] else [47]) misc body.length
      ++ body ++ padding body
  | .strtab misc body => ar_header [47, 47] misc body.length ++ body ++ padding body
  | .member name body enc misc =>
    ar_header (name_field name enc) misc (payload name body enc).length
      ++ payload name body enc ++ padding (payload name body enc)

/-- The bytes of a sequence of items. -/
def serialize_items : List Item → List Byte
  | [] => []
  | it :: rest => it.serialize ++ serialize_items rest

/-- A fat archive: the magic `!<arch>\n` and the items. -/
def serialize (items : List Item) : List Byte :=
  [33, 60, 97, 114, 99, 104, 62, 10] ++ serialize_items items

/-- The members of an archive, as (name, body) in archive order. -/
def members_of : List Item → List (List Byte × List Byte)
  | [] => []
  | .member name body _ _ :: rest => (name, body) :: members_of rest
  | _ :: rest => members_of rest

/-- The name is stored in a way the encoding can hold. `strtab` is the body of
the string table seen last, if any. A short name has 1 to 15 bytes, no `/`, and
is not `#1`; a BSD name has no NUL byte; a SysV name has neither a NUL byte nor
`/\n` inside, and the string table holds the name followed by `/\n` at the
offset; lengths and offsets written after `#1/` and `/` are below `2^31`. -/
def name_ok (strtab : Option (List Byte)) (name : List Byte) : NameEnc → Bool
  | .short =>
    decide (1 ≤ name.length) && decide (name.length ≤ 15) && decide ((47 : Byte) ∉ name)
      && decide (name ≠ [35, 49])
  | .bsd => decide ((0 : Byte) ∉ name) && decide (name.length < 2 ^ 31)
  | .sysv k =>
    match strtab with
    | none => false
    | some t =>
      decide ((0 : Byte) ∉ name) && decide (¬ [47, 10] <:+: name) && decide (k < 2 ^ 31)
        && (name ++ [47, 10]).isPrefixOf (t.drop k)

/-- Well-formed items: header fields of the right width, sizes that fit the
10-byte size field, names the encoding can hold, no member named `__.SYMDEF` or
`__.SYMDEF SORTED`. -/
def well_formed : Option (List Byte) → List Item → Bool
  | _, [] => true
  | st, .symtab _ misc body :: rest =>
    decide (misc.length = 32) && decide (body.length < 10 ^ 10) && well_formed st rest
  | _, .strtab misc body :: rest =>
    decide (misc.length = 32) && decide (body.length < 10 ^ 10) && well_formed (some body) rest
  | st, .member name body enc misc :: rest =>
    decide (misc.length = 32) && decide ((payload name body enc).length < 10 ^ 10)
      && name_ok st name enc
      && decide (name ≠ [95, 95, 46, 83, 89, 77, 68, 69, 70])
      && decide (name ≠ [95, 95, 46, 83, 89, 77, 68, 69, 70, 32, 83, 79, 82, 84, 69, 68])
      && well_formed st rest

/-- The reader's `strtab` view shows the string table `st` seen last in the
archive: it points at the bytes of that table inside the buffer. -/
def strtab_rel (buf : List Byte) : Option (List Byte) → Option StrView → Prop
  | none, _ => True
  | some t, some v => ∃ p0 more, buf = p0 ++ (t ++ more) ∧ v.off = (p0.length : Int)
  | some _, none => False

/-- An archive with a symbol table, a string table holding `abc/\n` and `x/\n`,
and three members: `foo` (short name), `x` (SysV name at offset 5) and `bsd`
(BSD name). -/
def example_archive : List Item :=
  [.symtab false (List.replicate 32 32) [0, 0, 0],
    .strtab (List.replicate 32 32) [97, 98, 99, 47, 10, 120, 47, 10],
    .member [102, 111, 111] [1, 2, 3] .short (List.replicate 32 32),
    .member [120] [7] (.sysv 5) (List.replicate 32 32),
    .member [98, 115, 100] [9, 9] .bsd (List.replicate 32 32)]

/-- An archive whose only member is named `__.SYMDEF` (short name) and has the
two-byte body `01 02`. -/
def symdef_archive : List Item :=
  [.member [95, 95, 46, 83, 89, 77, 68, 69, 70] [1, 2] .short (List.replicate 32 32)]

/-- An archive whose only member is named `#1` (short name, header `#1/`). -/
def hash_one_archive : List Item :=
  [.member [35, 49] [1, 2] .short (List.replicate 32 32)]

/-- An archive whose only member has the BSD name `a\0b`. -/
def nul_name_archive : List Item :=
  [.member [97, 0, 98] [1, 2] .bsd (List.replicate 32 32)]

/-! ### Definitions used to state the properties of the two readers -/

/-- One pass of the loop of `read_fat_archive_members` as the properties below
see it: the offset of the header parsed in the pass and the slice pushed in it,
`none` when the pass pushes nothing. -/
structure Pass where
  hdr : Int
  out : Option Member
deriving DecidableEq, Repr

/-- The loop of `read_fat_archive_members` (the same tests and the same
arithmetic as `read_fat_loop`), keeping a record of every pass instead of the
slices alone. -/
def read_fat_trace : Nat → List Byte → Int → Option StrView → List Pass → Res (List Pass)
  | 0, _, _, _, _ => .more
  | n + 1, buf, data, strtab, tr =>
    if 2 ≤ wrap64 (buf.length - data) then
      let hdr := if data % 2 ≠ 0 then data + 1 else data
      let body := hdr + 60
      match (at_off buf (hdr + 48)).bind atol with
      | none => .err
      | some size =>
        let data1 := wrap64 (body + size)
        match ArHdr.is_strtab buf hdr with
        | none => .err
        | some true => read_fat_trace n buf data1 (some ⟨body, to_u64 size⟩) (tr ++ [⟨hdr, none⟩])
        | some false =>
          match ArHdr.is_symtab buf hdr with
          | none => .err
          | some true => read_fat_trace n buf data1 strtab (tr ++ [⟨hdr, none⟩])
          | some false =>
            match ArHdr.read_name buf hdr strtab body with
            | none => .err
            | some (name, body1) =>
              if name = [95, 95, 46, 83, 89, 77, 68, 69, 70]
                  ∨ name = [95, 95, 46, 83, 89, 77, 68, 69, 70, 32, 83, 79, 82, 84, 69, 68] then
                read_fat_trace n buf data1 strtab (tr ++ [⟨hdr, none⟩])
              else
                read_fat_trace n buf data1 strtab
                  (tr ++ [⟨hdr, some ⟨name, to_u64 body1, to_u64 (data1 - body1)⟩⟩])
    else .val tr

/-- The passes of `read_fat_archive_members` on the buffer. -/
def read_fat_archive_trace (buf : List Byte) : Res (List Pass) :=
  read_fat_trace (buf.length + 1) buf 8 none []

/-- The slices pushed in a list of passes, in order. -/
def slices (tr : List Pass) : List Member := tr.filterMap (fun p => p.out)

/-- A fat archive with a symbol table, a member named `__.SYMDEF` and the
member `foo`. -/
def mixed_archive : List Item :=
  [.symtab false (List.replicate 32 32) [0, 0, 0, 0],
    .member [95, 95, 46, 83, 89, 77, 68, 69, 70] [1, 2] .short (List.replicate 32 32),
    .member [102, 111, 111] [1, 2, 3] .short (List.replicate 32 32)]

/-- The state of the loop of `read_thin_archive_members` after `k` more passes
from the state `s`; `none` when the call ends before. -/
def thin_iter (env : Env) (mf_name buf : List Byte) : Nat → ThinState → Option ThinState
  | 0, s => some s
  | k + 1, s =>
    match thin_pass env mf_name buf s with
    | .inl s1 => thin_iter env mf_name buf k s1
    | .inr _ => none

/-- A file system for the examples: the three files `lib/obj/a.o`, `/abs/b.o`
and `lib/c.o`; the directory of a path is what stands before its last `/`, and
joining puts a `/` between the two parts. -/
def example_env : Env where
  open_file := fun path =>
    if path = [108, 105, 98, 47, 111, 98, 106, 47, 97, 46, 111] then some [1, 2, 3]
    else if path = [47, 97, 98, 115, 47, 98, 46, 111] then some [4, 5]
    else if path = [108, 105, 98, 47, 99, 46, 111] then some [6]
    else none
  parent_path := fun p => (p.reverse.dropWhile (fun c => c != 47)).tail.reverse
  join := fun d n => d ++ [47] ++ n

/-- The thin archive `lib/libx.a` of the examples: a string table holding
`obj/a.o/\n`, then the member `obj/a.o` (SysV name at offset 0), the member
`/abs/b.o` (BSD name, written after its header) and a header with the short
name `foo/`. -/
def thin_example : List Byte :=
  [33, 60, 116, 104, 105, 110, 62, 10]
    ++ ar_header [47, 47] (List.replicate 32 32) 10
    ++ [111, 98, 106, 47, 97, 46, 111, 47, 10, 10]
    ++ ar_header [47, 48] (List.replicate 32 32) 3
    ++ ar_header [35, 49, 47, 56] (List.replicate 32 32) 2
    ++ [47, 97, 98, 115, 47, 98, 46, 111]
    ++ ar_header [102, 111, 111, 47] (List.replicate 32 32) 0

/-- The name `lib/libx.a`. -/
def thin_example_name : List Byte := [108, 105, 98, 47, 108, 105, 98, 120, 46, 97]

/-- The path the spec gives the member named `n` of the thin archive named
`archive`: `n` itself when it is absolute (begins with `/`), otherwise the
directory of the archive joined with `n`. -/
def resolved_path (env : Env) (archive n : List Byte) : List Byte :=
  match n with
  | c :: _ => if c = 47 then n else env.join (env.parent_path archive) n
  | [] => env.join (env.parent_path archive) n

/-- A fat archive whose only header has the SysV name `/0` and no string table
before it. -/
def sysv_only_fat : List Byte :=
  [33, 60, 97, 114, 99, 104, 62, 10] ++ ar_header [47, 48] (List.replicate 32 32) 0

/-- A thin archive whose only header has the SysV name `/0` and no string table
before it. -/
def sysv_only_thin : List Byte :=
  [33, 60, 116, 104, 105, 110, 62, 10] ++ ar_header [47, 48] (List.replicate 32 32) 0

/-- A fat archive whose only member has the BSD name field `\0ab`: its first
byte is NUL. -/
def leading_nul_archive : List Item :=
  [.member [0, 97, 98] [1, 2] .bsd (List.replicate 32 32)]

/-- The bytes of a BSD name field that stand before its first NUL byte, all of
it when it holds none. -/
def before_nul (f : List Byte) : List Byte := f.takeWhile (fun c => c != 0)

/-- The thin archive `lib/libx.a` with a member whose BSD name is `__.SYMDEF`
followed by the ordinary member `/abs/b.o` (BSD name). -/
def symdef_thin : List Byte :=
  [33, 60, 116, 104, 105, 110, 62, 10]
    ++ ar_header [35, 49, 47, 57] (List.replicate 32 32) 9
    ++ [95, 95, 46, 83, 89, 77, 68, 69, 70] ++ [10]
    ++ ar_header [35, 49, 47, 56] (List.replicate 32 32) 2
    ++ [47, 97, 98, 115, 47, 98, 46, 111]

/-- The thin archive `symdef_thin` without its first member. -/
def no_symdef_thin : List Byte :=
  [33, 60, 116, 104, 105, 110, 62, 10]
    ++ ar_header [35, 49, 47, 56] (List.replicate 32 32) 2
    ++ [47, 97, 98, 115, 47, 98, 46, 111]

/-- A fat archive of 68 bytes whose only header is a symbol table (`/ `) with
the size field `-60`. -/
def negative_size_archive : List Byte :=
  [33, 60, 97, 114, 99, 104, 62, 10] ++ pad_right [47] 16 ++ List.replicate 32 32
    ++ pad_right [45, 54, 48] 10 ++ [96, 10]

/-- What the pass over the header at `p.hdr`, whose size field reads `size`,
pushes: nothing for a string table, a symbol table or a member whose decoded
name is `__.SYMDEF` or `__.SYMDEF SORTED`; otherwise the slice that runs from
the pointer `read_name` leaves to `body + size`, under the decoded name. -/
def Pass.pushed (buf : List Byte) (p : Pass) (size : Int) : Prop :=
  (p.out = none
      ∧ (ArHdr.is_strtab buf p.hdr = some true ∨ ArHdr.is_symtab buf p.hdr = some true
        ∨ ∃ (st : Option StrView) (name : List Byte) (body1 : Int),
            ArHdr.read_name buf p.hdr st (p.hdr + 60) = some (name, body1)
              ∧ (name = [95, 95, 46, 83, 89, 77, 68, 69, 70]
                ∨ name = [95, 95, 46, 83, 89, 77, 68, 69, 70, 32, 83, 79, 82, 84, 69, 68])))
    ∨ ∃ (st : Option StrView) (name : List Byte) (body1 : Int),
        ArHdr.is_strtab buf p.hdr = some false ∧ ArHdr.is_symtab buf p.hdr = some false
          ∧ ArHdr.read_name buf p.hdr st (p.hdr + 60) = some (name, body1)
          ∧ ¬ (name = [95, 95, 46, 83, 89, 77, 68, 69, 70]
            ∨ name = [95, 95, 46, 83, 89, 77, 68, 69, 70, 32, 83, 79, 82, 84, 69, 68])
          ∧ p.out = some ⟨name, to_u64 body1, to_u64 (wrap64 (p.hdr + 60 + size) - body1)⟩

/-- The passes of a scan that starts at the read offset `data` and returns:
each pass finds at least two bytes left, parses the header at the aligned
offset, and hands the offset `body + size` (as a 64-bit value) to the next;
after the last pass fewer than two bytes are left. -/
def pass_chain (buf : List Byte) : Int → List Pass → Prop
  | data, [] => ¬ 2 ≤ wrap64 (buf.length - data)
  | data, p :: rest =>
    2 ≤ wrap64 (buf.length - data) ∧ p.hdr = align2 data
      ∧ ∃ size, (at_off buf (p.hdr + 48)).bind atol = some size ∧ p.pushed buf size
          ∧ pass_chain buf (wrap64 (p.hdr + 60 + size)) rest

/-- How a scan that returns goes on from the read offset `data`, given the
passes `rest` it still makes: the next header parsed stands at `data` after
the alignment fix-up; when no pass is left, fewer than two bytes remain from
`data` on. -/
def next_header (buf : List Byte) (data : Int) : List Pass → Prop
  | [] => ¬ 2 ≤ wrap64 (buf.length - data)
  | q :: _ => q.hdr = align2 data

/-- The name `read_name` makes of the BSD name field `f`: `f` up to its first
NUL byte, but all of `f` when that NUL byte is its first byte. -/
def bsd_name (f : List Byte) : List Byte := if f.head? = some 0 then f else before_nul f

/-- A fat archive with the member `bsd` (BSD name, body `09 09`) followed by
the member `foo` (short name). -/
def bsd_then_short : List Item :=
  [.member [98, 115, 100] [9, 9] .bsd (List.replicate 32 32),
    .member [102, 111, 111] [1, 2, 3] .short (List.replicate 32 32)]

/-- Every size field that the scan of `read_fat_archive_members` reads in its
first `n` passes from the read offset `data` on holds a number that is not
negative. The passes are those of the loop: a pass is made while two bytes are
left, and the next starts where this one's size field says, unless a read of
this pass fails. -/
def size_fields_nonneg : Nat → List Byte → Int → Option StrView → Bool
  | 0, _, _, _ => true
  | n + 1, buf, data, strtab =>
    if 2 ≤ wrap64 (buf.length - data) then
      match (at_off buf (align2 data + 48)).bind atol with
      | none => true
      | some size =>
        decide (0 ≤ size) &&
          match ArHdr.is_strtab buf (align2 data) with
          | none => true
          | some true =>
            size_fields_nonneg n buf (wrap64 (align2 data + 60 + size))
              (some ⟨align2 data + 60, to_u64 size⟩)
          | some false =>
            match ArHdr.is_symtab buf (align2 data) with
            | none => true
            | some true => size_fields_nonneg n buf (wrap64 (align2 data + 60 + size)) strtab
            | some false =>
              match ArHdr.read_name buf (align2 data) strtab (align2 data + 60) with
              | none => true
              | some _ => size_fields_nonneg n buf (wrap64 (align2 data + 60 + size)) strtab
    else true

/-- A well-formed fat archive whose only member `a` has the body `-1 `: a
minus sign in a body, none in a size field. -/
def minus_body_archive : List Item :=
  [.member [97] [45, 49, 32] .short (List.replicate 32 32)]

/-! ### Definitions used to state the properties of the file-type code -/

/-- The `w` bytes of `n` in little-endian order. -/
def le_bytes : Nat → Nat → List Byte
  | 0, _ => []
  | w + 1, n => ⟨n % 256, Nat.mod_lt _ (by decide)⟩ :: le_bytes w (n / 256)

/-- A 40-byte `Elf32_Shdr` in little-endian order with the given `sh_name`,
`sh_type`, `sh_offset`, `sh_size`, `sh_link`, `sh_info`, `sh_addralign` and
`sh_entsize`; `sh_flags` and `sh_addr` are zero. -/
def shdr32 (name type offset size link info addralign entsize : Nat) : List Byte :=
  le_bytes 4 name ++ le_bytes 4 type ++ le_bytes 4 0 ++ le_bytes 4 0 ++ le_bytes 4 offset
    ++ le_bytes 4 size ++ le_bytes 4 link ++ le_bytes 4 info ++ le_bytes 4 addralign
    ++ le_bytes 4 entsize

/-- The section name table of the example objects:
`\0.symtab\0.gnu.lto_.symtab.0\0.shstrtab\0`, the three names at the offsets 1,
9 and 28. -/
def example_shstrtab : List Byte :=
  [0] ++ [46, 115, 121, 109, 116, 97, 98, 0]
    ++ [46, 103, 110, 117, 46, 108, 116, 111, 95, 46, 115, 121, 109, 116, 97, 98, 46, 48, 0]
    ++ [46, 115, 104, 115, 116, 114, 116, 97, 98, 0]

/-- A well-formed 32-bit little-endian ELF relocatable object of 270 bytes with
four sections: the null section, `.symtab` (one null symbol, at offset 212),
`.gnu.lto_.symtab.0` (four bytes at offset 228) and `.shstrtab` (at offset 232).
The section header table stands at offset 52; `symtab_first` tells whether the
header of `.symtab` stands before that of `.gnu.lto_.symtab.0` in it. -/
def lto_example (symtab_first : Bool) : List Byte :=
  [127, 69, 76, 70, 1, 1, 1, 0, 0, 0, 0, 0, 0, 0, 0, 0]
    ++ le_bytes 2 1 ++ le_bytes 2 3 ++ le_bytes 4 1 ++ le_bytes 4 0 ++ le_bytes 4 0
    ++ le_bytes 4 52 ++ le_bytes 4 0 ++ le_bytes 2 52 ++ le_bytes 2 0 ++ le_bytes 2 0
    ++ le_bytes 2 40 ++ le_bytes 2 4 ++ le_bytes 2 3
    ++ shdr32 0 0 0 0 0 0 0 0
    ++ (if symtab_first then shdr32 1 2 212 16 3 1 4 16 ++ shdr32 9 1 228 4 0 0 1 0
        else shdr32 9 1 228 4 0 0 1 0 ++ shdr32 1 2 212 16 3 1 4 16)
    ++ shdr32 28 3 232 38 0 0 1 0
    ++ List.replicate 16 0
    ++ [1, 2, 3, 4]
    ++ example_shstrtab

/-- The type (`st_type`, the low four bits of `st_info`) of the symbol `j` of
the symbol table at offset `symtab_off`; `none` when it lies outside the
buffer. -/
def sym_type (E : Target) (data : List Byte) (symtab_off j : Nat) : Option Nat :=
  (read_uint E.is_le data (symtab_off + j * sizeof_sym E + off_st_info E) 1).map (fun v => v % 16)

/-- Section `s` is the first `SHT_SYMTAB` section of the section header table
at `shdrs_off`: the types of the sections before it can be read and are other
types. -/
def first_symtab (E : Target) (data : List Byte) (shdrs_off s : Nat) : Prop :=
  (∀ q, q < s → ∃ ty, read_uint E.is_le data (shdrs_off + q * sizeof_shdr E + off_sh_type) 4
      = some ty ∧ ty ≠ SHT_SYMTAB)
    ∧ read_uint E.is_le data (shdrs_off + s * sizeof_shdr E + off_sh_type) 4 = some SHT_SYMTAB

/-- The names of the sections `0` to `s` can be read from the section name
table, the section `shstrtab_idx`. -/
def names_readable (E : Target) (data : List Byte) (shdrs_off shstrtab_idx s : Nat) : Prop :=
  ∃ strtab_off,
    read_uint E.is_le data (shdrs_off + shstrtab_idx * sizeof_shdr E + (off_sh_offset E).1)
        (off_sh_offset E).2 = some strtab_off
      ∧ ∀ q, q ≤ s → ∃ nm name,
          read_uint E.is_le data (shdrs_off + q * sizeof_shdr E + off_sh_name) 4 = some nm
            ∧ c_str data (strtab_off + nm) = some name

/-- A 16-byte `Elf32_Sym` in little-endian order. -/
def sym32 (name value size info other shndx : Nat) : List Byte :=
  le_bytes 4 name ++ le_bytes 4 value ++ le_bytes 4 size ++ le_bytes 1 info ++ le_bytes 1 other
    ++ le_bytes 2 shndx

/-- The slim LTO marker in the symbol table that section `s` describes: `i` is
the first symbol after index 0 whose type is none of NOTYPE (0), SECTION (3)
and FILE (4), the symbols from 1 up to `i` all being of one of these three
types; its `st_shndx` is `SHN_COMMON` (0xfff2); and its name, read from the
string table that `sh_link` names, begins with `__gnu_lto_`. The numbers are
those of the ELF format. -/
def slim_marker (E : Target) (data : List Byte) (shdrs_off s : Nat) : Prop :=
  ∃ (sh_offset sh_size i sh_link strtab_off st_name : Nat) (name : List Byte),
    read_uint E.is_le data (shdrs_off + s * sizeof_shdr E + (off_sh_offset E).1)
        (off_sh_offset E).2 = some sh_offset
      ∧ read_uint E.is_le data (shdrs_off + s * sizeof_shdr E + (off_sh_size E).1)
        (off_sh_size E).2 = some sh_size
      ∧ 1 ≤ i ∧ i < sh_size / sizeof_sym E
      ∧ (∀ j, 1 ≤ j → j < i →
          ∃ ty, sym_type E data sh_offset j = some ty ∧ (ty = 0 ∨ ty = 3 ∨ ty = 4))
      ∧ (∃ ty, sym_type E data sh_offset i = some ty ∧ ty ≠ 0 ∧ ty ≠ 3 ∧ ty ≠ 4)
      ∧ read_uint E.is_le data (sh_offset + i * sizeof_sym E + off_st_shndx E) 2 = some 65522
      ∧ read_uint E.is_le data (shdrs_off + s * sizeof_shdr E + off_sh_link E) 4 = some sh_link
      ∧ read_uint E.is_le data (shdrs_off + sh_link * sizeof_shdr E + (off_sh_offset E).1)
        (off_sh_offset E).2 = some strtab_off
      ∧ read_uint E.is_le data (sh_offset + i * sizeof_sym E + off_st_name) 4 = some st_name
      ∧ c_str data (strtab_off + st_name) = some name
      ∧ starts_with name [95, 95, 103, 110, 117, 95, 108, 116, 111, 95] = true

/-- An ELF object for the slim LTO test: a well-formed 32-bit little-endian
ELF relocatable object of 323 bytes with the sections null, `.symtab` (at
offset 212), `.strtab` (at offset 276) and `.shstrtab` (at offset 296); the
section header table stands at offset 52. The symbol table holds the null
symbol, a symbol named `a.c` with the given `st_info` and `st_shndx`, a SECTION
symbol, and the common symbol `__gnu_lto_slim`. -/
def slim_object (info1 shndx1 : Nat) : List Byte :=
  [127, 69, 76, 70, 1, 1, 1, 0, 0, 0, 0, 0, 0, 0, 0, 0]
    ++ le_bytes 2 1 ++ le_bytes 2 3 ++ le_bytes 4 1 ++ le_bytes 4 0 ++ le_bytes 4 0
    ++ le_bytes 4 52 ++ le_bytes 4 0 ++ le_bytes 2 52 ++ le_bytes 2 0 ++ le_bytes 2 0
    ++ le_bytes 2 40 ++ le_bytes 2 4 ++ le_bytes 2 3
    ++ shdr32 0 0 0 0 0 0 0 0
    ++ shdr32 1 2 212 64 2 3 4 16
    ++ shdr32 9 3 276 20 0 0 1 0
    ++ shdr32 17 3 296 27 0 0 1 0
    ++ sym32 0 0 0 0 0 0 ++ sym32 16 0 0 info1 0 shndx1 ++ sym32 0 0 0 3 0 1
    ++ sym32 1 1 1 17 0 65522
    ++ [0, 95, 95, 103, 110, 117, 95, 108, 116, 111, 95, 115, 108, 105, 109, 0, 97, 46, 99, 0]
    ++ [0, 46, 115, 121, 109, 116, 97, 98, 0, 46, 115, 116, 114, 116, 97, 98, 0,
        46, 115, 104, 115, 116, 114, 116, 97, 98, 0]

/-- A slim LTO object: in its symbol table a FILE symbol (`st_info` 4, section
index `SHN_ABS`) and a SECTION symbol stand before the common symbol
`__gnu_lto_slim`. -/
def slim_example : List Byte := slim_object 4 65521

end Mold


/-! # Theorems -/

namespace Mold

namespace Glob

/-! ## Compiling a pattern -/

theorem compile_loop_plain (p rest : List Byte) (hp : ∀ c ∈ p, c ≠ 91 ∧ c ≠ 92) :
    ∀ (vec : List Element) (n : Nat),
      compile_loop (n + p.length) (p ++ rest) vec
        = compile_loop n rest (p.foldl plain_step vec) := by
  induction p with
  | nil => intro vec n; simp
  | cons c p ih =>
    intro vec n
    have hc := hp c (List.mem_cons_self _ _)
    have hp' : ∀ d ∈ p, d ≠ 91 ∧ d ≠ 92 := fun d hd => hp d (List.mem_cons_of_mem _ hd)
    show compile_loop (n + p.length + 1) (c :: (p ++ rest)) vec = _
    simp only [compile_loop, hc.1, hc.2, if_false, List.foldl_cons]
    by_cases h63 : c = 63
    · simp only [h63, if_true, plain_step]
      exact ih hp' _ n
    · by_cases h42 : c = 42
      · simp only [h42, plain_step, if_true]
        simpa using ih hp' _ n
      · simp only [h63, h42, if_false, plain_step]
        exact ih hp' _ n

/-- A bracket expression in which no `]` follows is never closed. -/
theorem bracket_loop_unclosed :
    ∀ (n : Nat) (pat : List Byte) (bitset : Nat),
      (∀ c ∈ pat, c ≠ 93) → pat.length < n → bracket_loop n pat bitset = .err := by
  intro n
  induction n with
  | zero => intro pat bitset _ h; omega
  | succ n ih =>
    intro pat bitset hq hlen
    match pat with
    | [] => simp [bracket_loop]
    | c :: rest =>
      have hc : c ≠ 93 := hq c (List.mem_cons_self _ _)
      simp only [List.length_cons] at hlen
      have hsub : ∀ d ∈ (if c = 92 then rest else c :: rest), d ≠ 93 := by
        intro d hd
        by_cases h92 : c = 92
        · simp only [h92, if_true] at hd
          exact hq d (List.mem_cons_of_mem _ hd)
        · simp only [h92, if_false] at hd
          exact hq d hd
      have hl : (if c = 92 then rest else c :: rest).length ≤ rest.length + 1 := by
        by_cases h92 : c = 92
        · simp only [h92, if_true]; omega
        · simp only [h92, if_false, List.length_cons]; omega
      simp only [bracket_loop, hc, if_false]
      generalize (if c = 92 then rest else c :: rest) = pat1 at hsub hl
      match pat1 with
      | [] => rfl
      | [a] => exact ih _ _ (by simp) (by simp at hl ⊢; omega)
      | [a, b] =>
        exact ih _ _ (fun d hd => hsub d (by simp at hd ⊢; tauto)) (by simp at hl ⊢; omega)
      | a :: b :: e :: pat3 =>
        simp only [List.length_cons] at hl
        have h3 : ∀ d ∈ pat3, d ≠ 93 := fun d hd => hsub d (by simp [hd])
        simp only []
        split
        · split
          · match pat3 with
            | [] => rfl
            | e2 :: pat4 =>
              simp only []
              split
              · rfl
              · exact ih _ _ (fun d hd => h3 d (by simp [hd])) (by simp at hl ⊢; omega)
          · split
            · rfl
            · exact ih _ _ h3 (by omega)
        · exact ih _ _ (fun d hd => hsub d (by simp at hd ⊢; tauto)) (by simp; omega)

/-- With a budget above the length of its text the bracket loop answers within
the budget, and the text it leaves is shorter than the text it was given. -/
theorem bracket_loop_progress :
    ∀ (n : Nat) (pat : List Byte) (bitset : Nat), pat.length < n →
      bracket_loop n pat bitset = .err
        ∨ ∃ b pat2, bracket_loop n pat bitset = .val (b, pat2) ∧ pat2.length < pat.length := by
  intro n
  induction n with
  | zero => intro pat bitset h; omega
  | succ n ih =>
    intro pat bitset hlen
    match pat with
    | [] => left; simp [bracket_loop]
    | c :: rest =>
      simp only [List.length_cons] at hlen
      have hl : (if c = 92 then rest else c :: rest).length ≤ rest.length + 1 := by
        by_cases h92 : c = 92
        · simp only [h92, if_true]; omega
        · simp only [h92, if_false, List.length_cons]; omega
      simp only [bracket_loop]
      by_cases h93 : c = 93
      · right
        exact ⟨bitset, rest, by simp [h93], by simp⟩
      · simp only [h93, if_false]
        generalize (if c = 92 then rest else c :: rest) = pat1 at hl
        have key : ∀ (q : List Byte) (b : Nat), q.length < pat1.length →
            bracket_loop n q b = .err
              ∨ ∃ b2 pat2, bracket_loop n q b = .val (b2, pat2)
                  ∧ pat2.length < (c :: rest).length := by
          intro q b hq
          rcases ih q b (by omega) with h | ⟨b2, pat2, h, h2⟩
          · exact Or.inl h
          · exact Or.inr ⟨b2, pat2, h, by simp only [List.length_cons]; omega⟩
        match pat1 with
        | [] => left; rfl
        | [a] => exact key _ _ (by simp)
        | [a, b] => exact key _ _ (by simp)
        | a :: b :: e :: pat3 =>
          simp only []
          split
          · split
            · match pat3 with
              | [] => left; rfl
              | e2 :: pat4 =>
                simp only []
                split
                · left; rfl
                · exact key _ _ (by simp; omega)
            · split
              · left; rfl
              · exact key _ _ (by simp; omega)
          · exact key _ _ (by simp)

/-- The budget `pat.length + 1` that `compile` passes is never exhausted. -/
theorem compile_loop_ne_more :
    ∀ (n : Nat) (pat : List Byte) (vec : List Element), pat.length < n →
      compile_loop n pat vec ≠ .more := by
  intro n
  induction n with
  | zero => intro pat vec h; omega
  | succ n ih =>
    intro pat vec hlen
    match pat with
    | [] => simp [compile_loop]
    | c :: pat =>
      simp only [List.length_cons] at hlen
      simp only [compile_loop]
      split
      · have hl : (if (decide (pat.head? = some 94)) = true then pat.tail else pat).length
            ≤ pat.length := by
          split
          · simp
          · exact Nat.le_refl _
        rcases bracket_loop_progress _ _ 0 (Nat.lt_succ_self
            (if (decide (pat.head? = some 94)) = true then pat.tail else pat).length)
          with h | ⟨b, pat2, h, h2⟩
        · rw [h]; simp
        · rw [h]
          exact ih _ _ (by omega)
      · split
        · exact ih _ _ (by omega)
        · split
          · exact ih _ _ (by omega)
          · split
            · match pat with
              | [] => simp
              | d :: pat1 =>
                simp only [List.length_cons] at hlen
                exact ih _ _ (by omega)
            · exact ih _ _ (by omega)

/-- The result `none` of `compile` is always the `return {}` of the C++ code. -/
theorem compile_eq_none_iff (pat : List Byte) :
    compile pat = none ↔ compile_loop (pat.length + 1) pat [] = .err := by
  unfold compile
  have h := compile_loop_ne_more (pat.length + 1) pat [] (Nat.lt_succ_self _)
  cases hc : compile_loop (pat.length + 1) pat [] with
  | val v => simp
  | err => simp
  | more => exact absurd hc h

theorem plain_of_not_mem {p : List Byte} (h1 : (91 : Byte) ∉ p) (h2 : (92 : Byte) ∉ p) :
    ∀ c ∈ p, c ≠ 91 ∧ c ≠ 92 :=
  fun _ hc => ⟨fun h => h1 (h ▸ hc), fun h => h2 (h ▸ hc)⟩

theorem compile_plain (p : List Byte) (hp : ∀ c ∈ p, c ≠ 91 ∧ c ≠ 92) :
    compile p = some (p.foldl plain_step []) := by
  unfold compile
  have h := compile_loop_plain p [] hp [] 1
  rw [List.append_nil, Nat.add_comm] at h
  rw [h]
  simp [compile_loop]

/-- C7. An unterminated bracket is a compile error: when `p` contains neither
`[` nor `\` and `q` contains no `]`, `compile (p ++ "[" ++ q)` is the empty
optional. -/
theorem compile_unterminated_bracket (p q : List Byte)
    (hp1 : (91 : Byte) ∉ p) (hp2 : (92 : Byte) ∉ p) (hq : (93 : Byte) ∉ q) :
    compile (p ++ [91] ++ q) = none := by
  have hp := plain_of_not_mem hp1 hp2
  unfold compile
  have hlen : (p ++ [91] ++ q).length + 1 = (q.length + 2) + p.length := by
    simp only [List.length_append, List.length_singleton]; omega
  rw [hlen, List.append_assoc, compile_loop_plain p _ hp]
  simp only [List.singleton_append, compile_loop, if_true]
  rw [bracket_loop_unclosed]
  · intro c hc h
    subst h
    split at hc
    · exact hq (List.mem_of_mem_tail hc)
    · exact hq hc
  · omega

/-- The pattern `a[` of the spec does not compile. -/
theorem compile_unterminated_bracket_witness :
    (91 : Byte) ∉ ([97] : List Byte) ∧ (92 : Byte) ∉ ([97] : List Byte)
      ∧ (93 : Byte) ∉ ([] : List Byte) ∧ compile ([97] ++ [91] ++ []) = none :=
  ⟨by decide, by decide, by decide,
    compile_unterminated_bracket [97] [] (by decide) (by decide) (by decide)⟩

theorem isalnum_ne {c : Byte} (h : isalnum c = true) :
    c ≠ 91 ∧ c ≠ 92 ∧ c ≠ 93 ∧ c ≠ 94 ∧ c ≠ 45 := by
  have hv : ∀ k : Nat, c = (k : Byte) → k < 256 → c.val = k := by
    intro k hk hlt
    rw [hk]; exact Fin.val_cast_of_lt hlt
  simp only [isalnum, Bool.or_eq_true, Bool.and_eq_true, decide_eq_true_eq] at h
  refine ⟨?_, ?_, ?_, ?_, ?_⟩ <;> intro hc
  · have := hv 91 hc (by omega); omega
  · have := hv 92 hc (by omega); omega
  · have := hv 93 hc (by omega); omega
  · have := hv 94 hc (by omega); omega
  · have := hv 45 hc (by omega); omega

/-- C8. A reversed range is a compile error: for alphanumeric bytes `s`, `e`
with `e < s`, a prefix `p` containing neither `[` nor `\`, and any `r`,
`compile (p ++ "[" ++ s ++ "-" ++ e ++ r)` is the empty optional. -/
theorem compile_reversed_range (p r : List Byte) (s e : Byte)
    (hs : isalnum s = true) (he : isalnum e = true) (hlt : e < s)
    (hp1 : (91 : Byte) ∉ p) (hp2 : (92 : Byte) ∉ p) :
    compile (p ++ [91] ++ [s] ++ [45] ++ [e] ++ r) = none := by
  have hp := plain_of_not_mem hp1 hp2
  unfold compile
  have hlen : (p ++ [91] ++ [s] ++ [45] ++ [e] ++ r).length + 1 = (r.length + 5) + p.length := by
    simp only [List.length_append, List.length_singleton]; omega
  have hs' := isalnum_ne hs
  have he' := isalnum_ne he
  have e1 : p ++ [91] ++ [s] ++ [45] ++ [e] ++ r = p ++ (91 :: s :: 45 :: e :: r) := by simp
  rw [hlen, e1, compile_loop_plain p _ hp]
  have hneg : ¬ (s = 94) := hs'.2.2.2.1
  simp [compile_loop, bracket_loop, hs'.2.2.1, hs'.2.1, he'.2.1, hlt, hneg]

/-- The pattern `x[z-a]y` does not compile. -/
theorem compile_reversed_range_witness :
    isalnum (122 : Byte) = true ∧ isalnum (97 : Byte) = true ∧ (97 : Byte) < 122
      ∧ (91 : Byte) ∉ ([120] : List Byte) ∧ (92 : Byte) ∉ ([120] : List Byte)
      ∧ compile ([120] ++ [91] ++ [122] ++ [45] ++ [97] ++ [93, 121]) = none :=
  ⟨by decide, by decide, by decide, by decide, by decide,
    compile_reversed_range [120] [93, 121] 122 97 (by decide) (by decide) (by decide)
      (by decide) (by decide)⟩

theorem append_char_cases (vec : List Element) (c : Byte) :
    (∃ init s b, vec = init ++ [⟨.STRING, s, b⟩]
        ∧ append_char vec c = init ++ [⟨.STRING, s ++ [c], b⟩])
      ∨ ((∀ e ∈ vec.getLast?, e.kind ≠ .STRING)
        ∧ append_char vec c = vec ++ [⟨.STRING, [c], 0⟩]) := by
  unfold append_char
  cases hl : vec.getLast? with
  | none =>
    right
    have : vec = [] := by simpa using hl
    simp [this]
  | some e =>
    by_cases hk : e.kind = .STRING
    · left
      have hv : vec.dropLast ++ [e] = vec := List.dropLast_append_getLast? e (by simp [hl])
      refine ⟨vec.dropLast, e.str, e.bitset, ?_, ?_⟩
      · rw [← hk]; exact hv.symm
      · simp [hk]
    · right
      simp [hk]

/-- C9. A trailing lone backslash is a compile error, and a backslash followed by
a byte `c` compiles and appends `c` to the literal run: for `p` containing neither
`[` nor `\`, `compile (p ++ "\")` is the empty optional, while
`compile (p ++ "\" ++ c)` is the vector of `compile p` with `c` appended to its
trailing `STRING` element (a new `STRING` element holding `c` when the vector
does not end in one). -/
theorem compile_trailing_backslash (p : List Byte)
    (hp1 : (91 : Byte) ∉ p) (hp2 : (92 : Byte) ∉ p) :
    compile (p ++ [92]) = none
      ∧ ∀ c : Byte, ∃ vec, compile p = some vec
          ∧ compile (p ++ [92] ++ [c]) = some (append_char vec c)
          ∧ ((∃ init s b, vec = init ++ [⟨.STRING, s, b⟩]
                ∧ append_char vec c = init ++ [⟨.STRING, s ++ [c], b⟩])
              ∨ ((∀ e ∈ vec.getLast?, e.kind ≠ .STRING)
                ∧ append_char vec c = vec ++ [⟨.STRING, [c], 0⟩])) := by
  have hp := plain_of_not_mem hp1 hp2
  constructor
  · unfold compile
    have hlen : (p ++ [92]).length + 1 = 2 + p.length := by
      simp only [List.length_append, List.length_singleton]; omega
    rw [hlen, compile_loop_plain p _ hp]
    simp [compile_loop]
  · intro c
    refine ⟨p.foldl plain_step [], compile_plain p hp, ?_, append_char_cases _ c⟩
    unfold compile
    have hlen : (p ++ [92] ++ [c]).length + 1 = 3 + p.length := by
      simp only [List.length_append, List.length_singleton]; omega
    rw [hlen, List.append_assoc, compile_loop_plain p _ hp]
    simp [compile_loop]

/-- The patterns `ab\` and `ab\*`. -/
theorem compile_trailing_backslash_witness :
    (91 : Byte) ∉ ([97, 98] : List Byte) ∧ (92 : Byte) ∉ ([97, 98] : List Byte)
      ∧ compile ([97, 98] ++ [92]) = none
      ∧ compile ([97, 98] ++ [92] ++ [42]) = some [⟨.STRING, [97, 98, 42], 0⟩] := by
  have h := compile_trailing_backslash [97, 98] (by decide) (by decide)
  refine ⟨by decide, by decide, h.1, ?_⟩
  obtain ⟨vec, h1, h2, _⟩ := h.2 42
  have hv : vec = [⟨.STRING, [97, 98], 0⟩] := by
    have : compile [97, 98] = some [⟨.STRING, [97, 98], 0⟩] := by decide
    rw [this] at h1
    exact (Option.some.inj h1).symm
  rw [h2, hv]
  decide

theorem coalesced_push (vec : List Element) (x : Element) (hx : x.kind ≠ .STRING)
    (h : Coalesced vec) : Coalesced (vec ++ [x]) := by
  unfold Coalesced at *
  rw [List.chain'_append]
  refine ⟨h, List.chain'_singleton _, ?_⟩
  intro a _ y hy
  simp only [List.head?_cons, Option.mem_def, Option.some.injEq] at hy
  subst hy
  exact fun hh => hx hh.2

theorem coalesced_append_char (vec : List Element) (c : Byte) (h : Coalesced vec) :
    Coalesced (append_char vec c) := by
  rcases append_char_cases vec c with ⟨init, s, b, hv, hr⟩ | ⟨hlast, hr⟩
  · rw [hr]
    rw [hv] at h
    unfold Coalesced at *
    rw [List.chain'_append] at h ⊢
    refine ⟨h.1, List.chain'_singleton _, ?_⟩
    intro a ha y hy
    simp only [List.head?_cons, Option.mem_def, Option.some.injEq] at hy
    subst hy
    exact fun hh => h.2.2 a ha ⟨.STRING, s, b⟩ (by simp) ⟨hh.1, rfl⟩
  · rw [hr]
    unfold Coalesced at *
    rw [List.chain'_append]
    refine ⟨h, List.chain'_singleton _, ?_⟩
    intro a ha y _
    exact fun hh => hlast a ha hh.1

theorem compile_loop_coalesced :
    ∀ (n : Nat) (pat : List Byte) (vec g : List Element),
      compile_loop n pat vec = .val g → Coalesced vec → Coalesced g := by
  intro n
  induction n with
  | zero => intro pat vec g h; simp [compile_loop] at h
  | succ n ih =>
    intro pat vec g h hv
    match pat with
    | [] =>
      simp only [compile_loop, Res.val.injEq] at h
      exact h ▸ hv
    | c :: pat =>
      simp only [compile_loop] at h
      split at h
      · split at h
        · exact ih _ _ _ h (coalesced_push _ _ (by simp) hv)
        · exact absurd h (by simp)
        · exact absurd h (by simp)
      · split at h
        · exact ih _ _ _ h (coalesced_push _ _ (by simp [Element.ofKind]) hv)
        · split at h
          · exact ih _ _ _ h (coalesced_push _ _ (by simp [Element.ofKind]) hv)
          · split at h
            · split at h
              · exact absurd h (by simp)
              · exact ih _ _ _ h (coalesced_append_char _ _ hv)
            · exact ih _ _ _ h (coalesced_append_char _ _ hv)

/-- C10. Coalescing invariant: in the element vector of a pattern that compiles,
no two neighbouring elements are both `STRING` elements. -/
theorem compile_coalesced (p : List Byte) (g : List Element) (h : compile p = some g) :
    ∀ (l₁ : List Element) (a b : Element) (l₂ : List Element),
      g = l₁ ++ a :: b :: l₂ → ¬ (a.kind = .STRING ∧ b.kind = .STRING) := by
  have hg : Coalesced g := by
    unfold compile at h
    split at h
    · rename_i vec hvec
      have := compile_loop_coalesced _ _ _ _ hvec List.chain'_nil
      exact (Option.some.inj h) ▸ this
    · exact absurd h (by simp)
  intro l₁ a b l₂ hsplit
  rw [hsplit] at hg
  unfold Coalesced at hg
  rw [List.chain'_append_cons_cons] at hg
  exact hg.2.1

/-- The pattern `ab*c\d?` compiles to `ab`, Star, `cd`, Question. -/
theorem compile_coalesced_witness :
    compile [97, 98, 42, 99, 92, 100, 63]
        = some [⟨.STRING, [97, 98], 0⟩, ⟨.STAR, [], 0⟩, ⟨.STRING, [99, 100], 0⟩,
            ⟨.QUESTION, [], 0⟩]
      ∧ ∀ (l₁ : List Element) (a b : Element) (l₂ : List Element),
          [⟨.STRING, [97, 98], 0⟩, ⟨.STAR, [], 0⟩, ⟨.STRING, [99, 100], 0⟩,
              ⟨.QUESTION, [], 0⟩] = l₁ ++ a :: b :: l₂ →
            ¬ (a.kind = .STRING ∧ b.kind = .STRING) :=
  ⟨by decide, compile_coalesced [97, 98, 42, 99, 92, 100, 63] _ (by decide)⟩

/-! ## Matching -/

theorem star_string_loop_ne_more (lit : List Byte) (k : List Byte → Res Bool)
    (hk : ∀ s, k s ≠ .more) :
    ∀ (n : Nat) (str : List Byte), str.length < n → star_string_loop lit k n str ≠ .more := by
  intro n
  induction n with
  | zero => intro str h; omega
  | succ n ih =>
    intro str hlen
    simp only [star_string_loop]
    split
    · simp
    · rename_i pos _
      have hk' := hk (List.drop (pos + lit.length) str)
      split
      · simp
      · split
        · exact ih _ (by simp only [List.length_drop]; omega)
        · simp
      · simp
      · rename_i h; exact absurd h hk'

theorem for_loop_ne_more (body : Nat → Res Bool) (hb : ∀ j, body j ≠ .more) :
    ∀ js : List Nat, for_loop body js ≠ .more := by
  intro js
  induction js with
  | nil => simp [for_loop]
  | cons j js ih =>
    simp only [for_loop]
    have := hb j
    split
    · simp
    · exact ih
    · simp
    · rename_i h; exact absurd h this

theorem do_match_nil (signed_char : Bool) (str : List Byte) :
    do_match signed_char [] str = .val str.isEmpty := rfl

theorem do_match_cons (signed_char : Bool) (e : Element) (elements : List Element)
    (str : List Byte) :
    do_match signed_char (e :: elements) str =
      match e.kind with
      | .STRING =>
        if e.str.isPrefixOf str then do_match signed_char elements (str.drop e.str.length)
        else .val false
      | .STAR =>
        match elements with
        | [] => .val true
        | e1 :: rest =>
          if e1.kind = .STRING then
            star_string_loop e1.str (do_match signed_char rest) (str.length + 1) str
          else
            for_loop (fun j => do_match signed_char (e1 :: rest) (str.drop j))
              (List.range str.length)
      | .QUESTION =>
        match str with
        | [] => .val false
        | _ :: str1 => do_match signed_char elements str1
      | .BRACKET =>
        match str with
        | [] => .val false
        | c :: str1 =>
          if char_to_size_t signed_char c < 256 then
            if bitset_test e.bitset (char_to_size_t signed_char c) then
              do_match signed_char elements str1
            else .val false
          else .err := by
  obtain ⟨kind, s, b⟩ := e
  cases kind
  · rfl
  · cases elements <;> rfl
  · cases str <;> rfl
  · cases str <;> rfl

/-- The budgets that `do_match` passes to its loops are never exhausted: the
model of `do_match` always answers with a value or with `Res.err`. -/
theorem do_match_ne_more (signed_char : Bool) :
    ∀ (elements : List Element) (str : List Byte),
      do_match signed_char elements str ≠ .more := by
  have main : ∀ (m : Nat) (elements : List Element), elements.length ≤ m →
      ∀ str, do_match signed_char elements str ≠ .more := by
    intro m
    induction m with
    | zero =>
      intro elements h str
      have : elements = [] := List.length_eq_zero.mp (by omega)
      simp [this, do_match_nil]
    | succ m ih =>
      intro elements h str
      match elements, h with
      | [], _ => simp [do_match_nil]
      | e :: elements, h =>
        simp only [List.length_cons] at h
        have ih1 : ∀ s, do_match signed_char elements s ≠ .more :=
          fun s => ih elements (by omega) s
        rw [do_match_cons]
        split
        · split
          · exact ih1 _
          · simp
        · match elements, h, ih1 with
          | [], _, _ => simp
          | e1 :: rest, h, ih1 =>
            simp only [List.length_cons] at h
            simp only []
            split
            · exact star_string_loop_ne_more _ _
                (fun s => ih rest (by omega) s) _ _ (Nat.lt_succ_self _)
            · exact for_loop_ne_more _ (fun j => ih1 _) _
        · split
          · simp
          · exact ih1 _
        · split
          · simp
          · split
            · split
              · exact ih1 _
              · simp
            · simp
  exact fun elements str => main elements.length elements (Nat.le_refl _) str

theorem find_some (lit : List Byte) :
    ∀ (str : List Byte) (pos : Nat), find str lit = some pos →
      lit.isPrefixOf (str.drop pos) = true ∧ pos ≤ str.length
        ∧ ∀ j, j < pos → lit.isPrefixOf (str.drop j) = false := by
  intro str
  induction str with
  | nil =>
    intro pos h
    simp only [find] at h
    split at h
    · rename_i hl
      have hpos : pos = 0 := by simpa using h.symm
      have hlit : lit = [] := by simpa using hl
      subst hpos hlit
      simp
    · exact absurd h (by simp)
  | cons c str ih =>
    intro pos h
    simp only [find] at h
    split at h
    · rename_i hp
      have hpos : pos = 0 := by simpa using h.symm
      subst hpos
      exact ⟨by simpa using hp, Nat.zero_le _, fun j hj => absurd hj (Nat.not_lt_zero j)⟩
    · rename_i hp
      cases hf : find str lit with
      | none => rw [hf] at h; exact absurd h (by simp)
      | some q =>
        rw [hf] at h
        have hpos : pos = q + 1 := by simpa using h.symm
        subst hpos
        obtain ⟨h1, h2, h3⟩ := ih q hf
        refine ⟨by simpa using h1, by simp only [List.length_cons]; omega, ?_⟩
        intro j hj
        cases j with
        | zero => exact Bool.eq_false_iff.mpr hp
        | succ j => simpa using h3 j (by omega)

theorem find_none (lit : List Byte) :
    ∀ (str : List Byte), find str lit = none → ∀ j, lit.isPrefixOf (str.drop j) = false := by
  intro str
  induction str with
  | nil =>
    intro h j
    simp only [find] at h
    split at h
    · exact absurd h (by simp)
    · rename_i hl
      cases lit with
      | nil => simp at hl
      | cons a l => simp [List.isPrefixOf]
  | cons c str ih =>
    intro h j
    simp only [find] at h
    split at h
    · exact absurd h (by simp)
    · rename_i hp
      cases hf : find str lit with
      | some q => rw [hf] at h; exact absurd h (by simp)
      | none =>
        cases j with
        | zero => exact Bool.eq_false_iff.mpr hp
        | succ j => simpa using ih hf j

/-- `find` answers with a position at or before every occurrence. -/
theorem find_of_occurrence (lit str : List Byte) (j : Nat)
    (h : lit.isPrefixOf (str.drop j) = true) :
    ∃ pos, find str lit = some pos ∧ pos ≤ j := by
  cases hf : find str lit with
  | none => rw [find_none lit str hf j] at h; exact absurd h (by simp)
  | some pos =>
    refine ⟨pos, rfl, ?_⟩
    by_contra hcon
    have := (find_some lit str pos hf).2.2 j (by omega)
    rw [this] at h
    exact absurd h (by simp)

theorem isPrefixOf_drop_length {lit str : List Byte} {j : Nat} (hl : lit ≠ [])
    (h : lit.isPrefixOf (str.drop j) = true) : j + lit.length ≤ str.length := by
  obtain ⟨t, ht⟩ := List.isPrefixOf_iff_prefix.mp h
  have h1 : (str.drop j).length = lit.length + t.length := by
    rw [← ht, List.length_append]
  rw [List.length_drop] at h1
  have h2 : 0 < lit.length := List.length_pos.mpr hl
  omega

theorem star_string_loop_sound (lit : List Byte) (k : List Byte → Res Bool) :
    ∀ (n : Nat) (str : List Byte), star_string_loop lit k n str = .val true →
      ∃ pos, pos ≤ str.length ∧ lit.isPrefixOf (str.drop pos) = true
        ∧ k (str.drop (pos + lit.length)) = .val true := by
  intro n
  induction n with
  | zero => intro str h; simp [star_string_loop] at h
  | succ n ih =>
    intro str h
    simp only [star_string_loop] at h
    split at h
    · exact absurd h (by simp)
    · rename_i pos hf
      obtain ⟨h1, h2, _⟩ := find_some lit str pos hf
      split at h
      · rename_i hk
        exact ⟨pos, h2, h1, hk⟩
      · split at h
        · obtain ⟨q, hq1, hq2, hq3⟩ := ih _ h
          refine ⟨pos + 1 + q, ?_, ?_, ?_⟩
          · simp only [List.length_drop] at hq1; omega
          · have e : List.drop (pos + 1 + q) str = List.drop q (List.drop (pos + 1) str) := by
              rw [List.drop_drop]
            rw [e]; exact hq2
          · have e : List.drop (pos + 1 + q + lit.length) str
                = List.drop (q + lit.length) (List.drop (pos + 1) str) := by
              rw [List.drop_drop]; congr 1; omega
            rw [e]; exact hq3
        · exact absurd h (by simp)
      · exact absurd h (by simp)
      · exact absurd h (by simp)

theorem star_string_loop_ne_err (lit : List Byte) (hl : lit ≠ []) (k : List Byte → Res Bool)
    (hk : ∀ s, k s ≠ .err) :
    ∀ (n : Nat) (str : List Byte), star_string_loop lit k n str ≠ .err := by
  intro n
  induction n with
  | zero => intro str; simp [star_string_loop]
  | succ n ih =>
    intro str
    simp only [star_string_loop]
    split
    · simp
    · rename_i pos hf
      have hk' := hk (List.drop (pos + lit.length) str)
      have hlen := isPrefixOf_drop_length hl (find_some lit str pos hf).1
      have h0 : 0 < lit.length := List.length_pos.mpr hl
      split
      · simp
      · rw [if_pos (by omega)]
        exact ih _
      · rename_i h; exact absurd h hk'
      · simp

theorem star_string_loop_complete (lit : List Byte) (hl : lit ≠ []) (k : List Byte → Res Bool)
    (hk : ∀ s, k s ≠ .err) (hk2 : ∀ s, k s ≠ .more) :
    ∀ (n : Nat) (str : List Byte) (j : Nat), str.length < n →
      lit.isPrefixOf (str.drop j) = true → k (str.drop (j + lit.length)) = .val true →
      star_string_loop lit k n str = .val true := by
  intro n
  induction n with
  | zero => intro str j h; omega
  | succ n ih =>
    intro str j hn hocc hkj
    obtain ⟨pos, hf, hpj⟩ := find_of_occurrence lit str j hocc
    have hlen := isPrefixOf_drop_length hl hocc
    have h0 : 0 < lit.length := List.length_pos.mpr hl
    simp only [star_string_loop, hf]
    cases hkp : k (List.drop (pos + lit.length) str) with
    | err => exact absurd hkp (hk _)
    | more => exact absurd hkp (hk2 _)
    | val b =>
      cases b with
      | true => rfl
      | false =>
        have hne : pos ≠ j := by
          intro e; rw [e, hkj] at hkp; exact absurd hkp (by simp)
        simp only []
        rw [if_pos (by omega)]
        refine ih (List.drop (pos + 1) str) (j - (pos + 1))
          (by simp only [List.length_drop]; omega) ?_ ?_
        · have e : List.drop (j - (pos + 1)) (List.drop (pos + 1) str) = List.drop j str := by
            rw [List.drop_drop]; congr 1; omega
          rw [e]; exact hocc
        · have e : List.drop (j - (pos + 1) + lit.length) (List.drop (pos + 1) str)
              = List.drop (j + lit.length) str := by
            rw [List.drop_drop]; congr 1; omega
          rw [e]; exact hkj

theorem for_loop_sound (body : Nat → Res Bool) :
    ∀ js : List Nat, for_loop body js = .val true → ∃ j ∈ js, body j = .val true := by
  intro js
  induction js with
  | nil => intro h; simp [for_loop] at h
  | cons j js ih =>
    intro h
    simp only [for_loop] at h
    split at h
    · rename_i hb; exact ⟨j, List.mem_cons_self _ _, hb⟩
    · obtain ⟨i, hi, hbi⟩ := ih h
      exact ⟨i, List.mem_cons_of_mem _ hi, hbi⟩
    · exact absurd h (by simp)
    · exact absurd h (by simp)

theorem for_loop_ne_err (body : Nat → Res Bool) (hb : ∀ j, body j ≠ .err) :
    ∀ js : List Nat, for_loop body js ≠ .err := by
  intro js
  induction js with
  | nil => simp [for_loop]
  | cons j js ih =>
    simp only [for_loop]
    have := hb j
    split
    · simp
    · exact ih
    · rename_i h; exact absurd h this
    · simp

theorem for_loop_complete (body : Nat → Res Bool) (hb : ∀ j, body j ≠ .err)
    (hb2 : ∀ j, body j ≠ .more) :
    ∀ js : List Nat, (∃ j ∈ js, body j = .val true) → for_loop body js = .val true := by
  intro js
  induction js with
  | nil => rintro ⟨j, hj, _⟩; simp at hj
  | cons i js ih =>
    rintro ⟨j, hj, hbj⟩
    simp only [for_loop]
    cases hbi : body i with
    | err => exact absurd hbi (hb i)
    | more => exact absurd hbi (hb2 i)
    | val b =>
      cases b with
      | true => rfl
      | false =>
        simp only []
        rcases List.mem_cons.mp hj with e | hmem
        · rw [e, hbi] at hbj; exact absurd hbj (by simp)
        · exact ih ⟨j, hmem, hbj⟩

theorem lits_nonempty_tail {e : Element} {es : List Element} (h : lits_nonempty (e :: es)) :
    lits_nonempty es := fun x hx => h x (List.mem_cons_of_mem _ hx)

theorem no_double_star_end_tail {e : Element} {es : List Element}
    (h : no_double_star_end (e :: es)) : no_double_star_end es := by
  intro l a b hl
  exact h (e :: l) a b (by rw [hl]; rfl)

theorem char_to_size_t_unsigned (c : Byte) : char_to_size_t false c = c.val := by
  simp [char_to_size_t]

/-- Where `char` is unsigned and every `STRING` element is non-empty, `do_match`
always returns a value. -/
theorem do_match_ne_err :
    ∀ (elements : List Element) (str : List Byte), lits_nonempty elements →
      do_match false elements str ≠ .err := by
  have main : ∀ (m : Nat) (elements : List Element), elements.length ≤ m →
      ∀ str, lits_nonempty elements → do_match false elements str ≠ .err := by
    intro m
    induction m with
    | zero =>
      intro elements h str _
      have : elements = [] := List.length_eq_zero.mp (by omega)
      simp [this, do_match_nil]
    | succ m ih =>
      intro elements h str hl
      match elements, h, hl with
      | [], _, _ => simp [do_match_nil]
      | e :: elements, h, hl =>
        simp only [List.length_cons] at h
        have hl1 := lits_nonempty_tail hl
        have ih1 : ∀ s, do_match false elements s ≠ .err :=
          fun s => ih elements (by omega) s hl1
        rw [do_match_cons]
        split
        · split
          · exact ih1 _
          · simp
        · match elements, h, hl1, ih1 with
          | [], _, _, _ => simp
          | e1 :: rest, h, hl1, ih1 =>
            simp only [List.length_cons] at h
            simp only []
            split
            · rename_i hk
              exact star_string_loop_ne_err _ (hl1 e1 (List.mem_cons_self _ _) hk) _
                (fun s => ih rest (by omega) s (lits_nonempty_tail hl1)) _ _
            · exact for_loop_ne_err _ (fun j => ih1 _) _
        · split
          · simp
          · exact ih1 _
        · split
          · simp
          · rename_i c str1
            have hc : char_to_size_t false c < 256 := by
              rw [char_to_size_t_unsigned]; exact c.isLt
            rw [if_pos hc]
            split
            · exact ih1 _
            · simp
  exact fun elements str => main elements.length elements (Nat.le_refl _) str

/-- Soundness of the matcher: when `do_match` answers true, the text can be cut
into consecutive pieces, one per element. -/
theorem do_match_sound (signed_char : Bool) :
    ∀ (elements : List Element) (str : List Byte),
      do_match signed_char elements str = .val true → Cut elements str := by
  have main : ∀ (m : Nat) (elements : List Element), elements.length ≤ m →
      ∀ str, do_match signed_char elements str = .val true → Cut elements str := by
    intro m
    induction m with
    | zero =>
      intro elements h str hm
      have : elements = [] := List.length_eq_zero.mp (by omega)
      subst this
      simpa [do_match_nil, Cut] using hm
    | succ m ih =>
      intro elements h str hm
      match elements, h, hm with
      | [], _, hm => simpa [do_match_nil, Cut] using hm
      | e :: elements, h, hm =>
        simp only [List.length_cons] at h
        rw [do_match_cons] at hm
        split at hm
        · rename_i hk
          split at hm
          · rename_i hp
            obtain ⟨t, ht⟩ := List.isPrefixOf_iff_prefix.mp hp
            refine ⟨e.str, str.drop e.str.length, ?_, by simp [piece_ok, hk],
              ih elements (by omega) _ hm⟩
            rw [← ht, List.drop_left]
          · exact absurd hm (by simp)
        · rename_i hk
          match elements, h, hm with
          | [], _, _ => exact ⟨str, [], by simp, by simp [piece_ok, hk], rfl⟩
          | e1 :: rest, h, hm =>
            simp only [List.length_cons] at h
            simp only [] at hm
            split at hm
            · rename_i hk1
              obtain ⟨pos, hpos, hocc, hkr⟩ := star_string_loop_sound _ _ _ _ hm
              obtain ⟨t, ht⟩ := List.isPrefixOf_iff_prefix.mp hocc
              refine ⟨str.take pos, str.drop pos, (List.take_append_drop pos str).symm,
                by simp [piece_ok, hk], e1.str, (str.drop pos).drop e1.str.length, ?_,
                by simp [piece_ok, hk1], ?_⟩
              · rw [← ht, List.drop_left]
              · apply ih rest (by omega)
                have e : List.drop e1.str.length (List.drop pos str)
                    = List.drop (pos + e1.str.length) str := by
                  rw [List.drop_drop]
                rw [e]; exact hkr
            · obtain ⟨j, _, hbj⟩ := for_loop_sound _ _ hm
              exact ⟨str.take j, str.drop j, (List.take_append_drop j str).symm,
                by simp [piece_ok, hk], ih (e1 :: rest) (by simp only [List.length_cons]; omega) _ hbj⟩
        · rename_i hk
          split at hm
          · exact absurd hm (by simp)
          · rename_i c str1 _
            exact ⟨[c], str1, rfl, by simp [piece_ok, hk], ih elements (by omega) _ hm⟩
        · rename_i hk
          split at hm
          · exact absurd hm (by simp)
          · rename_i c str1 _
            split at hm
            · rename_i hidx
              have hcv : char_to_size_t signed_char c = c.val := by
                unfold char_to_size_t at hidx ⊢
                split
                · rename_i hs
                  rw [if_pos hs] at hidx
                  have : (2 : Nat) ^ 64 - 256 ≥ 256 := by norm_num
                  omega
                · rfl
              rw [hcv] at hm
              split at hm
              · rename_i hb
                exact ⟨[c], str1, rfl, by simp only [piece_ok, hk]; exact ⟨c, rfl, hb⟩,
                  ih elements (by omega) _ hm⟩
              · exact absurd hm (by simp)
            · exact absurd hm (by simp)
  exact fun elements str => main elements.length elements (Nat.le_refl _) str

theorem cut_nil_all_star :
    ∀ elements : List Element, lits_nonempty elements → Cut elements [] →
      ∀ e ∈ elements, e.kind = .STAR := by
  intro elements
  induction elements with
  | nil => intro _ _ e he; simp at he
  | cons e es ih =>
    intro hl hc x hx
    obtain ⟨piece, rest, hpr, hp, hrest⟩ := hc
    have hpiece : piece = [] := (List.append_eq_nil.mp hpr.symm).1
    have hr : rest = [] := (List.append_eq_nil.mp hpr.symm).2
    subst hpiece hr
    have hek : e.kind = .STAR := by
      cases hk : e.kind with
      | STRING =>
        simp only [piece_ok, hk] at hp
        exact absurd hp.symm (hl e (List.mem_cons_self _ _) hk)
      | STAR => rfl
      | QUESTION => simp [piece_ok, hk] at hp
      | BRACKET => simp [piece_ok, hk] at hp
    rcases List.mem_cons.mp hx with h | h
    · rw [h]; exact hek
    · exact ih (lits_nonempty_tail hl) hrest x h

theorem last_two (es : List Element) :
    ∀ e : Element, es ≠ [] → ∃ l a b, e :: es = l ++ [a, b] ∧ a ∈ e :: es ∧ b ∈ e :: es := by
  induction es with
  | nil => intro e h; exact absurd rfl h
  | cons x r ih =>
    intro e _
    cases r with
    | nil => exact ⟨[], e, x, rfl, by simp, by simp⟩
    | cons y r' =>
      obtain ⟨l, a, b, hl, ha, hb⟩ := ih x (by simp)
      exact ⟨e :: l, a, b, by rw [hl]; rfl, List.mem_cons_of_mem _ ha, List.mem_cons_of_mem _ hb⟩

/-- Completeness of the matcher where `char` is unsigned: when every `STRING`
element is non-empty and the element sequence does not end in two `STAR`
elements, `do_match` answers true on every text that can be cut into
consecutive pieces, one per element. -/
theorem do_match_complete :
    ∀ (elements : List Element) (str : List Byte), lits_nonempty elements →
      no_double_star_end elements → Cut elements str →
      do_match false elements str = .val true := by
  have main : ∀ (m : Nat) (elements : List Element), elements.length ≤ m →
      ∀ str, lits_nonempty elements → no_double_star_end elements → Cut elements str →
        do_match false elements str = .val true := by
    intro m
    induction m with
    | zero =>
      intro elements h str _ _ hc
      have : elements = [] := List.length_eq_zero.mp (by omega)
      subst this
      simp only [Cut] at hc
      simp [do_match_nil, hc]
    | succ m ih =>
      intro elements h str hl hnd hc
      match elements, h, hl, hnd, hc with
      | [], _, _, _, hc =>
        simp only [Cut] at hc
        simp [do_match_nil, hc]
      | e :: elements, h, hl, hnd, hc =>
        simp only [List.length_cons] at h
        have hl1 := lits_nonempty_tail hl
        have hnd1 := no_double_star_end_tail hnd
        obtain ⟨piece, rest, hstr, hp, hrest⟩ := hc
        subst hstr
        rw [do_match_cons]
        split
        · rename_i hk
          simp only [piece_ok, hk] at hp
          subst hp
          have hpre : e.str.isPrefixOf (e.str ++ rest) = true :=
            List.isPrefixOf_iff_prefix.mpr (List.prefix_append _ _)
          rw [if_pos hpre, List.drop_left]
          exact ih elements (by omega) rest hl1 hnd1 hrest
        · rename_i hk
          match elements, h, hl1, hnd1, hrest, hnd with
          | [], _, _, _, _, _ => rfl
          | e1 :: rest_e, h, hl1, hnd1, hrest, hnd =>
            simp only [List.length_cons] at h
            simp only []
            split
            · rename_i hk1
              obtain ⟨piece1, rest2, hr, hp1, hrest2⟩ := hrest
              simp only [piece_ok, hk1] at hp1
              subst hp1 hr
              have hlit : e1.str ≠ [] := hl1 e1 (List.mem_cons_self _ _) hk1
              apply star_string_loop_complete e1.str hlit _
                (fun s => do_match_ne_err rest_e s (lits_nonempty_tail hl1))
                (fun s => do_match_ne_more false rest_e s) _ _ piece.length
                (Nat.lt_succ_self _)
              · rw [List.drop_left]
                exact List.isPrefixOf_iff_prefix.mpr (List.prefix_append _ _)
              · have e2 : List.drop (piece.length + e1.str.length) (piece ++ (e1.str ++ rest2))
                    = rest2 := by
                  rw [← List.drop_drop, List.drop_left, List.drop_left]
                rw [e2]
                exact ih rest_e (by omega) rest2 (lits_nonempty_tail hl1)
                  (no_double_star_end_tail hnd1) hrest2
            · have hne : rest ≠ [] := by
                intro hnil
                subst hnil
                have hall := cut_nil_all_star _ hl1 hrest
                obtain ⟨l, a, b, hlab, ha, hb⟩ := last_two (e1 :: rest_e) e (by simp)
                have hstar : ∀ x ∈ e :: e1 :: rest_e, x.kind = .STAR := by
                  intro x hx
                  rcases List.mem_cons.mp hx with h1 | h1
                  · rw [h1]; exact hk
                  · exact hall x h1
                exact hnd l a b hlab ⟨hstar a ha, hstar b hb⟩
              apply for_loop_complete _
                (fun j => do_match_ne_err (e1 :: rest_e) _ hl1)
                (fun j => do_match_ne_more false (e1 :: rest_e) _)
              refine ⟨piece.length, ?_, ?_⟩
              · rw [List.mem_range, List.length_append]
                have := List.length_pos.mpr hne
                omega
              · simp only [List.drop_left]
                exact ih (e1 :: rest_e) (by simp only [List.length_cons]; omega) rest hl1 hnd1
                  hrest
        · rename_i hk
          simp only [piece_ok, hk] at hp
          match piece, hp with
          | [c], _ =>
            exact ih elements (by omega) rest hl1 hnd1 hrest
        · rename_i hk
          simp only [piece_ok, hk] at hp
          obtain ⟨b, hb, hbit⟩ := hp
          subst hb
          have hc : char_to_size_t false b < 256 := by
            rw [char_to_size_t_unsigned]; exact b.isLt
          simp only [List.singleton_append]
          rw [if_pos hc, char_to_size_t_unsigned, if_pos hbit]
          exact ih elements (by omega) rest hl1 hnd1 hrest
  exact fun elements str => main elements.length elements (Nat.le_refl _) str

theorem append_char_lits_nonempty (vec : List Element) (c : Byte) (h : lits_nonempty vec) :
    lits_nonempty (append_char vec c) := by
  rcases append_char_cases vec c with ⟨init, s, b, hv, hr⟩ | ⟨_, hr⟩
  · rw [hr]
    intro e he _
    rcases List.mem_append.mp he with h1 | h1
    · exact h e (by rw [hv]; exact List.mem_append_left _ h1) ‹_›
    · simp only [List.mem_singleton] at h1
      rw [h1]; simp
  · rw [hr]
    intro e he hk
    rcases List.mem_append.mp he with h1 | h1
    · exact h e h1 hk
    · simp only [List.mem_singleton] at h1
      rw [h1]; simp

theorem push_lits_nonempty (vec : List Element) (x : Element) (hx : x.kind ≠ .STRING)
    (h : lits_nonempty vec) : lits_nonempty (vec ++ [x]) := by
  intro e he hk
  rcases List.mem_append.mp he with h1 | h1
  · exact h e h1 hk
  · simp only [List.mem_singleton] at h1
    rw [h1] at hk
    exact absurd hk hx

theorem compile_loop_lits_nonempty :
    ∀ (n : Nat) (pat : List Byte) (vec g : List Element),
      compile_loop n pat vec = .val g → lits_nonempty vec → lits_nonempty g := by
  intro n
  induction n with
  | zero => intro pat vec g h; simp [compile_loop] at h
  | succ n ih =>
    intro pat vec g h hv
    match pat with
    | [] =>
      simp only [compile_loop, Res.val.injEq] at h
      exact h ▸ hv
    | c :: pat =>
      simp only [compile_loop] at h
      split at h
      · split at h
        · exact ih _ _ _ h (push_lits_nonempty _ _ (by simp) hv)
        · exact absurd h (by simp)
        · exact absurd h (by simp)
      · split at h
        · exact ih _ _ _ h (push_lits_nonempty _ _ (by simp [Element.ofKind]) hv)
        · split at h
          · exact ih _ _ _ h (push_lits_nonempty _ _ (by simp [Element.ofKind]) hv)
          · split at h
            · split at h
              · exact absurd h (by simp)
              · exact ih _ _ _ h (append_char_lits_nonempty _ _ hv)
            · exact ih _ _ _ h (append_char_lits_nonempty _ _ hv)

/-- Every `STRING` element of a compiled glob holds at least one byte. -/
theorem compile_lits_nonempty (p : List Byte) (g : List Element) (h : compile p = some g) :
    lits_nonempty g := by
  unfold compile at h
  split at h
  · rename_i vec hvec
    have := compile_loop_lits_nonempty _ _ _ _ hvec (fun e he => by simp at he)
    exact (Option.some.inj h) ▸ this
  · exact absurd h (by simp)

/-- The matcher against the cut of the text, for every compiled glob that does
not end in two `STAR` elements, where `char` is unsigned: `match` answers true
exactly on the texts that can be cut into consecutive pieces, one per
element. -/
theorem glob_match_iff_cut (p : List Byte) (g : List Element) (t : List Byte)
    (h : compile p = some g) (hnd : no_double_star_end g) :
    glob_match false g t = .val true ↔ Cut g t :=
  ⟨do_match_sound false g t, do_match_complete g t (compile_lits_nonempty p g h) hnd⟩

/-- C1. The pattern `**` compiles to two Star elements; the empty text can be
cut into two empty pieces, one per Star, yet `match` answers false on it: the
loop `for (j = 0; j < str.size(); j++)` of the Star case never tries the
empty remainder. -/
theorem match_double_star_empty :
    compile [42, 42] = some [Element.ofKind .STAR, Element.ofKind .STAR]
      ∧ Cut [Element.ofKind .STAR, Element.ofKind .STAR] []
      ∧ ∀ signed_char : Bool,
          glob_match signed_char [Element.ofKind .STAR, Element.ofKind .STAR] [] = .val false := by
  refine ⟨by decide, ?_, by decide⟩
  exact ⟨[], [], rfl, trivial, [], [], rfl, trivial, rfl⟩

/-! ## Worked patterns -/

theorem foldl_plain_step_literal :
    ∀ (L : List Byte), (42 : Byte) ∉ L → (63 : Byte) ∉ L →
      ∀ (init : List Element) (s : List Byte) (b : Nat),
        L.foldl plain_step (init ++ [⟨.STRING, s, b⟩]) = init ++ [⟨.STRING, s ++ L, b⟩] := by
  intro L
  induction L with
  | nil => intro _ _ init s b; simp
  | cons c L ih =>
    intro h1 h2 init s b
    have hc1 : c ≠ 42 := fun h => h1 (by simp [h])
    have hc2 : c ≠ 63 := fun h => h2 (by simp [h])
    have hstep : plain_step (init ++ [⟨.STRING, s, b⟩]) c = init ++ [⟨.STRING, s ++ [c], b⟩] := by
      simp [plain_step, hc1, hc2, append_char]
    rw [List.foldl_cons, hstep, ih (fun h => h1 (List.mem_cons_of_mem _ h))
      (fun h => h2 (List.mem_cons_of_mem _ h))]
    simp

theorem compile_star_literal_shape (L : List Byte)
    (h1 : (42 : Byte) ∉ L) (h2 : (63 : Byte) ∉ L) (h3 : (91 : Byte) ∉ L) (h4 : (92 : Byte) ∉ L) :
    compile ([42] ++ L)
      = some (if L = [] then [Element.ofKind .STAR]
              else [Element.ofKind .STAR, ⟨.STRING, L, 0⟩]) := by
  have hp : ∀ c ∈ [42] ++ L, c ≠ 91 ∧ c ≠ 92 := by
    apply plain_of_not_mem
    · intro h
      rcases List.mem_append.1 h with h | h
      · revert h; decide
      · exact h3 h
    · intro h
      rcases List.mem_append.1 h with h | h
      · revert h; decide
      · exact h4 h
  rw [compile_plain _ hp]
  cases L with
  | nil => rfl
  | cons c L =>
    have hc1 : c ≠ 42 := fun h => h1 (by simp [h])
    have hc2 : c ≠ 63 := fun h => h2 (by simp [h])
    have e1 : ([42] ++ c :: L).foldl plain_step []
        = L.foldl plain_step ([Element.ofKind .STAR] ++ [⟨.STRING, [c], 0⟩]) := by
      simp [plain_step, hc1, hc2, append_char, Element.ofKind]
    rw [e1, foldl_plain_step_literal L (fun h => h1 (List.mem_cons_of_mem _ h))
      (fun h => h2 (List.mem_cons_of_mem _ h))]
    simp

theorem isSuffix_of_prefix_drop {L t : List Byte} {pos : Nat}
    (hp : L.isPrefixOf (t.drop pos) = true) (he : (t.drop (pos + L.length)).isEmpty = true) :
    L <:+ t := by
  rw [List.isPrefixOf_iff_prefix] at hp
  obtain ⟨r, hr⟩ := hp
  have hd : t.drop (pos + L.length) = r := by
    rw [← List.drop_drop, ← hr]; simp
  rw [hd] at he
  have : r = [] := by simpa using he
  subst this
  refine ⟨t.take pos, ?_⟩
  rw [List.append_nil] at hr
  rw [hr, List.take_append_drop]

/-- C11: for every literal `L` holding none of `*`, `?`, `[`, `\` and every text
`t`, `Glob::compile("*" ++ L)` returns a glob, and `Glob::match` on it returns
true when `t` ends with `L` and false otherwise, on every platform. -/
theorem compile_star_literal (L t : List Byte)
    (h1 : (42 : Byte) ∉ L) (h2 : (63 : Byte) ∉ L) (h3 : (91 : Byte) ∉ L) (h4 : (92 : Byte) ∉ L) :
    ∃ g, compile ([42] ++ L) = some g
      ∧ ∀ signed_char : Bool, glob_match signed_char g t = .val (decide (L <:+ t)) := by
  refine ⟨_, compile_star_literal_shape L h1 h2 h3 h4, ?_⟩
  intro sc
  by_cases hL : L = []
  · subst hL
    simp [glob_match, do_match_cons, Element.ofKind]
  · rw [if_neg hL]
    have hk1 : ∀ s, do_match sc [] s ≠ .err := by intro s; simp [do_match_nil]
    have hk2 : ∀ s, do_match sc [] s ≠ .more := by intro s; simp [do_match_nil]
    have hval : glob_match sc [Element.ofKind .STAR, ⟨.STRING, L, 0⟩] t
        = star_string_loop L (do_match sc []) (t.length + 1) t := by
      simp [glob_match, do_match_cons, Element.ofKind]
    rw [hval]
    by_cases hs : L <:+ t
    · rw [decide_eq_true hs]
      obtain ⟨pre, hpre⟩ := hs
      apply star_string_loop_complete L hL _ hk1 hk2 (t.length + 1) t pre.length
        (Nat.lt_succ_self _)
      · rw [← hpre]; simp [List.isPrefixOf_iff_prefix]
      · rw [← hpre, do_match_nil]; simp
    · rw [decide_eq_false hs]
      have e1 := star_string_loop_ne_err L hL _ hk1 (t.length + 1) t
      have e2 := star_string_loop_ne_more L _ hk2 (t.length + 1) t (Nat.lt_succ_self _)
      cases hr : star_string_loop L (do_match sc []) (t.length + 1) t with
      | err => exact absurd hr e1
      | more => exact absurd hr e2
      | val b =>
        cases b with
        | false => rfl
        | true =>
          exfalso
          obtain ⟨pos, _, hp, hk⟩ := star_string_loop_sound L _ _ _ hr
          rw [do_match_nil] at hk
          injection hk with hk
          exact hs (isSuffix_of_prefix_drop hp hk)

theorem compile_star_literal_witness :
    (42 : Byte) ∉ ([46, 116, 120, 116] : List Byte) ∧ (63 : Byte) ∉ ([46, 116, 120, 116] : List Byte)
      ∧ (91 : Byte) ∉ ([46, 116, 120, 116] : List Byte)
      ∧ (92 : Byte) ∉ ([46, 116, 120, 116] : List Byte)
      ∧ (∃ g, compile ([42] ++ [46, 116, 120, 116]) = some g
          ∧ ∀ signed_char : Bool,
              glob_match signed_char g [97, 46, 116, 120, 116]
                = .val (decide (([46, 116, 120, 116] : List Byte) <:+ [97, 46, 116, 120, 116])))
      ∧ compile [42, 46, 116, 120, 116]
          = some [Element.ofKind .STAR, ⟨.STRING, [46, 116, 120, 116], 0⟩]
      ∧ (∀ signed_char : Bool,
          glob_match signed_char [Element.ofKind .STAR, ⟨.STRING, [46, 116, 120, 116], 0⟩]
              [97, 46, 116, 120, 116] = .val true
          ∧ glob_match signed_char [Element.ofKind .STAR, ⟨.STRING, [46, 116, 120, 116], 0⟩]
              [114, 101, 97, 100, 109, 101, 46, 116, 120, 116] = .val true
          ∧ glob_match signed_char [Element.ofKind .STAR, ⟨.STRING, [46, 116, 120, 116], 0⟩]
              [97, 46, 116, 120] = .val false) :=
  ⟨by decide, by decide, by decide, by decide,
    compile_star_literal [46, 116, 120, 116] [97, 46, 116, 120, 116]
      (by decide) (by decide) (by decide) (by decide),
    by decide, by decide⟩

theorem bitset_set_range_aux (start i : Nat) :
    ∀ (n bs : Nat),
      ((List.range n).foldl (fun b k => bitset_set b (start + k)) bs).testBit i
        = (bs.testBit i || decide (start ≤ i ∧ i < start + n)) := by
  intro n
  induction n with
  | zero => intro bs; simp
  | succ n ih =>
    intro bs
    rw [List.range_succ, List.foldl_append, List.foldl_cons, List.foldl_nil, bitset_set,
      Nat.testBit_or, ih, Nat.one_shiftLeft, Nat.testBit_two_pow]
    by_cases h1 : start ≤ i <;> by_cases h2 : i < start + n <;> by_cases h3 : start + n = i
      <;> simp [h1, h2, h3] <;> omega

theorem bitset_test_set_range (bs start stop i : Nat) :
    bitset_test (bitset_set_range bs start stop) i
      = (bitset_test bs i || decide (start ≤ i ∧ i ≤ stop)) := by
  unfold bitset_test bitset_set_range
  rw [bitset_set_range_aux]
  congr 1
  apply decide_eq_decide.2
  omega

theorem bitset_test_flip (bs i : Nat) (hi : i < 256) :
    bitset_test (bitset_flip bs) i = !bitset_test bs i := by
  unfold bitset_test bitset_flip
  rw [Nat.testBit_xor, Nat.testBit_two_pow_sub_one]
  simp [hi]

theorem compile_range_x (lo hi : Byte)
    (hlo : isalnum lo = true) (hhi : isalnum hi = true) (hle : lo ≤ hi) :
    compile ([91] ++ [lo] ++ [45] ++ [hi] ++ [93, 120])
      = some [⟨.BRACKET, [], bitset_set_range 0 lo.val hi.val⟩, ⟨.STRING, [120], 0⟩] := by
  obtain ⟨_, l2, l3, l4, _⟩ := isalnum_ne hlo
  obtain ⟨_, h2, _, _, _⟩ := isalnum_ne hhi
  have hnlt : ¬ hi < lo := not_lt.2 hle
  simp [compile, compile_loop, bracket_loop, l2, l3, l4, h2, hnlt, append_char]

theorem isalnum_lt {c : Byte} (h : isalnum c = true) : c.val < 128 := by
  simp only [isalnum, Bool.or_eq_true, Bool.and_eq_true, decide_eq_true_eq] at h
  omega

/-- C12: for alphanumeric bytes `lo <= hi` and every text `t`,
`Glob::compile("[" ++ lo ++ "-" ++ hi ++ "]x")` returns a glob, and `Glob::match`
on it returns true exactly when `t` is two bytes long, its first byte lies in
`lo..hi` (both ends included) and its second byte is `x`; the call always
returns, and where `char` is unsigned it returns true or false. -/
theorem match_range_x (lo hi : Byte) (t : List Byte)
    (hlo : isalnum lo = true) (hhi : isalnum hi = true) (hle : lo ≤ hi) :
    ∃ g, compile ([91] ++ [lo] ++ [45] ++ [hi] ++ [93, 120]) = some g
      ∧ (∀ signed_char : Bool,
          glob_match signed_char g t = .val true
            ↔ ∃ b : Byte, t = [b, 120] ∧ lo ≤ b ∧ b ≤ hi)
      ∧ (∀ signed_char : Bool, glob_match signed_char g t ≠ .more)
      ∧ glob_match false g t ≠ .err := by
  refine ⟨_, compile_range_x lo hi hlo hhi hle, ?_, ?_, ?_⟩
  · intro sc
    have hhi128 := isalnum_lt hhi
    cases t with
    | nil => simp [glob_match, do_match_cons]
    | cons c t1 =>
      have hle1 : lo.val ≤ hi.val := hle
      by_cases hsc : (sc && decide (128 ≤ c.val)) = true
      · have hc : 128 ≤ c.val := by simp at hsc; exact hsc.2
        have hbig : ¬ (2 ^ 64 - 256 + c.val < 256) := by norm_num; omega
        have hnle : ¬ c ≤ hi := by
          intro h
          have : c.val ≤ hi.val := h
          omega
        simp only [glob_match, do_match_cons, char_to_size_t, hsc, if_true, hbig, if_false]
        constructor
        · intro h; cases h
        · rintro ⟨b, hb, _, hb2⟩
          simp only [List.cons.injEq] at hb
          rw [← hb.1] at hb2
          exact absurd hb2 hnle
      · have hcs : char_to_size_t sc c = c.val := by
          simp only [char_to_size_t]; rw [if_neg hsc]
        have hc256 : c.val < 256 := c.isLt
        simp only [glob_match, do_match_cons, hcs, hc256, if_true, bitset_test_set_range]
        have h0 : bitset_test 0 c.val = false := by simp [bitset_test]
        rw [h0, Bool.false_or]
        by_cases hin : lo.val ≤ c.val ∧ c.val ≤ hi.val
        · rw [decide_eq_true hin]
          simp only [if_true]
          cases t1 with
          | nil =>
            simp [do_match_nil]
          | cons d t2 =>
            by_cases hd : d = 120
            · subst hd
              cases t2 with
              | nil =>
                simp [do_match_nil]
                exact ⟨hin.1, hin.2⟩
              | cons x t3 => simp [do_match_nil]
            · have hd2 : ¬ (120 : Byte) = d := fun h => hd h.symm
              simp [do_match_nil, hd, hd2]
        · rw [decide_eq_false hin]
          simp only [Bool.false_eq_true, if_false]
          constructor
          · intro h; cases h
          · rintro ⟨b, hb, hb1, hb2⟩
            simp only [List.cons.injEq] at hb
            rw [← hb.1] at hb1 hb2
            exact absurd ⟨hb1, hb2⟩ hin
  · intro sc; exact do_match_ne_more sc _ t
  · apply do_match_ne_err
    intro e he
    simp at he
    rcases he with rfl | rfl <;> simp

theorem match_range_x_witness :
    isalnum (97 : Byte) = true ∧ isalnum (99 : Byte) = true ∧ (97 : Byte) ≤ 99
      ∧ (∃ g, compile ([91] ++ [97] ++ [45] ++ [99] ++ [93, 120]) = some g
          ∧ (∀ signed_char : Bool,
              glob_match signed_char g [98, 120] = .val true
                ↔ ∃ b : Byte, [98, 120] = [b, 120] ∧ (97 : Byte) ≤ b ∧ b ≤ 99)
          ∧ (∀ signed_char : Bool, glob_match signed_char g [98, 120] ≠ .more)
          ∧ glob_match false g [98, 120] ≠ .err)
      ∧ compile [91, 97, 45, 99, 93, 120]
          = some [⟨.BRACKET, [], bitset_set_range 0 97 99⟩, ⟨.STRING, [120], 0⟩]
      ∧ (∀ signed_char : Bool,
          glob_match signed_char [⟨.BRACKET, [], bitset_set_range 0 97 99⟩, ⟨.STRING, [120], 0⟩]
              [97, 120] = .val true
          ∧ glob_match signed_char [⟨.BRACKET, [], bitset_set_range 0 97 99⟩, ⟨.STRING, [120], 0⟩]
              [98, 120] = .val true
          ∧ glob_match signed_char [⟨.BRACKET, [], bitset_set_range 0 97 99⟩, ⟨.STRING, [120], 0⟩]
              [99, 120] = .val true
          ∧ glob_match signed_char [⟨.BRACKET, [], bitset_set_range 0 97 99⟩, ⟨.STRING, [120], 0⟩]
              [100, 120] = .val false) :=
  ⟨by decide, by decide, by decide,
    match_range_x 97 99 [98, 120] (by decide) (by decide) (by decide),
    by decide, by decide⟩

theorem append_char_length (vec : List Element) (c : Byte) :
    vec.length ≤ (append_char vec c).length := by
  rcases append_char_cases vec c with ⟨init, s, b, h1, h2⟩ | ⟨_, h2⟩
  · rw [h2, h1]; simp
  · rw [h2]; simp

theorem compile_loop_length :
    ∀ (n : Nat) (pat : List Byte) (vec g : List Element),
      compile_loop n pat vec = .val g → vec.length ≤ g.length := by
  intro n
  induction n with
  | zero => intro pat vec g h; simp [compile_loop] at h
  | succ n ih =>
    intro pat vec g h
    cases pat with
    | nil =>
      simp only [compile_loop] at h
      injection h with h; rw [h]
    | cons c pat =>
      simp only [compile_loop] at h
      split at h
      · split at h
        · have := ih _ _ _ h
          simp at this; omega
        · cases h
        · cases h
      · split at h
        · have := ih _ _ _ h
          simp at this; omega
        · split at h
          · have := ih _ _ _ h
            simp at this; omega
          · split at h
            · split at h
              · cases h
              · have := ih _ _ _ h
                have := append_char_length vec ‹Byte›
                omega
            · have := ih _ _ _ h
              have := append_char_length vec c
              omega

/-- When the loop of `compile`, entered with one `BRACKET` element, returns one
element, no pattern text was left. -/
theorem compile_loop_single (n : Nat) (pat : List Byte) (bs : Nat) (e : Element)
    (h : compile_loop n pat [⟨.BRACKET, [], bs⟩] = .val [e]) :
    pat = [] ∧ e = ⟨.BRACKET, [], bs⟩ := by
  cases n with
  | zero => simp [compile_loop] at h
  | succ n =>
    cases pat with
    | nil =>
      simp only [compile_loop] at h
      injection h with h
      simp at h
      exact ⟨rfl, h.symm⟩
    | cons c pat =>
      exfalso
      simp only [compile_loop] at h
      split at h
      · split at h
        · have := compile_loop_length _ _ _ _ h
          simp at this
        · cases h
        · cases h
      · split at h
        · have := compile_loop_length _ _ _ _ h
          simp at this
        · split at h
          · have := compile_loop_length _ _ _ _ h
            simp at this
          · split at h
            · split at h
              · cases h
              · have := compile_loop_length _ _ _ _ h
                simp [append_char] at this
            · have := compile_loop_length _ _ _ _ h
              simp [append_char] at this

/-- C13: when the body `X` of a bracket expression does not begin with `^` and
`Glob::compile("[" ++ X ++ "]")` returns the single element `e`, then `e` is a
BracketSet, `Glob::compile("[^" ++ X ++ "]")` returns a single BracketSet, and a
byte is a member of the latter exactly when it is not a member of `e`, for each
of the 256 byte values. -/
theorem compile_negated_bracket (X : List Byte) (e : Element)
    (hX : X.head? ≠ some 94) (h : compile ([91] ++ X ++ [93]) = some [e]) :
    e.kind = .BRACKET
      ∧ ∃ e2 : Element, compile ([91, 94] ++ X ++ [93]) = some [e2] ∧ e2.kind = .BRACKET
          ∧ ∀ b : Byte, bitset_test e2.bitset b.val = !bitset_test e.bitset b.val := by
  have hneg : ((X ++ [93]).head? = some 94) = False := by
    cases X with
    | nil => simp
    | cons x X => simpa using hX
  have e1 : ([91] ++ X ++ [93] : List Byte) = 91 :: (X ++ [93]) := by simp
  have e2 : ([91, 94] ++ X ++ [93] : List Byte) = 91 :: 94 :: (X ++ [93]) := by simp
  have f1 : (91 :: (X ++ [93]) : List Byte).length + 1 = (X.length + 2) + 1 := by simp
  have f2 : (91 :: 94 :: (X ++ [93]) : List Byte).length + 1 = (X.length + 3) + 1 := by simp
  rw [e1] at h
  rw [e2]
  unfold compile at h ⊢
  rw [f1] at h
  rw [f2]
  simp only [compile_loop, if_true, hneg, decide_False, Bool.false_eq_true, if_false,
    List.nil_append] at h
  simp only [compile_loop, if_true, List.head?_cons, decide_True, List.tail_cons,
    List.nil_append]
  cases hb : bracket_loop ((X ++ [93]).length + 1) (X ++ [93]) 0 with
  | err => rw [hb] at h; simp at h
  | more => rw [hb] at h; simp at h
  | val r =>
    obtain ⟨bs, pat2⟩ := r
    rw [hb] at h
    simp only at h
    cases hc : compile_loop (X.length + 2) pat2 [⟨.BRACKET, [], bs⟩] with
    | err => rw [hc] at h; simp at h
    | more => rw [hc] at h; simp at h
    | val g =>
      rw [hc] at h
      simp only [Option.some.injEq] at h
      subst h
      obtain ⟨hp, he⟩ := compile_loop_single _ _ _ _ hc
      subst hp
      subst he
      refine ⟨rfl, ⟨.BRACKET, [], bitset_flip bs⟩, ?_, rfl, ?_⟩
      · simp [compile_loop]
      · intro b
        exact bitset_test_flip bs b.val b.isLt

theorem compile_negated_bracket_witness :
    ([97, 45, 99] : List Byte).head? ≠ some 94
      ∧ compile ([91] ++ [97, 45, 99] ++ [93]) = some [⟨.BRACKET, [], bitset_set_range 0 97 99⟩]
      ∧ ((⟨.BRACKET, [], bitset_set_range 0 97 99⟩ : Element).kind = .BRACKET
          ∧ ∃ e2 : Element, compile ([91, 94] ++ [97, 45, 99] ++ [93]) = some [e2]
              ∧ e2.kind = .BRACKET
              ∧ ∀ b : Byte, bitset_test e2.bitset b.val
                  = !bitset_test (⟨.BRACKET, [], bitset_set_range 0 97 99⟩ : Element).bitset b.val)
      ∧ compile [91, 94, 97, 45, 99, 93, 120]
          = some [⟨.BRACKET, [], bitset_flip (bitset_set_range 0 97 99)⟩, ⟨.STRING, [120], 0⟩]
      ∧ (∀ signed_char : Bool,
          glob_match signed_char
              [⟨.BRACKET, [], bitset_flip (bitset_set_range 0 97 99)⟩, ⟨.STRING, [120], 0⟩]
              [100, 120] = .val true
          ∧ glob_match signed_char
              [⟨.BRACKET, [], bitset_flip (bitset_set_range 0 97 99)⟩, ⟨.STRING, [120], 0⟩]
              [97, 120] = .val false) :=
  ⟨by decide, by decide,
    compile_negated_bracket [97, 45, 99] ⟨.BRACKET, [], bitset_set_range 0 97 99⟩
      (by decide) (by decide),
    by decide, by decide⟩

/-! ## Escapes, consecutive stars, bytes from 128 up -/

theorem foldl_append_char_literal :
    ∀ (L : List Byte) (init : List Element) (s : List Byte) (b : Nat),
      L.foldl append_char (init ++ [⟨.STRING, s, b⟩]) = init ++ [⟨.STRING, s ++ L, b⟩] := by
  intro L
  induction L with
  | nil => intro init s b; simp
  | cons c L ih =>
    intro init s b
    have hstep : append_char (init ++ [⟨.STRING, s, b⟩]) c = init ++ [⟨.STRING, s ++ [c], b⟩] := by
      simp [append_char]
    rw [List.foldl_cons, hstep, ih]
    simp

theorem compile_loop_escape :
    ∀ (s : List Byte) (vec : List Element) (n : Nat),
      compile_loop (n + s.length) (escape s) vec = compile_loop n [] (s.foldl append_char vec) := by
  intro s
  induction s with
  | nil => intro vec n; rfl
  | cons c s ih =>
    intro vec n
    have e : n + (c :: s).length = (n + s.length) + 1 := by simp; omega
    rw [e]
    simp only [escape, compile_loop]
    rw [if_neg (by decide), if_neg (by decide), if_neg (by decide), if_pos trivial]
    rw [ih]
    rfl

theorem escape_length (s : List Byte) : (escape s).length = 2 * s.length := by
  induction s with
  | nil => rfl
  | cons c s ih => simp only [escape, List.length_cons, ih]; omega

theorem compile_escape (s : List Byte) :
    compile (escape s) = some (if s = [] then [] else [⟨.STRING, s, 0⟩]) := by
  unfold compile
  have e : (escape s).length + 1 = (s.length + 1) + s.length := by
    rw [escape_length]; omega
  rw [e, compile_loop_escape]
  cases s with
  | nil => rfl
  | cons c s =>
    have h := foldl_append_char_literal s [] [c] 0
    have h0 : (c :: s).foldl append_char [] = s.foldl append_char ([] ++ [⟨.STRING, [c], 0⟩]) := by
      simp [append_char]
    rw [h0, h]
    simp [compile_loop]

/-- C30: for every byte string `s` the pattern that puts a backslash before
every byte of `s` compiles, and `Glob::match` on the compiled glob returns true
for the text `s` and false for every other text, on every platform. -/
theorem match_escape (s t : List Byte) :
    ∃ g, compile (escape s) = some g
      ∧ ∀ signed_char : Bool, glob_match signed_char g t = .val (decide (t = s)) := by
  refine ⟨_, compile_escape s, ?_⟩
  intro sc
  by_cases hs : s = []
  · subst hs
    simp only [if_true, glob_match, do_match_nil]
    cases t <;> simp
  · rw [if_neg hs]
    simp only [glob_match, do_match_cons, do_match_nil]
    by_cases hp : s.isPrefixOf t = true
    · rw [if_pos hp]
      obtain ⟨r, hr⟩ := List.isPrefixOf_iff_prefix.1 hp
      subst hr
      cases r <;> simp
    · rw [if_neg hp]
      have : t ≠ s := by
        intro h
        subst h
        exact hp (List.isPrefixOf_iff_prefix.2 (List.prefix_refl _))
      simp [this]

/-- C28: `compile("**")` gives two `STAR` elements and `compile("*")` one; on the
empty text `Glob::match` returns false for the former and true for the latter,
on every platform, and likewise `a**` and `a*` on the text `a`. With `A` empty
(or `[a]`) and `B` empty the two element sequences of the claim give different
results. -/
theorem match_double_star_differs :
    compile [42, 42] = some ([] ++ [Element.ofKind .STAR, Element.ofKind .STAR] ++ [])
      ∧ compile [42] = some ([] ++ [Element.ofKind .STAR] ++ [])
      ∧ (∀ signed_char : Bool,
          glob_match signed_char ([] ++ [Element.ofKind .STAR, Element.ofKind .STAR] ++ []) []
              = .val false
            ∧ glob_match signed_char ([] ++ [Element.ofKind .STAR] ++ []) [] = .val true)
      ∧ compile [97, 42, 42]
          = some ([⟨.STRING, [97], 0⟩] ++ [Element.ofKind .STAR, Element.ofKind .STAR] ++ [])
      ∧ compile [97, 42] = some ([⟨.STRING, [97], 0⟩] ++ [Element.ofKind .STAR] ++ [])
      ∧ ∀ signed_char : Bool,
          glob_match signed_char
              ([⟨.STRING, [97], 0⟩] ++ [Element.ofKind .STAR, Element.ofKind .STAR] ++ []) [97]
              = .val false
            ∧ glob_match signed_char ([⟨.STRING, [97], 0⟩] ++ [Element.ofKind .STAR] ++ []) [97]
              = .val true := by
  decide

/-- C26: `compile("[^a]")` gives one BracketSet of which the byte 0xC3 is a
member. Where `char` is unsigned `Glob::match` returns true for the one-byte
text 0xC3; where `char` is signed, `str[0]` is negative, its conversion to the
`size_t` index of `bitset[...]` is `2^64 - 61`, outside the 256 bits, and the
call has no defined result. The same holds for `[\xC3]`, whose set holds that
byte alone. -/
theorem match_bracket_high_byte :
    compile [91, 94, 97, 93] = some [⟨.BRACKET, [], bitset_flip (bitset_set 0 97)⟩]
      ∧ bitset_test (bitset_flip (bitset_set 0 97)) 195 = true
      ∧ glob_match false [⟨.BRACKET, [], bitset_flip (bitset_set 0 97)⟩] [195] = .val true
      ∧ char_to_size_t true 195 = 2 ^ 64 - 61
      ∧ glob_match true [⟨.BRACKET, [], bitset_flip (bitset_set 0 97)⟩] [195] = .err
      ∧ compile [91, 195, 93] = some [⟨.BRACKET, [], bitset_set 0 195⟩]
      ∧ glob_match false [⟨.BRACKET, [], bitset_set 0 195⟩] [195] = .val true
      ∧ glob_match true [⟨.BRACKET, [], bitset_set 0 195⟩] [195] = .err := by
  decide

/-! ## The fast path of `STAR` and termination -/

theorem do_match_generic_cons (signed_char with_end : Bool) (e : Element)
    (elements : List Element) (str : List Byte) :
    do_match_generic signed_char with_end (e :: elements) str =
      match e.kind with
      | .STRING =>
        if e.str.isPrefixOf str then
          do_match_generic signed_char with_end elements (str.drop e.str.length)
        else .val false
      | .STAR =>
        match elements with
        | [] => .val true
        | e1 :: rest =>
          if e1.kind = .STRING then
            for_loop (fun j => do_match_generic signed_char with_end (e1 :: rest) (str.drop j))
              (List.range (str.length + (if with_end then 1 else 0)))
          else
            for_loop (fun j => do_match_generic signed_char with_end (e1 :: rest) (str.drop j))
              (List.range str.length)
      | .QUESTION =>
        match str with
        | [] => .val false
        | _ :: str1 => do_match_generic signed_char with_end elements str1
      | .BRACKET =>
        match str with
        | [] => .val false
        | c :: str1 =>
          if char_to_size_t signed_char c < 256 then
            if bitset_test e.bitset (char_to_size_t signed_char c) then
              do_match_generic signed_char with_end elements str1
            else .val false
          else .err := by
  obtain ⟨kind, s, b⟩ := e
  cases kind
  · rfl
  · cases elements <;> rfl
  · cases str <;> rfl
  · cases str <;> rfl

theorem for_loop_append_false (body : Nat → Res Bool) :
    ∀ (l1 l2 : List Nat), (∀ j ∈ l1, body j = .val false) →
      for_loop body (l1 ++ l2) = for_loop body l2 := by
  intro l1
  induction l1 with
  | nil => intro l2 _; rfl
  | cons j js ih =>
    intro l2 h
    simp only [List.cons_append, for_loop, h j (List.mem_cons_self _ _)]
    exact ih l2 (fun x hx => h x (List.mem_cons_of_mem _ hx))

theorem for_loop_all_false (body : Nat → Res Bool) (l : List Nat)
    (h : ∀ j ∈ l, body j = .val false) : for_loop body l = .val false := by
  have := for_loop_append_false body l [] h
  simpa using this

theorem range'_split :
    ∀ (pos a m : Nat), pos < m →
      List.range' a m = List.range' a pos ++ (a + pos) :: List.range' (a + pos + 1) (m - pos - 1) := by
  intro pos
  induction pos with
  | zero =>
    intro a m h
    obtain ⟨m, rfl⟩ : ∃ k, m = k + 1 := ⟨m - 1, by omega⟩
    simp [List.range'_succ]
  | succ p ih =>
    intro a m h
    obtain ⟨m, rfl⟩ : ∃ k, m = k + 1 := ⟨m - 1, by omega⟩
    rw [List.range'_succ, List.range'_succ, ih (a + 1) m (by omega)]
    simp only [List.cons_append]
    have e1 : a + 1 + p = a + (p + 1) := by omega
    have e2 : m + 1 - (p + 1) - 1 = m - p - 1 := by omega
    rw [e1, e2]

/-- The fast path and the loop over the split points agree: started at the
offset `a` of the text, the scan for the next occurrence of a non-empty literal
gives what the loop over the offsets from `a` on gives. -/
theorem star_string_loop_eq_for_loop (lit : List Byte) (hl : lit ≠ []) (k : List Byte → Res Bool)
    (str : List Byte) (c : Nat) :
    ∀ (n a : Nat), a ≤ str.length → str.length - a < n →
      star_string_loop lit k n (str.drop a)
        = for_loop (fun j => if lit.isPrefixOf (str.drop j) then k (str.drop (j + lit.length))
            else .val false) (List.range' a (str.length + c - a)) := by
  intro n
  induction n with
  | zero => intro a _ h; omega
  | succ n ih =>
    intro a ha hn
    have hdd : ∀ x, (str.drop a).drop x = str.drop (a + x) := by
      intro x; rw [List.drop_drop]
    simp only [star_string_loop]
    cases hf : find (str.drop a) lit with
    | none =>
      simp only []
      symm
      apply for_loop_all_false
      intro j hj
      have hja : a ≤ j := by
        have := List.mem_range'_1.1 hj
        omega
      have := find_none lit (str.drop a) hf (j - a)
      rw [hdd, show a + (j - a) = j by omega] at this
      simp only [this, Bool.false_eq_true, if_false]
    | some pos =>
      obtain ⟨hp, hple, hbefore⟩ := find_some lit (str.drop a) pos hf
      have hlen := isPrefixOf_drop_length hl hp
      rw [List.length_drop] at hlen
      have hlpos : 0 < lit.length := List.length_pos.2 hl
      have hpm : pos < str.length + c - a := by omega
      rw [range'_split pos a _ hpm, for_loop_append_false]
      · rw [hdd] at hp
        simp only [for_loop, hp, if_true]
        rw [hdd, show a + (pos + lit.length) = a + pos + lit.length by omega]
        cases hk : k (str.drop (a + pos + lit.length)) with
        | err => rfl
        | more => rfl
        | val b =>
          cases b with
          | true => rfl
          | false =>
            simp only []
            have hc : pos + 1 ≤ (str.drop a).length := by rw [List.length_drop]; omega
            rw [if_pos hc, hdd, ← Nat.add_assoc, ih (a + pos + 1) (by omega) (by omega)]
            have : str.length + c - a - pos - 1 = str.length + c - (a + pos + 1) := by omega
            rw [this]
      · intro j hj
        have hj2 := List.mem_range'_1.1 hj
        have := hbefore (j - a) (by omega)
        rw [hdd, show a + (j - a) = j by omega] at this
        simp only [this, Bool.false_eq_true, if_false]

theorem do_match_eq_generic (signed_char with_end : Bool) :
    ∀ (elements : List Element), lits_nonempty elements → ∀ str : List Byte,
      do_match signed_char elements str = do_match_generic signed_char with_end elements str := by
  intro elements
  induction elements with
  | nil => intro _ str; rfl
  | cons e elements ih =>
    intro hl str
    have ih' := ih (lits_nonempty_tail hl)
    rw [do_match_cons, do_match_generic_cons]
    cases hk : e.kind with
    | STRING =>
      simp only []
      rw [ih']
    | QUESTION =>
      cases str with
      | nil => rfl
      | cons c s => simp only []; rw [ih']
    | BRACKET =>
      cases str with
      | nil => rfl
      | cons c s => simp only []; rw [ih']
    | STAR =>
      cases elements with
      | nil => rfl
      | cons e1 rest =>
        simp only []
        have hbody : (fun j => do_match_generic signed_char with_end (e1 :: rest) (str.drop j))
            = (fun j => do_match signed_char (e1 :: rest) (str.drop j)) := by
          funext j; rw [ih']
        rw [hbody]
        by_cases h1 : e1.kind = .STRING
        · rw [if_pos h1, if_pos h1]
          have hne : e1.str ≠ [] := hl e1 (by simp) h1
          have hb2 : (fun j => do_match signed_char (e1 :: rest) (str.drop j))
              = (fun j => if e1.str.isPrefixOf (str.drop j)
                  then do_match signed_char rest (str.drop (j + e1.str.length))
                  else .val false) := by
            funext j
            rw [do_match_cons, h1]
            simp only []
            rw [List.drop_drop]
          rw [hb2]
          have := star_string_loop_eq_for_loop e1.str hne (do_match signed_char rest) str
            (if with_end then 1 else 0) (str.length + 1) 0 (Nat.zero_le _) (by omega)
          rw [List.drop_zero, Nat.sub_zero] at this
          rw [this, List.range_eq_range']
        · rw [if_neg h1, if_neg h1]

/-- C24: for every glob `g` that `Glob::compile` returns and every text `t`,
`do_match` gives the result of the variant in which a `STAR` followed by a
literal is handled by the loop over the split points of the remaining text:
the same value or the same failure, on every platform, whether or not that
loop also tries the split point at the end of the text. -/
theorem do_match_fast_path (p : List Byte) (g : List Element) (t : List Byte)
    (h : compile p = some g) :
    ∀ signed_char with_end : Bool,
      do_match signed_char g t = do_match_generic signed_char with_end g t :=
  fun signed_char with_end =>
    do_match_eq_generic signed_char with_end g (compile_lits_nonempty p g h) t

theorem do_match_fast_path_witness :
    compile [42, 97, 98, 42, 99] = some [Element.ofKind .STAR, ⟨.STRING, [97, 98], 0⟩,
        Element.ofKind .STAR, ⟨.STRING, [99], 0⟩]
      ∧ (∀ signed_char with_end : Bool,
          do_match signed_char [Element.ofKind .STAR, ⟨.STRING, [97, 98], 0⟩,
              Element.ofKind .STAR, ⟨.STRING, [99], 0⟩] [97, 97, 98, 97, 98, 99]
            = do_match_generic signed_char with_end [Element.ofKind .STAR, ⟨.STRING, [97, 98], 0⟩,
                Element.ofKind .STAR, ⟨.STRING, [99], 0⟩] [97, 97, 98, 97, 98, 99])
      ∧ do_match false [Element.ofKind .STAR, ⟨.STRING, [97, 98], 0⟩,
            Element.ofKind .STAR, ⟨.STRING, [99], 0⟩] [97, 97, 98, 97, 98, 99] = .val true
      ∧ do_match_generic false true [Element.ofKind .STAR, ⟨.STRING, [97, 98], 0⟩,
            Element.ofKind .STAR, ⟨.STRING, [99], 0⟩] [97, 97, 98, 97, 98, 99] = .val true
      ∧ do_match_generic false false [Element.ofKind .STAR, ⟨.STRING, [97, 98], 0⟩,
            Element.ofKind .STAR, ⟨.STRING, [99], 0⟩] [97, 98, 99, 97] = .val false :=
  ⟨by decide,
    do_match_fast_path [42, 97, 98, 42, 99] _ [97, 97, 98, 97, 98, 99] (by decide),
    by decide, by decide, by decide⟩

/-- C29: for every glob `g` that `Glob::compile` returns and every text `t`,
the model of `do_match` (recursive calls on the rest of the element sequence,
the scan loop of `STAR` with one pass per byte of text at most) gives a result
within its budget on every platform, and where `char` is unsigned the result is
true or false; every `STRING` element of `g` is non-empty, and each pass of the
scan loop for a non-empty literal goes on with a strictly shorter text. -/
theorem do_match_terminates (p : List Byte) (g : List Element) (t : List Byte)
    (h : compile p = some g) :
    (∀ signed_char : Bool, glob_match signed_char g t ≠ .more)
      ∧ (∃ b : Bool, glob_match false g t = .val b)
      ∧ lits_nonempty g
      ∧ ∀ (lit str : List Byte) (pos : Nat), lit ≠ [] → find str lit = some pos →
          pos + 1 ≤ str.length ∧ (str.drop (pos + 1)).length < str.length := by
  have hl := compile_lits_nonempty p g h
  refine ⟨fun sc => do_match_ne_more sc g t, ?_, hl, ?_⟩
  · have h1 := do_match_ne_more false g t
    have h2 := do_match_ne_err g t hl
    unfold glob_match
    cases hr : do_match false g t with
    | val b => exact ⟨b, rfl⟩
    | err => exact absurd hr h2
    | more => exact absurd hr h1
  · intro lit str pos hne hf
    obtain ⟨hp, _, _⟩ := find_some lit str pos hf
    have := isPrefixOf_drop_length hne hp
    have hlpos : 0 < lit.length := List.length_pos.2 hne
    rw [List.length_drop]
    omega

theorem do_match_terminates_witness :
    compile [42, 97, 42, 63] = some [Element.ofKind .STAR, ⟨.STRING, [97], 0⟩,
        Element.ofKind .STAR, Element.ofKind .QUESTION]
      ∧ ((∀ signed_char : Bool,
            glob_match signed_char [Element.ofKind .STAR, ⟨.STRING, [97], 0⟩,
              Element.ofKind .STAR, Element.ofKind .QUESTION] [98, 97, 97, 99] ≠ .more)
        ∧ (∃ b : Bool, glob_match false [Element.ofKind .STAR, ⟨.STRING, [97], 0⟩,
              Element.ofKind .STAR, Element.ofKind .QUESTION] [98, 97, 97, 99] = .val b)
        ∧ lits_nonempty [Element.ofKind .STAR, ⟨.STRING, [97], 0⟩,
              Element.ofKind .STAR, Element.ofKind .QUESTION]
        ∧ ∀ (lit str : List Byte) (pos : Nat), lit ≠ [] → find str lit = some pos →
            pos + 1 ≤ str.length ∧ (str.drop (pos + 1)).length < str.length)
      ∧ glob_match false [Element.ofKind .STAR, ⟨.STRING, [97], 0⟩,
            Element.ofKind .STAR, Element.ofKind .QUESTION] [98, 97, 97, 99] = .val true :=
  ⟨by decide, do_match_terminates [42, 97, 42, 63] _ [98, 97, 97, 99] (by decide), by decide⟩

end Glob

/-! ## File-type sniffing -/

theorem classify_elf_cases (E32 E64 : Target) (plugin : Bool) (data : List Byte) :
    classify_elf E32 E64 plugin data = none
      ∨ classify_elf E32 E64 plugin data = some .GCC_LTO_OBJ
      ∨ classify_elf E32 E64 plugin data = some .ELF_OBJ
      ∨ classify_elf E32 E64 plugin data = some .ELF_DSO
      ∨ classify_elf E32 E64 plugin data = some .UNKNOWN := by
  unfold classify_elf
  split
  · simp
  · split
    · split
      · simp
      · split <;> simp
    · split <;> simp

theorem elf_magic_cases (plugin : Bool) (data : List Byte)
    (h : starts_with data [127, 69, 76, 70] = true) :
    get_file_type plugin data = none
      ∨ get_file_type plugin data = some .GCC_LTO_OBJ
      ∨ get_file_type plugin data = some .ELF_OBJ
      ∨ get_file_type plugin data = some .ELF_DSO
      ∨ get_file_type plugin data = some .UNKNOWN := by
  have hne : data.isEmpty = false := by
    cases data <;> simp_all [starts_with]
  unfold get_file_type
  simp only [hne, h, if_true, Bool.false_eq_true, if_false]
  split
  · simp
  · split
    · exact classify_elf_cases _ _ _ _
    · exact classify_elf_cases _ _ _ _

theorem starts_with_iff (data pre : List Byte) :
    starts_with data pre = true ↔ ∃ t, data = pre ++ t := by
  unfold starts_with
  rw [List.isPrefixOf_iff_prefix]
  constructor
  · rintro ⟨t, h⟩; exact ⟨t, h.symm⟩
  · rintro ⟨t, h⟩; exact ⟨t, h.symm⟩

theorem starts_with_getElem? {data pre : List Byte} (h : starts_with data pre = true)
    (i : Nat) (hi : i < pre.length) : data[i]? = pre[i]? := by
  obtain ⟨t, rfl⟩ := (starts_with_iff data pre).mp h
  exact List.getElem?_append_left hi

theorem starts_with_exclusive {data pre₁ pre₂ : List Byte} (i : Nat)
    (h1 : i < pre₁.length) (h2 : i < pre₂.length) (hne : pre₁[i]? ≠ pre₂[i]?)
    (h : starts_with data pre₁ = true) : starts_with data pre₂ = false := by
  cases h' : starts_with data pre₂ with
  | false => rfl
  | true =>
    exact absurd ((starts_with_getElem? h i h1).symm.trans (starts_with_getElem? h' i h2)) hne

theorem not_isEmpty_of_starts_with {data pre : List Byte} (hpre : pre ≠ [])
    (h : starts_with data pre = true) : data.isEmpty = false := by
  obtain ⟨t, rfl⟩ := (starts_with_iff data pre).mp h
  cases pre with
  | nil => exact absurd rfl hpre
  | cons c cs => rfl

/-- C4. `get_file_type` answers `AR` exactly for the buffers that begin with
`!<arch>\n` and `THIN_AR` exactly for those that begin with `!<thin>\n`; such a
buffer is never classified as `TEXT`. -/
theorem get_file_type_archive (plugin : Bool) (data : List Byte) :
    (get_file_type plugin data = some .AR
        ↔ starts_with data [33, 60, 97, 114, 99, 104, 62, 10] = true)
      ∧ (get_file_type plugin data = some .THIN_AR
        ↔ starts_with data [33, 60, 116, 104, 105, 110, 62, 10] = true)
      ∧ (starts_with data [33, 60, 97, 114, 99, 104, 62, 10] = true
          ∨ starts_with data [33, 60, 116, 104, 105, 110, 62, 10] = true →
        get_file_type plugin data ≠ some .TEXT) := by
  by_cases helf : starts_with data [127, 69, 76, 70] = true
  · have har : starts_with data [33, 60, 97, 114, 99, 104, 62, 10] = false :=
      starts_with_exclusive 0 (by simp) (by simp) (by simp) helf
    have hth : starts_with data [33, 60, 116, 104, 105, 110, 62, 10] = false :=
      starts_with_exclusive 0 (by simp) (by simp) (by simp) helf
    rcases elf_magic_cases plugin data helf with h | h | h | h | h <;>
      simp [h, har, hth]
  · by_cases har : starts_with data [33, 60, 97, 114, 99, 104, 62, 10] = true
    · have hth : starts_with data [33, 60, 116, 104, 105, 110, 62, 10] = false :=
        starts_with_exclusive 2 (by simp) (by simp) (by simp) har
      have h : get_file_type plugin data = some .AR := by
        unfold get_file_type
        simp [not_isEmpty_of_starts_with (by simp) har, helf, har]
      simp [h, har, hth]
    · by_cases hth : starts_with data [33, 60, 116, 104, 105, 110, 62, 10] = true
      · have h : get_file_type plugin data = some .THIN_AR := by
          unfold get_file_type
          simp [not_isEmpty_of_starts_with (by simp) hth, helf, har, hth]
        simp [h, har, hth]
      · simp only [har, hth, Bool.false_eq_true, iff_false, false_or, false_implies, and_true]
        unfold get_file_type
        simp only [helf, har, hth, Bool.false_eq_true, if_false]
        constructor <;> (repeat' split) <;> simp

theorem length_of_starts_with {data pre : List Byte} (h : starts_with data pre = true) :
    pre.length ≤ data.length := by
  obtain ⟨t, rfl⟩ := (starts_with_iff data pre).mp h
  simp

theorem at_off_eq (buf pre suf : List Byte) (p : Int) (k : Nat) (hb : buf = pre ++ suf)
    (hp : p = (pre.length : Int) + k) (hk : k ≤ suf.length) :
    at_off buf p = some (suf.drop k) := by
  subst hb hp
  unfold at_off
  have h1 : (0 : Int) ≤ (pre.length : Int) + k
      ∧ (pre.length : Int) + k ≤ ((pre ++ suf).length : Nat) := by
    simp only [List.length_append]; omega
  have h2 : ((pre.length : Int) + k).toNat = pre.length + k := by omega
  rw [if_pos h1, h2, List.drop_append]

theorem read_range_eq (buf pre suf : List Byte) (p : Int) (k n : Nat) (hb : buf = pre ++ suf)
    (hp : p = (pre.length : Int) + k) (hk : k + n ≤ suf.length) :
    read_range buf p n = some ((suf.drop k).take n) := by
  subst hb hp
  unfold read_range
  by_cases hn : n = 0
  · simp [hn]
  · have h1 : (0 : Int) ≤ (pre.length : Int) + k
        ∧ (pre.length : Int) + k + n ≤ ((pre ++ suf).length : Nat) := by
      simp only [List.length_append]; omega
    have h2 : ((pre.length : Int) + k).toNat = pre.length + k := by omega
    rw [if_neg hn, if_pos h1, h2, List.drop_append]

theorem digit_val (d : Nat) : (digit d).val = 48 + d % 10 := rfl

theorem isdigit_digit (d : Nat) : isdigit (digit d) = true := by
  simp only [isdigit, digit_val, Bool.and_eq_true, decide_eq_true_eq]
  omega

theorem digits_rev_isdigit : ∀ (f n : Nat), ∀ d ∈ digits_rev f n, isdigit d = true := by
  intro f
  induction f with
  | zero => intro n d hd; simp [digits_rev] at hd
  | succ f ih =>
    intro n d hd
    simp only [digits_rev] at hd
    split at hd
    · simp only [List.mem_singleton] at hd
      exact hd ▸ isdigit_digit n
    · rcases List.mem_cons.mp hd with h | h
      · exact h ▸ isdigit_digit n
      · exact ih _ d h

theorem digits_rev_value : ∀ (f n : Nat), n < 10 ^ f →
    (digits_rev f n).foldr (fun d a => 10 * a + (d.val - 48)) 0 = n := by
  intro f
  induction f with
  | zero => intro n h; simp at h; simp [digits_rev, h]
  | succ f ih =>
    intro n h
    simp only [digits_rev]
    split
    · simp only [List.foldr_cons, List.foldr_nil, digit_val]; omega
    · have h2 : n / 10 < 10 ^ f := by
        rw [Nat.div_lt_iff_lt_mul (by omega)]
        rw [pow_succ] at h; exact h
      simp only [List.foldr_cons, ih _ h2, digit_val]; omega

theorem digits_rev_length : ∀ (f n k : Nat), n < 10 ^ (k + 1) → (digits_rev f n).length ≤ k + 1 := by
  intro f
  induction f with
  | zero => intro n k _; simp [digits_rev]
  | succ f ih =>
    intro n k h
    simp only [digits_rev]
    split
    · simp
    · cases k with
      | zero => simp at h; omega
      | succ k =>
        have h2 : n / 10 < 10 ^ (k + 1) := by
          rw [Nat.div_lt_iff_lt_mul (by omega)]
          rw [pow_succ] at h; exact h
        have := ih (n / 10) k h2
        simp only [List.length_cons]; omega

theorem lt_ten_pow_succ (n : Nat) : n < 10 ^ (n + 1) :=
  Nat.lt_of_lt_of_le (Nat.lt_pow_self (by omega) n) (Nat.pow_le_pow_right (by omega) (by omega))

theorem decimal_length (n k : Nat) (h : n < 10 ^ (k + 1)) : (decimal n).length ≤ k + 1 := by
  simp only [decimal, List.length_reverse]
  exact digits_rev_length _ _ _ h

theorem decimal_isdigit (n : Nat) : ∀ d ∈ decimal n, isdigit d = true := by
  intro d hd
  simp only [decimal, List.mem_reverse] at hd
  exact digits_rev_isdigit _ _ d hd

theorem decimal_ne_nil (n : Nat) : decimal n ≠ [] := by
  simp only [decimal, digits_rev, ne_eq, List.reverse_eq_nil_iff]
  split <;> simp

theorem parse_digits_append (ds : List Byte) (hds : ∀ d ∈ ds, isdigit d = true) :
    ∀ (tail : List Byte) (acc : Nat),
      parse_digits (ds ++ tail) acc
        = parse_digits tail (ds.foldl (fun a d => 10 * a + (d.val - 48)) acc) := by
  induction ds with
  | nil => intro tail acc; rfl
  | cons d ds ih =>
    intro tail acc
    have hd := hds d (List.mem_cons_self _ _)
    simp only [List.cons_append, parse_digits, hd, if_true, List.foldl_cons]
    exact ih (fun x hx => hds x (List.mem_cons_of_mem _ hx)) tail _

theorem parse_digits_decimal (n : Nat) (c : Byte) (rest : List Byte) (hc : isdigit c = false) :
    parse_digits (decimal n ++ c :: rest) 0 = some n := by
  rw [parse_digits_append _ (decimal_isdigit n)]
  simp only [parse_digits, hc, Bool.false_eq_true, if_false, decimal, List.foldl_reverse]
  rw [digits_rev_value _ _ (lt_ten_pow_succ n)]

theorem strtol_core_decimal (n : Nat) (c : Byte) (rest : List Byte) (hc : isdigit c = false) :
    strtol_core (decimal n ++ c :: rest) = some (n : Int) := by
  have hp := parse_digits_decimal n c rest hc
  cases hd : decimal n with
  | nil => exact absurd hd (decimal_ne_nil n)
  | cons d ds =>
    have hdig : isdigit d = true := decimal_isdigit n d (by simp [hd])
    rw [hd] at hp
    simp only [isdigit, Bool.and_eq_true, decide_eq_true_eq] at hdig
    have hv : ∀ k : Byte, d = k → d.val = k.val := fun k h => by rw [h]
    have hsp : isspace d = false := by
      simp only [isspace, Bool.or_eq_false_iff, beq_eq_false_iff_ne, ne_eq,
        Bool.and_eq_false_iff, decide_eq_false_iff_not]
      constructor
      · intro h; have := hv 32 h; simp at this; omega
      · right; omega
    have h45 : d ≠ 45 := by intro h; have := hv 45 h; simp at this; omega
    have h43 : d ≠ 43 := by intro h; have := hv 43 h; simp at this; omega
    simp only [List.cons_append] at hp
    simp only [List.cons_append, strtol_core, hsp, Bool.false_eq_true, if_false, h45, h43]
    have hp' : parse_digits (d :: ds.append (c :: rest)) 0 = some n := hp
    rw [hp']
    rfl

theorem pad_right_length (s : List Byte) (w : Nat) (h : s.length ≤ w) :
    (pad_right s w).length = w := by
  simp only [pad_right, List.length_append, List.length_replicate]; omega

theorem ar_header_length (nf misc : List Byte) (size : Nat) (hnf : nf.length ≤ 16)
    (hmisc : misc.length = 32) (hsize : size < 10 ^ 10) :
    (ar_header nf misc size).length = 60 := by
  simp only [ar_header, List.length_append, pad_right_length nf 16 hnf, hmisc,
    pad_right_length _ 10 (decimal_length size 9 hsize), List.length_cons, List.length_nil]

/-- A decimal field followed by blanks and then by a byte that is no digit is
read back by `strtol`. -/
theorem strtol_core_field (n w : Nat) (c : Byte) (tail : List Byte) (hc : isdigit c = false) :
    strtol_core (pad_right (decimal n) w ++ c :: tail) = some (n : Int) := by
  simp only [pad_right, List.append_assoc]
  cases hj : w - (decimal n).length with
  | zero => simpa using strtol_core_decimal n c tail hc
  | succ j =>
    simp only [List.replicate_succ, List.cons_append]
    exact strtol_core_decimal n 32 _ (by decide)

theorem atol_field (n w : Nat) (c : Byte) (tail : List Byte) (hc : isdigit c = false)
    (hn : n < 2 ^ 63) : atol (pad_right (decimal n) w ++ c :: tail) = some (n : Int) := by
  unfold atol
  rw [strtol_core_field n w c tail hc]
  have hn' : n < 9223372036854775808 := by simpa using hn
  have h : - 2 ^ 63 ≤ (n : Int) ∧ (n : Int) < 2 ^ 63 := by
    norm_num
    omega
  rw [Option.some_bind, if_pos h]

theorem atoi_field (n w : Nat) (c : Byte) (tail : List Byte) (hc : isdigit c = false)
    (hn : n < 2 ^ 31) : atoi (pad_right (decimal n) w ++ c :: tail) = some (n : Int) := by
  unfold atoi
  rw [strtol_core_field n w c tail hc]
  have hn' : n < 2147483648 := by simpa using hn
  have h : - 2 ^ 31 ≤ (n : Int) ∧ (n : Int) < 2 ^ 31 := by
    norm_num
    omega
  rw [Option.some_bind, if_pos h]

/-- The size field of a header is read back by `atol`. -/
theorem header_size (buf pre post nf misc : List Byte) (size : Nat) (p : Int)
    (hb : buf = pre ++ (ar_header nf misc size ++ post)) (hp : p = (pre.length : Int) + 48)
    (hnf : nf.length ≤ 16) (hmisc : misc.length = 32) (hsize : size < 10 ^ 10) :
    (at_off buf p).bind atol = some (size : Int) := by
  have hl := ar_header_length nf misc size hnf hmisc hsize
  rw [at_off_eq buf pre _ p 48 hb (by simpa using hp) (by simp only [List.length_append]; omega)]
  have hdrop : List.drop 48 (ar_header nf misc size ++ post)
      = pad_right (decimal size) 10 ++ 96 :: ([10] ++ post) := by
    have h48 : (pad_right nf 16 ++ misc).length = 48 := by
      simp only [List.length_append, pad_right_length nf 16 hnf, hmisc]
    have : ar_header nf misc size ++ post
        = (pad_right nf 16 ++ misc) ++ (pad_right (decimal size) 10 ++ 96 :: ([10] ++ post)) := by
      simp [ar_header]
    rw [this, ← h48, List.drop_left]
  rw [hdrop, Option.some_bind]
  exact atol_field size 10 96 _ (by decide) (by omega)

theorem take_beq_eq_starts_with (suf s : List Byte) :
    ((suf.take s.length) == s) = starts_with suf s := by
  rw [Bool.eq_iff_iff]
  simp only [beq_iff_eq, starts_with, List.isPrefixOf_iff_prefix, List.prefix_iff_eq_take]
  exact eq_comm

/-- `ArHdr::starts_with` looks at the name field only. -/
theorem header_starts_with (buf pre field rest s : List Byte) (p : Int)
    (hb : buf = pre ++ (field ++ rest)) (hp : p = (pre.length : Int))
    (hs : s.length ≤ field.length) :
    ArHdr.starts_with buf p s = some (starts_with field s) := by
  unfold ArHdr.starts_with
  rw [read_range_eq buf pre (field ++ rest) p 0 s.length hb (by simpa using hp)
    (by simp only [List.length_append]; omega)]
  simp only [List.drop_zero, Option.map_some', Option.some.injEq]
  rw [List.take_append_of_le_length hs]
  exact take_beq_eq_starts_with field s

theorem starts_with_false (l s : List Byte) (i : Nat) (hi : i < s.length)
    (hne : l[i]? ≠ s[i]?) : starts_with l s = false := by
  cases h : starts_with l s with
  | false => rfl
  | true => exact absurd (starts_with_getElem? h i hi) hne

theorem c_strstr_name_aux (more : List Byte) :
    ∀ s : List Byte, (0 : Byte) ∉ s → ¬ [47, 10] <:+: s →
      c_strstr (s ++ 47 :: 10 :: more) [47, 10] = some s.length := by
  intro s
  induction s with
  | nil => intro _ _; simp [c_strstr, List.isPrefixOf]
  | cons c cs ih =>
    intro hnul hinf
    have hc0 : c ≠ 0 := fun h => hnul (h ▸ List.mem_cons_self _ _)
    have hcs : (0 : Byte) ∉ cs := fun h => hnul (List.mem_cons_of_mem _ h)
    have hinf' : ¬ [47, 10] <:+: cs := fun h => hinf (h.trans (List.suffix_cons c cs).isInfix)
    have hnp : List.isPrefixOf [47, 10] (c :: (cs ++ 47 :: 10 :: more)) = false := by
      cases cs with
      | nil => simp [List.isPrefixOf]
      | cons d ds =>
        cases hp : List.isPrefixOf [47, 10] (c :: (d :: ds ++ 47 :: 10 :: more)) with
        | false => rfl
        | true =>
          exfalso
          simp only [List.cons_append, List.isPrefixOf, Bool.and_eq_true, beq_iff_eq,
            Bool.and_true] at hp
          apply hinf
          rw [← hp.1, ← hp.2]
          exact (List.prefix_append [47, 10] ds).isInfix
    rw [List.cons_append, c_strstr, hnp]
    simp only [Bool.false_eq_true, if_false, hc0]
    rw [ih hcs hinf']
    rfl

theorem c_strstr_name (more s : List Byte) (hnul : (0 : Byte) ∉ s) (hinf : ¬ [47, 10] <:+: s) :
    c_strstr (s ++ [47, 10] ++ more) [47, 10] = some s.length := by
  have := c_strstr_name_aux more s hnul hinf
  simpa using this

theorem takeWhile_append_stop (p : Byte → Bool) (a : Byte) (r : List Byte) (ha : p a = false) :
    ∀ l : List Byte, (∀ x ∈ l, p x = true) → (l ++ a :: r).takeWhile p = l := by
  intro l
  induction l with
  | nil => intro _; simp [List.takeWhile, ha]
  | cons x xs ih =>
    intro h
    rw [List.cons_append, List.takeWhile_cons]
    simp only [h x (List.mem_cons_self _ _), if_true]
    rw [ih (fun y hy => h y (List.mem_cons_of_mem _ hy))]

theorem take_append_len (a b : List Byte) (n : Nat) (h : a.length = n) :
    (a ++ b).take n = a := by
  subst h
  exact List.take_left' rfl

theorem pad_right_cons (a : List Byte) (d : List Byte) (w : Nat)
    (h : a.length + d.length < w) :
    pad_right (a ++ d) w = a ++ (pad_right d (w - a.length - 1) ++ [32]) := by
  unfold pad_right
  simp only [List.append_assoc]
  congr 2
  rw [← List.replicate_succ']
  congr 1
  simp only [List.length_append]; omega

/-- The short encoding: the name field is `s/` padded with blanks. -/
theorem read_name_short (buf pre rest s : List Byte) (strtab : Option StrView) (ptr p : Int)
    (hb : buf = pre ++ (pad_right (s ++ [47]) 16 ++ rest)) (hp : p = (pre.length : Int))
    (h1 : 1 ≤ s.length) (h15 : s.length ≤ 15) (hslash : (47 : Byte) ∉ s)
    (hne : s ≠ [35, 49]) :
    ArHdr.read_name buf p strtab ptr = some (s, ptr) := by
  have hlen : (pad_right (s ++ [47]) 16).length = 16 :=
    pad_right_length _ _ (by simp only [List.length_append, List.length_singleton]; omega)
  have hsw1 : starts_with (pad_right (s ++ [47]) 16) [35, 49, 47] = false := by
    match s, h1, hslash, hne with
    | [a], _, _, _ =>
      exact starts_with_false _ _ 1 (by simp) (by simp [pad_right])
    | [a, b], _, _, hne =>
      cases h : starts_with (pad_right ([a, b] ++ [47]) 16) [35, 49, 47] with
      | false => rfl
      | true =>
        exfalso
        simp only [starts_with, pad_right, List.cons_append, List.nil_append, List.isPrefixOf,
          Bool.and_eq_true, beq_iff_eq] at h
        exact hne (by rw [← h.1, ← h.2.1])
    | a :: b :: c :: t, _, hslash, _ =>
      have hc : c ≠ 47 := fun h => hslash (by simp [h])
      exact starts_with_false _ _ 2 (by simp) (by simpa [pad_right] using hc)
  have hsw2 : starts_with (pad_right (s ++ [47]) 16) [47] = false := by
    match s, h1, hslash with
    | a :: t, _, hslash =>
      have ha : a ≠ 47 := fun h => hslash (by simp [h])
      exact starts_with_false _ _ 0 (by simp) (by simpa [pad_right] using ha)
  unfold ArHdr.read_name
  rw [header_starts_with buf pre _ rest [35, 49, 47] p hb hp (by rw [hlen]; simp), hsw1]
  simp only []
  rw [header_starts_with buf pre _ rest [47] p hb hp (by rw [hlen]; simp), hsw2]
  simp only []
  rw [read_range_eq buf pre _ p 0 16 hb (by simpa using hp)
    (by simp only [List.length_append, hlen]; omega)]
  simp only [List.drop_zero, Option.map_some', Option.some.injEq, Prod.mk.injEq, and_true]
  rw [take_append_len _ rest 16 hlen]
  simp only [pad_right, List.append_assoc, List.singleton_append]
  apply takeWhile_append_stop
  · simp
  · intro x hx
    simp only [bne_iff_ne, ne_eq]
    exact fun h => hslash (h ▸ hx)

theorem find_char_none (s : List Byte) (c : Byte) (h : c ∉ s) : find_char s c = none := by
  induction s with
  | nil => rfl
  | cons d ds ih =>
    have hd : d ≠ c := fun e => h (e ▸ List.mem_cons_self _ _)
    simp only [find_char, hd, if_false, ih (fun hm => h (List.mem_cons_of_mem _ hm)),
      Option.map_none']

/-- The BSD encoding: the name field is `#1/<n>`, the name is stored in the
`n` bytes at `ptr`. -/
theorem read_name_bsd (buf pre rest name : List Byte) (strtab : Option StrView) (ptr p : Int)
    (hb : buf = pre ++ (pad_right ([35, 49, 47] ++ decimal name.length) 16 ++ rest))
    (hp : p = (pre.length : Int)) (hn : name.length < 2 ^ 31) (hnul : (0 : Byte) ∉ name)
    (hrd : read_range buf ptr name.length = some name) :
    ArHdr.read_name buf p strtab ptr = some (name, ptr + name.length) := by
  have hn' : name.length < 10 ^ 10 := by
    have : name.length < 2147483648 := by simpa using hn
    omega
  have hdl : (decimal name.length).length ≤ 10 := decimal_length _ 9 hn'
  have hpad := pad_right_cons [35, 49, 47] (decimal name.length) 16
    (by simp only [List.length_cons, List.length_nil]; omega)
  simp only [List.length_cons, List.length_nil] at hpad
  have hlen : (pad_right ([35, 49, 47] ++ decimal name.length) 16).length = 16 :=
    pad_right_length _ _ (by simp only [List.length_append, List.length_cons, List.length_nil]; omega)
  have hsw : starts_with (pad_right ([35, 49, 47] ++ decimal name.length) 16) [35, 49, 47]
      = true := by
    simp [starts_with, pad_right, List.isPrefixOf]
  have hdrop : List.drop 3 (pad_right ([35, 49, 47] ++ decimal name.length) 16 ++ rest)
      = pad_right (decimal name.length) 12 ++ 32 :: rest := by
    rw [hpad]
    simp
  unfold ArHdr.read_name
  rw [header_starts_with buf pre _ rest [35, 49, 47] p hb hp (by rw [hlen]; simp), hsw]
  simp only []
  rw [at_off_eq buf pre _ (p + 3) 3 hb (by rw [hp]; rfl)
    (by simp only [List.length_append, hlen]; omega), hdrop, Option.some_bind,
    atoi_field _ 12 32 rest (by decide) hn]
  simp only []
  have hneg : ¬ ((name.length : Int) < 0) := by omega
  rw [if_neg hneg, Int.toNat_ofNat, hrd]
  simp only [find_char_none name 0 hnul]

/-- The SysV encoding: the name field is `/<k>`, the name is stored in the
string table at offset `k` and ends before the next `/\n`. -/
theorem read_name_sysv (buf pre rest name more : List Byte) (st : StrView) (k : Nat)
    (ptr p : Int)
    (hb : buf = pre ++ (pad_right ([47] ++ decimal k) 16 ++ rest))
    (hp : p = (pre.length : Int)) (hk : k < 2 ^ 31) (hnul : (0 : Byte) ∉ name)
    (hinf : ¬ [47, 10] <:+: name)
    (hst : at_off buf (st.off + k) = some (name ++ [47, 10] ++ more)) :
    ArHdr.read_name buf p (some st) ptr = some (name, ptr) := by
  have hk' : k < 10 ^ 10 := by
    have : k < 2147483648 := by simpa using hk
    omega
  have hdl : (decimal k).length ≤ 10 := decimal_length _ 9 hk'
  have hpad := pad_right_cons [47] (decimal k) 16
    (by simp only [List.length_cons, List.length_nil]; omega)
  simp only [List.length_cons, List.length_nil] at hpad
  have hlen : (pad_right ([47] ++ decimal k) 16).length = 16 :=
    pad_right_length _ _ (by simp only [List.length_append, List.length_cons, List.length_nil]; omega)
  have hsw1 : starts_with (pad_right ([47] ++ decimal k) 16) [35, 49, 47] = false :=
    starts_with_false _ _ 0 (by simp) (by simp [pad_right])
  have hsw2 : starts_with (pad_right ([47] ++ decimal k) 16) [47] = true := by
    simp [starts_with, pad_right, List.isPrefixOf]
  have hdrop : List.drop 1 (pad_right ([47] ++ decimal k) 16 ++ rest)
      = pad_right (decimal k) 14 ++ 32 :: rest := by
    rw [hpad]
    simp
  unfold ArHdr.read_name
  rw [header_starts_with buf pre _ rest [35, 49, 47] p hb hp (by rw [hlen]; simp), hsw1]
  simp only []
  rw [header_starts_with buf pre _ rest [47] p hb hp (by rw [hlen]; simp), hsw2]
  simp only []
  rw [at_off_eq buf pre _ (p + 1) 1 hb (by rw [hp]; rfl)
    (by simp only [List.length_append, hlen]; omega), hdrop, Option.some_bind,
    atoi_field _ 14 32 rest (by decide) hk]
  simp only [hst, c_strstr_name more name hnul hinf, Option.map_some', Option.some.injEq,
    Prod.mk.injEq, and_true]
  rw [List.append_assoc]
  exact take_append_len _ _ _ rfl

/-- C3, as stated, fails: `#1` is a name of two bytes without `/` and NUL, and
its short header `#1/` padded with blanks is read as a BSD header of length 0
(`atoi` runs over the blanks into the date field, here `0`), so the name
returned is empty. -/
theorem read_name_short_hash_one :
    (1 ≤ ([35, 49] : List Byte).length ∧ ([35, 49] : List Byte).length ≤ 15
        ∧ (47 : Byte) ∉ ([35, 49] : List Byte) ∧ (0 : Byte) ∉ ([35, 49] : List Byte))
      ∧ ArHdr.read_name
          (pad_right ([35, 49] ++ [47]) 16 ++ (pad_right [48] 12 ++ List.replicate 32 32))
          0 none 60 = some ([], 60) := by
  decide

/-- C3, amended. For a name `s` of 1 to 15 bytes without `/` and NUL byte,
`read_name` returns `s` for the BSD header `#1/<len s>` with `s` stored at
`ptr` (and moves `ptr` behind it), for the SysV header `/<k>` with `k < 2^31`
and a string table that holds `s/\n` at offset `k`, and for the short header
`s/` padded with blanks unless `s` is `#1`. The header stands at offset
`pre.length` of the buffer; the bytes before it and after its name field are
arbitrary. -/
theorem read_name_three_encodings (s : List Byte) (h1 : 1 ≤ s.length) (h15 : s.length ≤ 15)
    (hslash : (47 : Byte) ∉ s) (hnul : (0 : Byte) ∉ s)
    (pre rest : List Byte) (strtab : Option StrView) (ptr : Int) :
    (s ≠ [35, 49] →
        ArHdr.read_name (pre ++ (pad_right (s ++ [47]) 16 ++ rest)) pre.length strtab ptr
          = some (s, ptr))
      ∧ (∀ buf : List Byte,
          buf = pre ++ (pad_right ([35, 49, 47] ++ decimal s.length) 16 ++ rest) →
          read_range buf ptr s.length = some s →
          ArHdr.read_name buf pre.length strtab ptr = some (s, ptr + s.length))
      ∧ (∀ (buf : List Byte) (st : StrView) (k : Nat) (more : List Byte),
          buf = pre ++ (pad_right ([47] ++ decimal k) 16 ++ rest) → k < 2 ^ 31 →
          at_off buf (st.off + k) = some (s ++ [47, 10] ++ more) →
          ArHdr.read_name buf pre.length (some st) ptr = some (s, ptr)) := by
  refine ⟨?_, ?_, ?_⟩
  · intro hne
    exact read_name_short _ pre rest s strtab ptr _ rfl rfl h1 h15 hslash hne
  · intro buf hb hrd
    have hn : s.length < 2 ^ 31 := by
      have : (15 : Nat) < 2 ^ 31 := by norm_num
      omega
    exact read_name_bsd buf pre rest s strtab ptr _ hb rfl hn hnul hrd
  · intro buf st k more hb hk hst
    have hinf : ¬ [47, 10] <:+: s := fun h => hslash (h.subset (by simp))
    exact read_name_sysv buf pre rest s more st k ptr _ hb rfl hk hnul hinf hst

/-- The name `foo.o` in a short header, in a BSD header `#1/5` with the name
at the start of the body, and in a SysV header `/0` with a string table that
begins right behind the header. -/
theorem read_name_three_encodings_witness :
    (1 ≤ ([102, 111, 111, 46, 111] : List Byte).length
        ∧ ([102, 111, 111, 46, 111] : List Byte).length ≤ 15
        ∧ (47 : Byte) ∉ ([102, 111, 111, 46, 111] : List Byte)
        ∧ (0 : Byte) ∉ ([102, 111, 111, 46, 111] : List Byte))
      ∧ ArHdr.read_name
          ([] ++ (pad_right ([102, 111, 111, 46, 111] ++ [47]) 16
            ++ (List.replicate 44 32 ++ [102, 111, 111, 46, 111, 47, 10])))
          (([] : List Byte).length : Int) none 60
        = some ([102, 111, 111, 46, 111], 60)
      ∧ ArHdr.read_name
          ([] ++ (pad_right ([35, 49, 47] ++ decimal ([102, 111, 111, 46, 111] : List Byte).length)
            16 ++ (List.replicate 44 32 ++ [102, 111, 111, 46, 111, 47, 10])))
          (([] : List Byte).length : Int) none 60
        = some (([102, 111, 111, 46, 111] : List Byte),
            (60 : Int) + (([102, 111, 111, 46, 111] : List Byte).length : Int))
      ∧ ArHdr.read_name
          ([] ++ (pad_right ([47] ++ decimal 0) 16
            ++ (List.replicate 44 32 ++ [102, 111, 111, 46, 111, 47, 10])))
          (([] : List Byte).length : Int) (some ⟨60, 7⟩) 60
        = some ([102, 111, 111, 46, 111], 60) :=
  have h := read_name_three_encodings [102, 111, 111, 46, 111] (by decide) (by decide)
    (by decide) (by decide) [] (List.replicate 44 32 ++ [102, 111, 111, 46, 111, 47, 10]) none 60
  ⟨by decide, h.1 (by decide), h.2.1 _ rfl (by decide),
    (read_name_three_encodings [102, 111, 111, 46, 111] (by decide) (by decide)
      (by decide) (by decide) [] (List.replicate 44 32 ++ [102, 111, 111, 46, 111, 47, 10])
      (some ⟨60, 7⟩) 60).2.2 _ ⟨60, 7⟩ 0 [] rfl (by decide) (by decide)⟩

theorem wrap64_id (x : Int) (h0 : 0 ≤ x) (h1 : x < 2 ^ 63) : wrap64 x = x := by
  unfold wrap64
  have h1' : x < 9223372036854775808 := by simpa using h1
  norm_num
  omega

theorem to_u64_id (n : Nat) (h : n < 2 ^ 63) : to_u64 (n : Int) = n := by
  unfold to_u64
  have h' : n < 9223372036854775808 := by simpa using h
  norm_num
  omega

/-- One pass of the loop of `read_fat_archive_members` over a well-formed
header that stands, after the padding byte `pad`, behind the `pre.length` bytes
already scanned. -/
theorem read_fat_loop_step (n : Nat) (buf pre pad nf misc post : List Byte) (size : Nat)
    (sv : Option StrView) (vec : List Member)
    (hb : buf = pre ++ (pad ++ (ar_header nf misc size ++ post)))
    (hpad : pad.length = pre.length % 2)
    (hnf : nf.length ≤ 16) (hmisc : misc.length = 32) (hsize : size < 10 ^ 10)
    (hpost : size ≤ post.length) (hbuf : buf.length < 2 ^ 63) :
    read_fat_loop (n + 1) buf pre.length sv vec =
      match ArHdr.is_strtab buf ((pre ++ pad).length : Int) with
      | none => .err
      | some true =>
        read_fat_loop n buf (((pre ++ pad).length : Int) + 60 + size)
          (some ⟨((pre ++ pad).length : Int) + 60, to_u64 size⟩) vec
      | some false =>
        match ArHdr.is_symtab buf ((pre ++ pad).length : Int) with
        | none => .err
        | some true => read_fat_loop n buf (((pre ++ pad).length : Int) + 60 + size) sv vec
        | some false =>
          match ArHdr.read_name buf ((pre ++ pad).length : Int) sv
              (((pre ++ pad).length : Int) + 60) with
          | none => .err
          | some (name, body1) =>
            if name = [95, 95, 46, 83, 89, 77, 68, 69, 70]
                ∨ name = [95, 95, 46, 83, 89, 77, 68, 69, 70, 32, 83, 79, 82, 84, 69, 68] then
              read_fat_loop n buf (((pre ++ pad).length : Int) + 60 + size) sv vec
            else
              read_fat_loop n buf (((pre ++ pad).length : Int) + 60 + size) sv
                (vec ++ [⟨name, to_u64 body1,
                  to_u64 (((pre ++ pad).length : Int) + 60 + size - body1)⟩]) := by
  have hl := ar_header_length nf misc size hnf hmisc hsize
  have hbl : buf.length = pre.length + (pad.length + (60 + post.length)) := by
    rw [hb]; simp only [List.length_append, hl]
  have hbuf' : buf.length < 9223372036854775808 := by simpa using hbuf
  have hcond : (2 : Int) ≤ wrap64 ((buf.length : Int) - pre.length) := by
    rw [wrap64_id _ (by omega) (by norm_num; omega)]
    omega
  have hhdr : (if (pre.length : Int) % 2 ≠ 0 then (pre.length : Int) + 1 else pre.length)
      = ((pre ++ pad).length : Int) := by
    simp only [List.length_append]
    split <;> omega
  have hb' : buf = (pre ++ pad) ++ (ar_header nf misc size ++ post) := by
    rw [hb, List.append_assoc]
  have hsz := header_size buf (pre ++ pad) post nf misc size _ hb' rfl hnf hmisc hsize
  have hw : wrap64 (((pre ++ pad).length : Int) + 60 + size)
      = ((pre ++ pad).length : Int) + 60 + size := by
    apply wrap64_id
    · omega
    · simp only [List.length_append]; norm_num; omega
  rw [read_fat_loop]
  simp only [if_pos hcond, hhdr, hsz, hw]

theorem header_is_strtab (buf pre nf misc post : List Byte) (size : Nat)
    (hb : buf = pre ++ (ar_header nf misc size ++ post)) (hnf : nf.length ≤ 16) :
    ArHdr.is_strtab buf (pre.length : Int)
      = some (starts_with (pad_right nf 16) [47, 47, 32]) := by
  have hb' : buf = pre ++ (pad_right nf 16
      ++ (misc ++ pad_right (decimal size) 10 ++ [96, 10] ++ post)) := by
    rw [hb]; simp [ar_header]
  unfold ArHdr.is_strtab
  exact header_starts_with buf pre _ _ _ _ hb' rfl
    (by rw [pad_right_length nf 16 hnf]; simp)

theorem header_is_symtab (buf pre nf misc post : List Byte) (size : Nat)
    (hb : buf = pre ++ (ar_header nf misc size ++ post)) (hnf : nf.length ≤ 16) :
    ArHdr.is_symtab buf (pre.length : Int)
      = some (starts_with (pad_right nf 16) [47, 32]
          || starts_with (pad_right nf 16) [47, 83, 89, 77, 54, 52, 47, 32]) := by
  have hb' : buf = pre ++ (pad_right nf 16
      ++ (misc ++ pad_right (decimal size) 10 ++ [96, 10] ++ post)) := by
    rw [hb]; simp [ar_header]
  unfold ArHdr.is_symtab
  rw [header_starts_with buf pre _ _ [47, 32] _ hb' rfl
      (by rw [pad_right_length nf 16 hnf]; simp),
    header_starts_with buf pre _ _ [47, 83, 89, 77, 54, 52, 47, 32] _ hb' rfl
      (by rw [pad_right_length nf 16 hnf]; simp)]
  cases starts_with (pad_right nf 16) [47, 32] <;> rfl

theorem name_field_length (st : Option (List Byte)) (name : List Byte) (enc : NameEnc)
    (h : name_ok st name enc = true) : (name_field name enc).length ≤ 16 := by
  cases enc with
  | short =>
    simp only [name_ok, Bool.and_eq_true, decide_eq_true_eq] at h
    simp only [name_field, List.length_append, List.length_singleton]; omega
  | bsd =>
    simp only [name_ok, Bool.and_eq_true, decide_eq_true_eq] at h
    have h31 : name.length < 2147483648 := by simpa using h.2
    have := decimal_length name.length 9 (by omega)
    simp only [name_field, List.length_append, List.length_cons, List.length_nil]; omega
  | sysv k =>
    cases st with
    | none => simp [name_ok] at h
    | some t =>
      simp only [name_ok, Bool.and_eq_true, decide_eq_true_eq] at h
      have h31 : k < 2147483648 := by simpa using h.1.2
      have := decimal_length k 9 (by omega)
      simp only [name_field, List.length_append, List.length_cons, List.length_nil]; omega

/-- The header of a member is neither a string table nor a symbol table. -/
theorem member_not_pseudo (st : Option (List Byte)) (name : List Byte) (enc : NameEnc)
    (h : name_ok st name enc = true) :
    starts_with (pad_right (name_field name enc) 16) [47, 47, 32] = false
      ∧ starts_with (pad_right (name_field name enc) 16) [47, 32] = false
      ∧ starts_with (pad_right (name_field name enc) 16) [47, 83, 89, 77, 54, 52, 47, 32]
          = false := by
  cases enc with
  | short =>
    simp only [name_ok, Bool.and_eq_true, decide_eq_true_eq] at h
    match name, h with
    | a :: t, h =>
      have ha : a ≠ 47 := fun e => h.1.2 (by simp [e])
      refine ⟨?_, ?_, ?_⟩ <;>
        exact starts_with_false _ _ 0 (by simp) (by simpa [pad_right, name_field] using ha)
  | bsd =>
    refine ⟨?_, ?_, ?_⟩ <;>
      exact starts_with_false _ _ 0 (by simp) (by simp [pad_right, name_field])
  | sysv k =>
    cases hd : decimal k with
    | nil => exact absurd hd (decimal_ne_nil k)
    | cons d ds =>
      have hdig : isdigit d = true := decimal_isdigit k d (by simp [hd])
      simp only [isdigit, Bool.and_eq_true, decide_eq_true_eq] at hdig
      have hv : ∀ c : Byte, d = c → d.val = c.val := fun c e => by rw [e]
      have h47 : d ≠ 47 := by intro e; have := hv 47 e; simp at this; omega
      have h32 : d ≠ 32 := by intro e; have := hv 32 e; simp at this; omega
      have h83 : d ≠ 83 := by intro e; have := hv 83 e; simp at this; omega
      refine ⟨?_, ?_, ?_⟩
      · exact starts_with_false _ _ 1 (by simp) (by simpa [pad_right, name_field, hd] using h47)
      · exact starts_with_false _ _ 1 (by simp) (by simpa [pad_right, name_field, hd] using h32)
      · exact starts_with_false _ _ 1 (by simp) (by simpa [pad_right, name_field, hd] using h83)

theorem slice_eq (buf a x b : List Byte) (hb : buf = a ++ (x ++ b)) :
    (buf.drop a.length).take x.length = x := by
  rw [hb, List.drop_left]
  exact take_append_len _ _ _ rfl

theorem padding_length (c : List Byte) : (padding c).length = c.length % 2 := by
  unfold padding
  split
  · simp; omega
  · simp; omega

/-- `read_name` on the header of a well-formed member returns the member's
name and leaves `ptr` at the first byte of its body. -/
theorem member_read_name (buf pre misc post name body : List Byte) (enc : NameEnc)
    (st : Option (List Byte)) (sv : Option StrView)
    (hb : buf = pre ++ (ar_header (name_field name enc) misc (payload name body enc).length
      ++ (payload name body enc ++ post)))
    (hmisc : misc.length = 32) (hsize : (payload name body enc).length < 10 ^ 10)
    (hok : name_ok st name enc = true) (hrel : strtab_rel buf st sv) :
    ∃ body1 : Nat,
      ArHdr.read_name buf (pre.length : Int) sv ((pre.length : Int) + 60)
          = some (name, (body1 : Int))
        ∧ body1 + body.length = pre.length + 60 + (payload name body enc).length
        ∧ (buf.drop body1).take body.length = body := by
  have hnf := name_field_length st name enc hok
  have hl := ar_header_length (name_field name enc) misc _ hnf hmisc hsize
  have hb' : buf = pre ++ (pad_right (name_field name enc) 16
      ++ (misc ++ pad_right (decimal (payload name body enc).length) 10 ++ [96, 10]
        ++ (payload name body enc ++ post))) := by
    rw [hb]; simp [ar_header]
  have hb2 : buf = (pre ++ ar_header (name_field name enc) misc (payload name body enc).length)
      ++ (payload name body enc ++ post) := by
    rw [hb, List.append_assoc]
  have hlen2 : (pre ++ ar_header (name_field name enc) misc (payload name body enc).length).length
      = pre.length + 60 := by
    simp only [List.length_append, hl]
  cases enc with
  | short =>
    simp only [name_ok, Bool.and_eq_true, decide_eq_true_eq] at hok
    refine ⟨pre.length + 60, ?_, ?_, ?_⟩
    · rw [read_name_short buf pre _ name sv _ _ hb' rfl hok.1.1.1 hok.1.1.2 hok.1.2 hok.2]
      simp
    · simp [payload]
    · rw [← hlen2]
      exact slice_eq buf _ body post hb2
  | bsd =>
    simp only [name_ok, Bool.and_eq_true, decide_eq_true_eq] at hok
    have hb3 : buf = (pre ++ ar_header (name_field name .bsd) misc
        (payload name body .bsd).length) ++ (name ++ (body ++ post)) := by
      rw [hb2]; simp [payload]
    have hrd : read_range buf ((pre.length : Int) + 60) name.length = some name := by
      rw [read_range_eq buf _ _ _ 0 name.length hb3 (by rw [hlen2]; simp)
        (by simp only [List.length_append]; omega)]
      rw [List.drop_zero, take_append_len _ _ _ rfl]
    refine ⟨pre.length + 60 + name.length, ?_, ?_, ?_⟩
    · rw [read_name_bsd buf pre _ name sv _ _ hb' rfl hok.2 hok.1 hrd]
      simp
    · simp only [payload, List.length_append]; omega
    · have hb4 : buf = (pre ++ ar_header (name_field name .bsd) misc
          (payload name body .bsd).length ++ name) ++ (body ++ post) := by
        rw [hb3]; simp
      have hlen4 : (pre ++ ar_header (name_field name .bsd) misc
          (payload name body .bsd).length ++ name).length = pre.length + 60 + name.length := by
        simp only [List.length_append, hl]
      rw [← hlen4]
      exact slice_eq buf _ body post hb4
  | sysv k =>
    cases st with
    | none => simp [name_ok] at hok
    | some t =>
      cases sv with
      | none => exact absurd hrel (by simp [strtab_rel])
      | some v =>
        simp only [name_ok, Bool.and_eq_true, decide_eq_true_eq] at hok
        obtain ⟨p0, more, hp0, hoff⟩ := hrel
        obtain ⟨x, hx⟩ := List.isPrefixOf_iff_prefix.mp hok.2
        have hkt : k ≤ t.length := by
          by_contra hcon
          rw [List.drop_eq_nil_of_le (by omega)] at hx
          simp at hx
        have hst : at_off buf (v.off + k) = some (name ++ [47, 10] ++ (x ++ more)) := by
          rw [at_off_eq buf p0 (t ++ more) _ k hp0 (by rw [hoff])
            (by simp only [List.length_append]; omega)]
          rw [List.drop_append_of_le_length hkt, ← hx]
          simp
        refine ⟨pre.length + 60, ?_, ?_, ?_⟩
        · rw [read_name_sysv buf pre _ name _ v k _ _ hb' rfl hok.1.2 hok.1.1.1 hok.1.1.2 hst]
          simp
        · simp [payload]
        · rw [← hlen2]
          exact slice_eq buf _ body post hb2

theorem next_state (pre pad hdr content : List Byte) (size : Nat)
    (hpad : pad.length = pre.length % 2) (hl : hdr.length = 60) (hsz : content.length = size) :
    (padding content).length = (pre ++ pad ++ hdr ++ content).length % 2
      ∧ ((pre ++ pad).length : Int) + 60 + size = ((pre ++ pad ++ hdr ++ content).length : Int) := by
  simp only [List.length_append, padding_length, hl, hsz]
  constructor
  · omega
  · push_cast; ring

/-- The scan of the items of a well-formed archive, started behind the
`pre.length` bytes already scanned, ends and adds to `vec` one slice for each
member, with the member's name and body. -/
theorem read_fat_loop_items (buf : List Byte) (hbuf : buf.length < 2 ^ 63) :
    ∀ (its : List Item) (n : Nat) (pre pad : List Byte) (st : Option (List Byte))
      (sv : Option StrView) (vec : List Member),
      buf = pre ++ (pad ++ serialize_items its) → pad.length = pre.length % 2 →
      well_formed st its = true → strtab_rel buf st sv → its.length < n →
      ∃ out, read_fat_loop n buf pre.length sv vec = .val (vec ++ out)
        ∧ out.map (fun m => (m.name, m.bytes buf)) = members_of its := by
  have hbuf' : buf.length < 9223372036854775808 := by simpa using hbuf
  intro its
  induction its with
  | nil =>
    intro n pre pad st sv vec hb hpad _ _ hn
    obtain ⟨n, rfl⟩ : ∃ m, n = m + 1 := ⟨n - 1, by omega⟩
    refine ⟨[], ?_, rfl⟩
    have hbl : buf.length = pre.length + pad.length := by
      rw [hb]; simp [serialize_items]
    have hcond : ¬ ((2 : Int) ≤ wrap64 ((buf.length : Int) - pre.length)) := by
      rw [wrap64_id _ (by omega) (by norm_num; omega)]
      omega
    rw [read_fat_loop, if_neg hcond, List.append_nil]
  | cons it its ih =>
    intro n pre pad st sv vec hb hpad hwf hrel hn
    obtain ⟨n, rfl⟩ : ∃ m, n = m + 1 := ⟨n - 1, by omega⟩
    simp only [List.length_cons] at hn
    have hn' : its.length < n := by omega
    cases it with
    | symtab sym64 misc body =>
      simp only [well_formed, Bool.and_eq_true, decide_eq_true_eq] at hwf
      obtain ⟨⟨hmisc, hsize⟩, hwf'⟩ := hwf
      have hnf : (if sym64 then [47, 83, 89, 77, 54, 52, 47] else [(47 : Byte)]).length ≤ 16 := by
        cases sym64 <;> simp
      have hb1 : buf = pre ++ (pad ++ (ar_header (if sym64 then [47, 83, 89, 77, 54, 52, 47]
          else [47]) misc body.length ++ (body ++ (padding body ++ serialize_items its)))) := by
        rw [hb]; simp [serialize_items, Item.serialize]
      have hb2 : buf = (pre ++ pad) ++ (ar_header (if sym64 then [47, 83, 89, 77, 54, 52, 47]
          else [47]) misc body.length ++ (body ++ (padding body ++ serialize_items its))) := by
        rw [hb1, List.append_assoc]
      have hl := ar_header_length _ misc body.length hnf hmisc hsize
      obtain ⟨hpad', hD⟩ := next_state pre pad _ body body.length hpad hl rfl
      rw [read_fat_loop_step n buf pre pad _ misc _ body.length sv vec hb1 hpad hnf hmisc hsize
        (by simp) hbuf]
      rw [header_is_strtab buf (pre ++ pad) _ misc _ body.length hb2 hnf,
        header_is_symtab buf (pre ++ pad) _ misc _ body.length hb2 hnf]
      have h1 : starts_with (pad_right (if sym64 then [47, 83, 89, 77, 54, 52, 47]
          else [(47 : Byte)]) 16) [47, 47, 32] = false := by cases sym64 <;> decide
      have h2 : (starts_with (pad_right (if sym64 then [47, 83, 89, 77, 54, 52, 47]
            else [(47 : Byte)]) 16) [47, 32]
          || starts_with (pad_right (if sym64 then [47, 83, 89, 77, 54, 52, 47]
            else [(47 : Byte)]) 16) [47, 83, 89, 77, 54, 52, 47, 32]) = true := by
        cases sym64 <;> decide
      rw [h1, h2]
      simp only []
      rw [hD]
      exact ih n _ (padding body) st sv vec (by rw [hb1]; simp) hpad' hwf' hrel hn'
    | strtab misc body =>
      simp only [well_formed, Bool.and_eq_true, decide_eq_true_eq] at hwf
      obtain ⟨⟨hmisc, hsize⟩, hwf'⟩ := hwf
      have hnf : ([47, 47] : List Byte).length ≤ 16 := by simp
      have hb1 : buf = pre ++ (pad ++ (ar_header [47, 47] misc body.length
          ++ (body ++ (padding body ++ serialize_items its)))) := by
        rw [hb]; simp [serialize_items, Item.serialize]
      have hb2 : buf = (pre ++ pad) ++ (ar_header [47, 47] misc body.length
          ++ (body ++ (padding body ++ serialize_items its))) := by
        rw [hb1, List.append_assoc]
      have hl := ar_header_length _ misc body.length hnf hmisc hsize
      obtain ⟨hpad', hD⟩ := next_state pre pad _ body body.length hpad hl rfl
      rw [read_fat_loop_step n buf pre pad _ misc _ body.length sv vec hb1 hpad hnf hmisc hsize
        (by simp) hbuf]
      rw [header_is_strtab buf (pre ++ pad) _ misc _ body.length hb2 hnf]
      have h1 : starts_with (pad_right ([47, 47] : List Byte) 16) [47, 47, 32] = true := by
        decide
      rw [h1]
      simp only []
      rw [hD]
      refine ih n _ (padding body) (some body) _ vec (by rw [hb1]; simp) hpad' hwf' ?_ hn'
      refine ⟨pre ++ pad ++ ar_header [47, 47] misc body.length,
        padding body ++ serialize_items its, by rw [hb1]; simp, ?_⟩
      simp only [List.length_append, hl]
      push_cast; ring
    | member name body enc misc =>
      simp only [well_formed, Bool.and_eq_true, decide_eq_true_eq] at hwf
      obtain ⟨⟨⟨⟨⟨hmisc, hsize⟩, hok⟩, hsym1⟩, hsym2⟩, hwf'⟩ := hwf
      have hnf := name_field_length st name enc hok
      have hb1 : buf = pre ++ (pad ++ (ar_header (name_field name enc) misc
          (payload name body enc).length ++ (payload name body enc
            ++ (padding (payload name body enc) ++ serialize_items its)))) := by
        rw [hb]; simp [serialize_items, Item.serialize]
      have hb2 : buf = (pre ++ pad) ++ (ar_header (name_field name enc) misc
          (payload name body enc).length ++ (payload name body enc
            ++ (padding (payload name body enc) ++ serialize_items its))) := by
        rw [hb1, List.append_assoc]
      have hl := ar_header_length _ misc _ hnf hmisc hsize
      obtain ⟨hpad', hD⟩ := next_state pre pad _ (payload name body enc) _ hpad hl rfl
      obtain ⟨hs1, hs2, hs3⟩ := member_not_pseudo st name enc hok
      obtain ⟨body1, hrn, hb1len, hbytes⟩ := member_read_name buf (pre ++ pad) misc _ name body
        enc st sv hb2 hmisc hsize hok hrel
      rw [read_fat_loop_step n buf pre pad _ misc _ _ sv vec hb1 hpad hnf hmisc hsize
        (by simp) hbuf]
      rw [header_is_strtab buf (pre ++ pad) _ misc _ _ hb2 hnf,
        header_is_symtab buf (pre ++ pad) _ misc _ _ hb2 hnf, hs1, hs2, hs3]
      simp only [Bool.or_self]
      rw [hrn]
      simp only [hsym1, hsym2, or_self, if_false]
      rw [hD]
      have hlen : buf.length = (pre ++ pad).length + 60 + (payload name body enc).length
          + ((padding (payload name body enc)).length + (serialize_items its).length) := by
        rw [hb2]; simp only [List.length_append, hl]; omega
      have hstart : to_u64 (body1 : Int) = body1 := to_u64_id _ (by norm_num; omega)
      have hsize' : to_u64 (((pre ++ pad ++ ar_header (name_field name enc) misc
          (payload name body enc).length ++ payload name body enc).length : Int) - body1)
          = body.length := by
        have : (((pre ++ pad ++ ar_header (name_field name enc) misc
            (payload name body enc).length ++ payload name body enc).length : Int) - body1)
            = (body.length : Int) := by
          simp only [List.length_append, hl]
          simp only [List.length_append] at hb1len
          omega
        rw [this]
        exact to_u64_id _ (by norm_num; omega)
      rw [hstart, hsize']
      obtain ⟨out, hout, hmap⟩ := ih n _ (padding (payload name body enc)) st sv
        (vec ++ [⟨name, body1, body.length⟩]) (by rw [hb1]; simp) hpad' hwf' hrel hn'
      refine ⟨⟨name, body1, body.length⟩ :: out, ?_, ?_⟩
      · rw [hout]; simp
      · rw [List.map_cons, hmap]
        simp only [members_of, Member.bytes, hbytes]

theorem serialize_items_length (its : List Item) :
    its.length ≤ (serialize_items its).length := by
  induction its with
  | nil => simp
  | cons it its ih =>
    have h : 1 ≤ it.serialize.length := by
      cases it <;> simp [Item.serialize, ar_header] <;> omega
    simp only [serialize_items, List.length_cons, List.length_append]
    omega

/-- C2, as stated, fails: a fat archive whose single member is named
`__.SYMDEF` is well formed in every respect the claim lists, and
`read_fat_archive_members` returns no entry for it. Two more archives with one
member each: the short name `#1` is read as a BSD header (the member comes back
under the name `01 02`, its own body, with no bytes), and the BSD name `a\0b`
comes back as `a`. -/
theorem read_fat_archive_skips_symdef :
    (members_of symdef_archive = [([95, 95, 46, 83, 89, 77, 68, 69, 70], [1, 2])]
        ∧ read_fat_archive_members (serialize symdef_archive) = .val [])
      ∧ (members_of hash_one_archive = [([35, 49], [1, 2])]
        ∧ read_fat_archive_members (serialize hash_one_archive) = .val [⟨[1, 2], 70, 0⟩])
      ∧ (members_of nul_name_archive = [([97, 0, 98], [1, 2])]
        ∧ read_fat_archive_members (serialize nul_name_archive) = .val [⟨[97], 71, 2⟩]) := by
  decide

/-- C2, amended. Round trip for fat archives: for every sequence of items
(symbol tables, string tables, members with a short, BSD or SysV name)
serialised as a well-formed archive shorter than `2^63` bytes, in which no
member is named `__.SYMDEF` or `__.SYMDEF SORTED`, every short name has 1 to 15
bytes, no `/` and is not `#1`, every BSD name is free of NUL bytes, and every
SysV name is free of NUL bytes and of `/\n` and stands, followed by `/\n`, at
its offset in the string table seen last, `read_fat_archive_members` returns
exactly one slice per member, in archive order, whose name is the member's name
and whose bytes are the member's body. -/
theorem read_fat_archive_roundtrip (items : List Item)
    (hwf : well_formed none items = true) (hlen : (serialize items).length < 2 ^ 63) :
    ∃ ms, read_fat_archive_members (serialize items) = .val ms
      ∧ ms.map (fun m => (m.name, m.bytes (serialize items))) = members_of items := by
  have hn : items.length < (serialize items).length + 1 := by
    have := serialize_items_length items
    simp only [serialize, List.length_append]
    omega
  obtain ⟨out, h1, h2⟩ := read_fat_loop_items (serialize items) hlen items
    ((serialize items).length + 1) [33, 60, 97, 114, 99, 104, 62, 10] [] none none []
    (by simp [serialize]) (by simp) hwf trivial hn
  exact ⟨out, by simpa [read_fat_archive_members] using h1, h2⟩

set_option maxRecDepth 100000 in
/-- The round trip on an archive with a symbol table, a string table and one
member for each of the three name encodings. -/
theorem read_fat_archive_roundtrip_witness :
    well_formed none example_archive = true
      ∧ (serialize example_archive).length < 2 ^ 63
      ∧ ∃ ms, read_fat_archive_members (serialize example_archive) = .val ms
          ∧ ms.map (fun m => (m.name, m.bytes (serialize example_archive)))
            = members_of example_archive :=
  ⟨by decide, by decide, read_fat_archive_roundtrip example_archive (by decide) (by decide)⟩

/-! ## More on file-type sniffing -/

/-- With a plugin configured, the scan of the section headers answers true at
the first section whose name begins with `.gnu.lto_.symtab.`, provided no
section before it in the table is of type `SHT_SYMTAB` and the names of the
sections up to it can be read. -/
theorem scan_sections_lto_hit (E : Target) (data : List Byte) (shdrs_off idx strtab_off : Nat)
    (hst : read_uint E.is_le data (shdrs_off + idx * sizeof_shdr E + (off_sh_offset E).1)
      (off_sh_offset E).2 = some strtab_off) :
    ∀ (pre : List Nat) (s : Nat) (post : List Nat),
      (∀ q ∈ pre, ∃ nm name ty,
        read_uint E.is_le data (shdrs_off + q * sizeof_shdr E + off_sh_name) 4 = some nm
          ∧ c_str data (strtab_off + nm) = some name
          ∧ starts_with name [46, 103, 110, 117, 46, 108, 116, 111, 95, 46, 115, 121, 109, 116,
              97, 98, 46] = false
          ∧ read_uint E.is_le data (shdrs_off + q * sizeof_shdr E + off_sh_type) 4 = some ty
          ∧ ty ≠ SHT_SYMTAB) →
      (∃ nm name,
        read_uint E.is_le data (shdrs_off + s * sizeof_shdr E + off_sh_name) 4 = some nm
          ∧ c_str data (strtab_off + nm) = some name
          ∧ starts_with name [46, 103, 110, 117, 46, 108, 116, 111, 95, 46, 115, 121, 109, 116,
              97, 98, 46] = true) →
      scan_sections E true data shdrs_off idx (pre ++ s :: post) = some true := by
  intro pre
  induction pre with
  | nil =>
    intro s post _ ⟨nm, name, h1, h2, h3⟩
    simp only [List.nil_append, scan_sections, if_true, hst, h1, h2, Option.map_some', h3]
  | cons q pre ih =>
    intro s post hpre hs
    obtain ⟨nm, name, ty, h1, h2, h3, h4, h5⟩ := hpre q (List.mem_cons_self _ _)
    have := ih s post (fun x hx => hpre x (List.mem_cons_of_mem _ hx)) hs
    simp only [List.cons_append, scan_sections, if_true, hst, h1, h2, Option.map_some', h3, h4,
      h5, ne_eq, not_false_eq_true]
    exact this

set_option maxRecDepth 100000 in
/-- C19: the object `lto_example true` is a well-formed ELF relocatable whose
section 2 is named `.gnu.lto_.symtab.0` and whose section 1, before it in the
section header table, is of type `SHT_SYMTAB`. With a plugin configured
`is_gcc_lto_obj` returns false for it and `get_file_type` returns `ELF_OBJ`: the
scan leaves the loop at the first `SHT_SYMTAB` section and never reads the name
of section 2. The same object with the two headers swapped is a
`GCC_LTO_OBJ`. -/
theorem is_gcc_lto_obj_after_symtab :
    (lto_example true).length = 270
      ∧ read_uint true (lto_example true) (52 + 3 * 40 + 16) 4 = some 232
      ∧ read_uint true (lto_example true) (52 + 2 * 40 + off_sh_name) 4 = some 9
      ∧ (c_str (lto_example true) (232 + 9)).map
          (fun name => starts_with name [46, 103, 110, 117, 46, 108, 116, 111, 95, 46, 115, 121,
            109, 116, 97, 98, 46]) = some true
      ∧ read_uint true (lto_example true) (52 + 1 * 40 + off_sh_type) 4 = some SHT_SYMTAB
      ∧ is_gcc_lto_obj I386 true (lto_example true) = some false
      ∧ get_file_type true (lto_example true) = some .ELF_OBJ
      ∧ is_gcc_lto_obj I386 true (lto_example false) = some true
      ∧ get_file_type true (lto_example false) = some .GCC_LTO_OBJ := by
  decide

/-- C20: for every buffer that begins with neither the ELF magic nor an archive
magic, `get_file_type` returns, and it returns `TEXT` exactly when the buffer
has at least 4 bytes and each of the first 4 is a printable ASCII character
(0x20 to 0x7E), a newline or a tab; a buffer of 1 to 3 bytes is not `TEXT`. -/
theorem get_file_type_text (plugin : Bool) (data : List Byte)
    (helf : starts_with data [127, 69, 76, 70] = false)
    (har : starts_with data [33, 60, 97, 114, 99, 104, 62, 10] = false)
    (hthin : starts_with data [33, 60, 116, 104, 105, 110, 62, 10] = false) :
    (∃ t, get_file_type plugin data = some t)
      ∧ (get_file_type plugin data = some .TEXT
          ↔ ∃ d0 d1 d2 d3 rest, data = d0 :: d1 :: d2 :: d3 :: rest
              ∧ ∀ c ∈ [d0, d1, d2, d3], (32 ≤ c.val ∧ c.val ≤ 126) ∨ c = 10 ∨ c = 9)
      ∧ (1 ≤ data.length ∧ data.length ≤ 3 → get_file_type plugin data ≠ some .TEXT) := by
  have hval : get_file_type plugin data
      = if data.isEmpty then some .EMPTY
        else if is_text_file data then some .TEXT
        else if starts_with data [222, 192, 23, 11] then some .LLVM_BITCODE
        else if starts_with data [66, 67, 192, 222] then some .LLVM_BITCODE
        else some .UNKNOWN := by
    simp only [get_file_type, helf, har, hthin, Bool.false_eq_true, if_false]
  have htext : get_file_type plugin data = some .TEXT ↔ is_text_file data = true := by
    rw [hval]
    cases data with
    | nil => simp [is_text_file]
    | cons a l =>
      simp only [List.isEmpty_cons, Bool.false_eq_true, if_false]
      have hne : ∀ b1 b2 : Bool,
          (if b1 = true then some FileType.LLVM_BITCODE
            else if b2 = true then some FileType.LLVM_BITCODE else some FileType.UNKNOWN)
            ≠ some FileType.TEXT := by
        intro b1 b2; cases b1 <;> cases b2 <;> simp
      by_cases ht : is_text_file (a :: l) = true
      · simp [ht]
      · rw [if_neg ht]
        exact ⟨fun h => absurd h (hne _ _), fun h => absurd h ht⟩
  have hist : ∀ c : Byte, istext c = true ↔ ((32 ≤ c.val ∧ c.val ≤ 126) ∨ c = 10 ∨ c = 9) := by
    intro c
    simp [istext, isprint, or_assoc]
  refine ⟨?_, ?_, ?_⟩
  · rw [hval]
    split
    · exact ⟨_, rfl⟩
    · split
      · exact ⟨_, rfl⟩
      · split
        · exact ⟨_, rfl⟩
        · split <;> exact ⟨_, rfl⟩
  · rw [htext]
    constructor
    · intro h
      match data, h with
      | d0 :: d1 :: d2 :: d3 :: rest, h =>
        simp only [is_text_file, Bool.and_eq_true, hist] at h
        refine ⟨d0, d1, d2, d3, rest, rfl, ?_⟩
        intro c hc
        simp only [List.mem_cons, List.mem_singleton, List.not_mem_nil, or_false] at hc
        rcases hc with rfl | rfl | rfl | rfl
        · exact h.1.1.1
        · exact h.1.1.2
        · exact h.1.2
        · exact h.2
    · rintro ⟨d0, d1, d2, d3, rest, rfl, h⟩
      simp only [is_text_file, Bool.and_eq_true, hist]
      exact ⟨⟨⟨h d0 (by simp), h d1 (by simp)⟩, h d2 (by simp)⟩, h d3 (by simp)⟩
  · intro hl h
    have ht := htext.1 h
    match data, hl, ht with
    | [_], _, ht => simp [is_text_file] at ht
    | [_, _], _, ht => simp [is_text_file] at ht
    | [_, _, _], _, ht => simp [is_text_file] at ht
    | _ :: _ :: _ :: _ :: _, hl, _ => simp at hl

theorem get_file_type_text_witness :
    starts_with ([97, 98, 10, 9] : List Byte) [127, 69, 76, 70] = false
      ∧ starts_with ([97, 98, 10, 9] : List Byte) [33, 60, 97, 114, 99, 104, 62, 10] = false
      ∧ starts_with ([97, 98, 10, 9] : List Byte) [33, 60, 116, 104, 105, 110, 62, 10] = false
      ∧ ((∃ t, get_file_type false [97, 98, 10, 9] = some t)
        ∧ (get_file_type false [97, 98, 10, 9] = some .TEXT
            ↔ ∃ d0 d1 d2 d3 rest, ([97, 98, 10, 9] : List Byte) = d0 :: d1 :: d2 :: d3 :: rest
                ∧ ∀ c ∈ [d0, d1, d2, d3], (32 ≤ c.val ∧ c.val ≤ 126) ∨ c = 10 ∨ c = 9)
        ∧ (1 ≤ ([97, 98, 10, 9] : List Byte).length ∧ ([97, 98, 10, 9] : List Byte).length ≤ 3 →
            get_file_type false [97, 98, 10, 9] ≠ some .TEXT))
      ∧ get_file_type false [97, 98, 10, 9] = some .TEXT
      ∧ get_file_type false [97, 98, 99] = some .UNKNOWN
      ∧ get_file_type false [97, 98, 99, 127] = some .UNKNOWN
      ∧ get_file_type false [97, 98, 99, 200, 100] = some .UNKNOWN :=
  ⟨by decide, by decide, by decide,
    get_file_type_text false [97, 98, 10, 9] (by decide) (by decide) (by decide),
    by decide, by decide, by decide, by decide⟩

/-! ## The passes of the fat-archive reader -/

/-- Forgetting the headers of the record of passes gives the loop of
`read_fat_archive_members` itself. -/
theorem read_fat_trace_slices (buf : List Byte) :
    ∀ (n : Nat) (data : Int) (strtab : Option StrView) (tr : List Pass),
      read_fat_loop n buf data strtab (slices tr)
        = match read_fat_trace n buf data strtab tr with
          | .val t => .val (slices t)
          | .err => .err
          | .more => .more := by
  intro n
  induction n with
  | zero => intro data strtab tr; rfl
  | succ n ih =>
    intro data strtab tr
    have e0 : ∀ hdr : Int, slices (tr ++ [⟨hdr, none⟩]) = slices tr := by
      intro hdr; simp [slices]
    have e1 : ∀ (hdr : Int) (m : Member), slices (tr ++ [⟨hdr, some m⟩]) = slices tr ++ [m] := by
      intro hdr m; simp [slices]
    rw [read_fat_loop, read_fat_trace]
    by_cases hc : 2 ≤ wrap64 (buf.length - data)
    · simp only [if_pos hc]
      rcases (at_off buf ((if data % 2 ≠ 0 then data + 1 else data) + 48)).bind atol
        with _ | size
      · rfl
      · rcases ArHdr.is_strtab buf (if data % 2 ≠ 0 then data + 1 else data) with _ | _ | _
        · rfl
        · rcases ArHdr.is_symtab buf (if data % 2 ≠ 0 then data + 1 else data) with _ | _ | _
          · rfl
          · rcases ArHdr.read_name buf (if data % 2 ≠ 0 then data + 1 else data) strtab
              ((if data % 2 ≠ 0 then data + 1 else data) + 60) with _ | ⟨name, body1⟩
            · rfl
            · dsimp only
              split
              · rw [← ih, e0]
              · rw [← ih, e1]
          · dsimp only
            rw [← ih, e0]
        · dsimp only
          rw [← ih, e0]
    · simp only [if_neg hc]

/-- What holds of every pass in a record: `P buf p` for the pass `p`. -/
theorem read_fat_trace_all (buf : List Byte) (P : Pass → Prop)
    (hnone : ∀ hdr : Int, P ⟨hdr, none⟩)
    (hsome : ∀ (data : Int) (strtab : Option StrView) (name : List Byte) (body1 : Int)
      (size : Int),
      2 ≤ wrap64 (buf.length - data) →
      (at_off buf ((if data % 2 ≠ 0 then data + 1 else data) + 48)).bind atol = some size →
      ArHdr.is_strtab buf (if data % 2 ≠ 0 then data + 1 else data) = some false →
      ArHdr.is_symtab buf (if data % 2 ≠ 0 then data + 1 else data) = some false →
      ArHdr.read_name buf (if data % 2 ≠ 0 then data + 1 else data) strtab
        ((if data % 2 ≠ 0 then data + 1 else data) + 60) = some (name, body1) →
      ¬ (name = [95, 95, 46, 83, 89, 77, 68, 69, 70]
        ∨ name = [95, 95, 46, 83, 89, 77, 68, 69, 70, 32, 83, 79, 82, 84, 69, 68]) →
      P ⟨if data % 2 ≠ 0 then data + 1 else data,
        some ⟨name, to_u64 body1,
          to_u64 (wrap64 ((if data % 2 ≠ 0 then data + 1 else data) + 60 + size) - body1)⟩⟩) :
    ∀ (n : Nat) (data : Int) (strtab : Option StrView) (tr t : List Pass),
      (∀ p ∈ tr, P p) → read_fat_trace n buf data strtab tr = .val t → ∀ p ∈ t, P p := by
  intro n
  induction n with
  | zero => intro data strtab tr t _ h; cases h
  | succ n ih =>
    intro data strtab tr t htr h
    have ext : ∀ q : Pass, P q → ∀ p ∈ tr ++ [q], P p := by
      intro q hq p hp
      rcases List.mem_append.1 hp with hp | hp
      · exact htr p hp
      · simp only [List.mem_singleton] at hp
        rw [hp]; exact hq
    rw [read_fat_trace] at h
    split at h
    · rename_i hc
      dsimp only at h
      split at h
      · cases h
      · rename_i size hsz
        split at h
        · cases h
        · exact ih _ _ _ _ (ext _ (hnone _)) h
        · rename_i hst
          split at h
          · cases h
          · exact ih _ _ _ _ (ext _ (hnone _)) h
          · rename_i hsy
            split at h
            · cases h
            · rename_i name body1 hrn
              split at h
              · exact ih _ _ _ _ (ext _ (hnone _)) h
              · rename_i hnm
                exact ih _ _ _ _ (ext _ (hsome data strtab name body1 size hc hsz hst hsy hrn hnm)) h
    · injection h with h
      subst h
      exact htr

theorem is_symtab_false {buf : List Byte} {hdr : Int} (h : ArHdr.is_symtab buf hdr = some false) :
    ArHdr.starts_with buf hdr [47, 32] = some false
      ∧ ArHdr.starts_with buf hdr [47, 83, 89, 77, 54, 52, 47, 32] = some false := by
  unfold ArHdr.is_symtab at h
  split at h
  · cases h
  · cases h
  · rename_i h1
    exact ⟨h1, h⟩

theorem read_fat_trace_of_members {buf : List Byte} {ms : List Member}
    (h : read_fat_archive_members buf = .val ms) :
    ∃ tr, read_fat_archive_trace buf = .val tr ∧ ms = slices tr := by
  have e := read_fat_trace_slices buf (buf.length + 1) 8 none []
  have e2 : read_fat_loop (buf.length + 1) buf 8 none (slices []) = .val ms := h
  rw [e2] at e
  unfold read_fat_archive_trace
  cases ht : read_fat_trace (buf.length + 1) buf 8 none [] with
  | val t =>
    rw [ht] at e
    injection e with e
    exact ⟨t, rfl, e⟩
  | err => rw [ht] at e; cases e
  | more => rw [ht] at e; cases e

/-- C14: whenever `read_fat_archive_members` returns, every slice returned
was pushed in a pass whose header starts with none of `// `, `/ ` and
`/SYM64/ `, and no slice returned is named `__.SYMDEF` or `__.SYMDEF SORTED`. -/
theorem read_fat_archive_no_pseudo (buf : List Byte) (ms : List Member)
    (h : read_fat_archive_members buf = .val ms) :
    (∃ tr, read_fat_archive_trace buf = .val tr ∧ ms = slices tr
        ∧ ∀ p ∈ tr, ∀ m, p.out = some m →
            ArHdr.starts_with buf p.hdr [47, 47, 32] = some false
              ∧ ArHdr.starts_with buf p.hdr [47, 32] = some false
              ∧ ArHdr.starts_with buf p.hdr [47, 83, 89, 77, 54, 52, 47, 32] = some false)
      ∧ ∀ m ∈ ms, m.name ≠ [95, 95, 46, 83, 89, 77, 68, 69, 70]
          ∧ m.name ≠ [95, 95, 46, 83, 89, 77, 68, 69, 70, 32, 83, 79, 82, 84, 69, 68] := by
  obtain ⟨tr, htr, hms⟩ := read_fat_trace_of_members h
  have hall := read_fat_trace_all buf
    (fun p => ∀ m, p.out = some m →
      (ArHdr.starts_with buf p.hdr [47, 47, 32] = some false
        ∧ ArHdr.starts_with buf p.hdr [47, 32] = some false
        ∧ ArHdr.starts_with buf p.hdr [47, 83, 89, 77, 54, 52, 47, 32] = some false)
      ∧ m.name ≠ [95, 95, 46, 83, 89, 77, 68, 69, 70]
      ∧ m.name ≠ [95, 95, 46, 83, 89, 77, 68, 69, 70, 32, 83, 79, 82, 84, 69, 68])
    (by intro hdr m hm; cases hm)
    (by
      intro data strtab name body1 size _ _ hst hsy _ hnm m hm
      simp only [Option.some.injEq] at hm
      subst hm
      obtain ⟨hs1, hs2⟩ := is_symtab_false hsy
      exact ⟨⟨hst, hs1, hs2⟩, fun e => hnm (Or.inl e), fun e => hnm (Or.inr e)⟩)
    (buf.length + 1) 8 none [] tr (by intro p hp; cases hp) htr
  refine ⟨⟨tr, htr, hms, fun p hp m hm => (hall p hp m hm).1⟩, ?_⟩
  intro m hm
  rw [hms] at hm
  obtain ⟨p, hp, hpm⟩ := List.mem_filterMap.1 hm
  exact (hall p hp m hpm).2

set_option maxRecDepth 100000 in
theorem read_fat_archive_no_pseudo_witness :
    read_fat_archive_members (serialize mixed_archive) = .val [⟨[102, 111, 111], 194, 3⟩]
      ∧ read_fat_archive_trace (serialize mixed_archive)
          = .val [⟨8, none⟩, ⟨72, none⟩, ⟨134, some ⟨[102, 111, 111], 194, 3⟩⟩]
      ∧ ((∃ tr, read_fat_archive_trace (serialize mixed_archive) = .val tr
            ∧ [⟨[102, 111, 111], 194, 3⟩] = slices tr
            ∧ ∀ p ∈ tr, ∀ m, p.out = some m →
                ArHdr.starts_with (serialize mixed_archive) p.hdr [47, 47, 32] = some false
                  ∧ ArHdr.starts_with (serialize mixed_archive) p.hdr [47, 32] = some false
                  ∧ ArHdr.starts_with (serialize mixed_archive) p.hdr
                      [47, 83, 89, 77, 54, 52, 47, 32] = some false)
        ∧ ∀ m ∈ ([⟨[102, 111, 111], 194, 3⟩] : List Member),
            m.name ≠ [95, 95, 46, 83, 89, 77, 68, 69, 70]
              ∧ m.name ≠ [95, 95, 46, 83, 89, 77, 68, 69, 70, 32, 83, 79, 82, 84, 69, 68]) :=
  ⟨by decide, by decide,
    read_fat_archive_no_pseudo (serialize mixed_archive) [⟨[102, 111, 111], 194, 3⟩] (by decide)⟩

theorem read_thin_loop_iter (env : Env) (mf_name buf : List Byte) :
    ∀ (k : Nat) (s t : ThinState), thin_iter env mf_name buf k s = some t →
      ∀ n, read_thin_loop env mf_name buf (k + n) s = read_thin_loop env mf_name buf n t := by
  intro k
  induction k with
  | zero =>
    intro s t h n
    simp only [thin_iter, Option.some.injEq] at h
    rw [h, Nat.zero_add]
  | succ k ih =>
    intro s t h n
    simp only [thin_iter] at h
    rw [show k + 1 + n = (k + n) + 1 by omega]
    simp only [read_thin_loop]
    cases hp : thin_pass env mf_name buf s with
    | inl s1 =>
      rw [hp] at h
      exact ih s1 t h n
    | inr r => rw [hp] at h; cases h

theorem read_thin_loop_short (env : Env) (mf_name buf : List Byte) :
    ∀ (k : Nat) (s t : ThinState), thin_iter env mf_name buf k s = some t →
      ∀ n, n ≤ k → read_thin_loop env mf_name buf n s = .more := by
  intro k
  induction k with
  | zero =>
    intro s t _ n hn
    have : n = 0 := by omega
    subst this
    rfl
  | succ k ih =>
    intro s t h n hn
    cases n with
    | zero => rfl
    | succ n =>
      simp only [thin_iter] at h
      simp only [read_thin_loop]
      cases hp : thin_pass env mf_name buf s with
      | inl s1 =>
        rw [hp] at h
        exact ih s1 t h n (by omega)
      | inr r => rw [hp] at h; cases h

/-- C16: when the scan of a thin archive reaches, after `k` passes, a header
inside the buffer that is neither a string table nor a symbol table and whose
name field starts with neither `#1/` nor `/`, then `read_thin_archive_members`
returns no member list, whatever the budget, and, the size field of the header
holding a number, every budget above `k` ends in the fatal error `filename is
not stored as a long filename`. -/
theorem read_thin_short_name_fatal (env : Env) (mf_name buf : List Byte) (k : Nat)
    (s : ThinState)
    (hreach : thin_iter env mf_name buf k ⟨8, none, []⟩ = some s)
    (hin : s.data < buf.length)
    (h1 : ArHdr.is_strtab buf (align2 s.data) = some false)
    (h2 : ArHdr.is_symtab buf (align2 s.data) = some false)
    (h3 : ArHdr.starts_with buf (align2 s.data) [35, 49, 47] = some false)
    (h4 : ArHdr.starts_with buf (align2 s.data) [47] = some false) :
    (∀ budget ms, read_thin_archive_members budget env mf_name buf ≠ .ret ms)
      ∧ ∀ size : Int, (at_off buf (align2 s.data + 48)).bind atol = some size →
          ∀ budget, k < budget →
            read_thin_archive_members budget env mf_name buf = .fatal .not_long_filename := by
  have hlong : ArHdr.is_long_filename buf (align2 s.data) = some false := by
    simp only [ArHdr.is_long_filename, h3, h4]
  have hpass : thin_pass env mf_name buf s = .inr .undefined
      ∨ thin_pass env mf_name buf s = .inr (.fatal .not_long_filename) := by
    cases hs : (at_off buf (align2 s.data + 48)).bind atol with
    | none => left; simp only [thin_pass, if_pos hin, hs]
    | some size => right; simp only [thin_pass, if_pos hin, hs, h1, h2, hlong]
  constructor
  · intro budget ms
    by_cases hb : budget ≤ k
    · rw [read_thin_archive_members, read_thin_loop_short env mf_name buf k _ s hreach budget hb]
      intro h; cases h
    · obtain ⟨n, rfl⟩ : ∃ n, budget = k + (n + 1) := ⟨budget - k - 1, by omega⟩
      rw [read_thin_archive_members, read_thin_loop_iter env mf_name buf k _ s hreach]
      simp only [read_thin_loop]
      rcases hpass with hp | hp <;> rw [hp] <;> intro h <;> cases h
  · intro size hs budget hb
    obtain ⟨n, rfl⟩ : ∃ n, budget = k + (n + 1) := ⟨budget - k - 1, by omega⟩
    rw [read_thin_archive_members, read_thin_loop_iter env mf_name buf k _ s hreach]
    simp only [read_thin_loop, thin_pass, if_pos hin, hs, h1, h2, hlong]

set_option maxRecDepth 100000 in
theorem read_thin_short_name_fatal_witness :
    thin_iter example_env thin_example_name thin_example 3 ⟨8, none, []⟩
        = some ⟨206, some ⟨68, 10⟩,
            [⟨[108, 105, 98, 47, 111, 98, 106, 47, 97, 46, 111], [1, 2, 3], some thin_example_name⟩,
              ⟨[47, 97, 98, 115, 47, 98, 46, 111], [4, 5], some thin_example_name⟩]⟩
      ∧ ((∀ budget ms,
            read_thin_archive_members budget example_env thin_example_name thin_example ≠ .ret ms)
        ∧ ∀ size : Int, (at_off thin_example (align2 206 + 48)).bind atol = some size →
            ∀ budget, 3 < budget →
              read_thin_archive_members budget example_env thin_example_name thin_example
                = .fatal .not_long_filename)
      ∧ (at_off thin_example (align2 206 + 48)).bind atol = some 0 :=
  ⟨by decide,
    read_thin_short_name_fatal example_env thin_example_name thin_example 3
      ⟨206, some ⟨68, 10⟩,
        [⟨[108, 105, 98, 47, 111, 98, 106, 47, 97, 46, 111], [1, 2, 3], some thin_example_name⟩,
          ⟨[47, 97, 98, 115, 47, 98, 46, 111], [4, 5], some thin_example_name⟩]⟩
      (by decide) (by decide) (by decide) (by decide) (by decide) (by decide),
    by decide⟩

theorem resolved_path_eq (env : Env) (archive n : List Byte) :
    (if n.head? = some 47 then n else env.join (env.parent_path archive) n)
      = resolved_path env archive n := by
  cases n with
  | nil => simp [resolved_path]
  | cons c n => simp [resolved_path]

/-- What the files opened so far have in common: each has the archive as its
`thin_parent`, holds the contents found under its path, and its path is the
resolved form of a name decoded from a header of the archive. -/
theorem thin_pass_opened (env : Env) (mf_name buf : List Byte) (s t : ThinState)
    (P : ThinFile → Prop)
    (hP : ∀ (hdr ptr ptr1 : Int) (st : Option StrView) (n c : List Byte),
      ArHdr.read_name buf hdr st ptr = some (n, ptr1) →
      env.open_file (resolved_path env mf_name n) = some c →
      P ⟨resolved_path env mf_name n, c, some mf_name⟩)
    (hs : ∀ f ∈ s.vec, P f) (h : thin_pass env mf_name buf s = .inl t) :
    ∀ f ∈ t.vec, P f := by
  unfold thin_pass at h
  simp only [resolved_path_eq] at h
  split at h
  · split at h
    · cases h
    · split at h
      · cases h
      · injection h with h; subst h; exact hs
      · split at h
        · cases h
        · injection h with h; subst h; exact hs
        · split at h
          · cases h
          · cases h
          · split at h
            · cases h
            · rename_i name body1 hrn
              split at h
              · injection h with h; subst h; exact hs
              · split at h
                · cases h
                · rename_i contents hopen
                  injection h with h
                  subst h
                  intro f hf
                  rcases List.mem_append.1 hf with hf | hf
                  · exact hs f hf
                  · simp only [List.mem_singleton] at hf
                    subst hf
                    exact hP _ _ _ _ _ _ hrn hopen
  · cases h

theorem thin_pass_ret (env : Env) (mf_name buf : List Byte) (s : ThinState)
    (ms : List ThinFile) (h : thin_pass env mf_name buf s = .inr (.ret ms)) : ms = s.vec := by
  unfold thin_pass at h
  dsimp only at h
  repeat' split at h
  all_goals first | (cases h; rfl) | cases h

theorem read_thin_loop_opened (env : Env) (mf_name buf : List Byte) (P : ThinFile → Prop)
    (hP : ∀ (hdr ptr ptr1 : Int) (st : Option StrView) (n c : List Byte),
      ArHdr.read_name buf hdr st ptr = some (n, ptr1) →
      env.open_file (resolved_path env mf_name n) = some c →
      P ⟨resolved_path env mf_name n, c, some mf_name⟩) :
    ∀ (budget : Nat) (s : ThinState) (ms : List ThinFile), (∀ f ∈ s.vec, P f) →
      read_thin_loop env mf_name buf budget s = .ret ms → ∀ f ∈ ms, P f := by
  intro budget
  induction budget with
  | zero => intro s ms _ h; cases h
  | succ n ih =>
    intro s ms hs h
    simp only [read_thin_loop] at h
    cases hp : thin_pass env mf_name buf s with
    | inl s1 =>
      rw [hp] at h
      exact ih s1 ms (thin_pass_opened env mf_name buf s s1 P hP hs hp) h
    | inr r =>
      rw [hp] at h
      subst h
      rw [thin_pass_ret env mf_name buf s ms hp]
      exact hs

/-- C17: in a pass of `read_thin_archive_members` over the thin archive named
`mf_name` that decodes the member name `n` (the header is inside the buffer, is
neither a string table nor a symbol table, uses a long-name form, and `n` is
not a legacy symbol-table name), the path handed to `must_open_file` is `n`
itself when `n` begins with `/` and the directory of `mf_name` joined with `n`
otherwise, and the file opened is pushed with the archive as its `thin_parent`;
every file of a returned list has the archive as its `thin_parent`, holds the
contents found under its path, and has the resolved form of a name decoded from
the archive as its path. -/
theorem read_thin_member_path (env : Env) (mf_name buf : List Byte) (s : ThinState)
    (size body1 : Int) (n : List Byte)
    (hin : s.data < buf.length)
    (hsize : (at_off buf (align2 s.data + 48)).bind atol = some size)
    (h1 : ArHdr.is_strtab buf (align2 s.data) = some false)
    (h2 : ArHdr.is_symtab buf (align2 s.data) = some false)
    (h3 : ArHdr.is_long_filename buf (align2 s.data) = some true)
    (hname : ArHdr.read_name buf (align2 s.data) s.strtab (align2 s.data + 60) = some (n, body1))
    (hn1 : n ≠ [95, 95, 46, 83, 89, 77, 68, 69, 70])
    (hn2 : n ≠ [95, 95, 46, 83, 89, 77, 68, 69, 70, 32, 83, 79, 82, 84, 69, 68]) :
    (thin_pass env mf_name buf s =
        match env.open_file (resolved_path env mf_name n) with
        | none => .inr (.fatal (.cannot_open (resolved_path env mf_name n)))
        | some contents =>
          .inl ⟨body1, s.strtab,
            s.vec ++ [⟨resolved_path env mf_name n, contents, some mf_name⟩]⟩)
      ∧ ∀ budget ms, read_thin_archive_members budget env mf_name buf = .ret ms →
          ∀ f ∈ ms, f.thin_parent = some mf_name ∧ env.open_file f.name = some f.data
            ∧ ∃ (hdr ptr ptr1 : Int) (st : Option StrView) (m : List Byte),
                ArHdr.read_name buf hdr st ptr = some (m, ptr1)
                  ∧ f.name = resolved_path env mf_name m := by
  constructor
  · simp only [thin_pass, if_pos hin, hsize, h1, h2, h3, hname, hn1, hn2, or_self, if_false,
      resolved_path_eq]
  · intro budget ms h
    refine read_thin_loop_opened env mf_name buf _ ?_ budget ⟨8, none, []⟩ ms ?_ h
    · intro hdr ptr ptr1 st m c hrn hopen
      exact ⟨rfl, hopen, hdr, ptr, ptr1, st, m, hrn, rfl⟩
    · intro f hf; cases hf

set_option maxRecDepth 100000 in
theorem read_thin_member_path_witness :
    thin_iter example_env thin_example_name thin_example 1 ⟨8, none, []⟩
        = some ⟨78, some ⟨68, 10⟩, []⟩
      ∧ resolved_path example_env thin_example_name [111, 98, 106, 47, 97, 46, 111]
          = [108, 105, 98, 47, 111, 98, 106, 47, 97, 46, 111]
      ∧ resolved_path example_env thin_example_name [47, 97, 98, 115, 47, 98, 46, 111]
          = [47, 97, 98, 115, 47, 98, 46, 111]
      ∧ ((thin_pass example_env thin_example_name thin_example ⟨78, some ⟨68, 10⟩, []⟩ =
            match example_env.open_file
                (resolved_path example_env thin_example_name [111, 98, 106, 47, 97, 46, 111]) with
            | none => .inr (.fatal (.cannot_open
                (resolved_path example_env thin_example_name [111, 98, 106, 47, 97, 46, 111])))
            | some contents =>
              .inl ⟨138, (⟨78, some ⟨68, 10⟩, []⟩ : ThinState).strtab,
                (⟨78, some ⟨68, 10⟩, []⟩ : ThinState).vec
                  ++ [⟨resolved_path example_env thin_example_name
                        [111, 98, 106, 47, 97, 46, 111], contents, some thin_example_name⟩]⟩)
        ∧ ∀ budget ms,
            read_thin_archive_members budget example_env thin_example_name thin_example
                = .ret ms →
              ∀ f ∈ ms, f.thin_parent = some thin_example_name
                ∧ example_env.open_file f.name = some f.data
                ∧ ∃ (hdr ptr ptr1 : Int) (st : Option StrView) (m : List Byte),
                    ArHdr.read_name thin_example hdr st ptr = some (m, ptr1)
                      ∧ f.name = resolved_path example_env thin_example_name m)
      ∧ read_thin_archive_members 4 example_env thin_example_name (thin_example.take 206)
          = .ret [⟨[108, 105, 98, 47, 111, 98, 106, 47, 97, 46, 111], [1, 2, 3],
                    some thin_example_name⟩,
                  ⟨[47, 97, 98, 115, 47, 98, 46, 111], [4, 5], some thin_example_name⟩] :=
  ⟨by decide, by decide, by decide,
    read_thin_member_path example_env thin_example_name thin_example ⟨78, some ⟨68, 10⟩, []⟩
      3 138 [111, 98, 106, 47, 97, 46, 111]
      (by decide) (by decide) (by decide) (by decide) (by decide) (by decide) (by decide)
      (by decide),
    by decide⟩

/-- C15, as stated, fails: in a fat and in a thin archive whose only header
has the SysV name `/0`, with no string table before it, `read_name` returns no
name, and neither reader ends in a fatal error: the outcome is undefined. -/
theorem read_name_sysv_no_strtab_example :
    ArHdr.read_name sysv_only_fat 8 none 68 = none
      ∧ read_fat_archive_members sysv_only_fat = .err
      ∧ thin_pass example_env thin_example_name sysv_only_thin ⟨8, none, []⟩ = .inr .undefined
      ∧ ∀ budget, 0 < budget → ∀ d,
          read_thin_archive_members budget example_env thin_example_name sysv_only_thin
            ≠ .fatal d := by
  refine ⟨by decide, by decide, by decide, ?_⟩
  intro budget hb d
  obtain ⟨n, rfl⟩ : ∃ n, budget = n + 1 := ⟨budget - 1, by omega⟩
  have hp : thin_pass example_env thin_example_name sysv_only_thin ⟨8, none, []⟩
      = .inr .undefined := by decide
  simp only [read_thin_archive_members, read_thin_loop, hp]
  intro h; cases h

/-- C15, amended: for a header in the SysV long-name form (its name field
begins with `/`, and it is neither a string table nor a symbol table) met while
no string table has been seen, `read_name` returns no name and no fatal error
is raised: the offset is added to the null `data()` of the empty `strtab` and
handed to `strstr`, so the behaviour of `read_fat_archive_members` and of
`read_thin_archive_members` is undefined from that pass on. -/
theorem read_name_sysv_no_strtab (buf : List Byte) (data : Int)
    (h1 : ArHdr.is_strtab buf (align2 data) = some false)
    (h2 : ArHdr.is_symtab buf (align2 data) = some false)
    (h3 : ArHdr.starts_with buf (align2 data) [35, 49, 47] = some false)
    (h4 : ArHdr.starts_with buf (align2 data) [47] = some true) :
    (∀ ptr, ArHdr.read_name buf (align2 data) none ptr = none)
      ∧ (∀ n vec, 2 ≤ wrap64 (buf.length - data) →
          read_fat_loop (n + 1) buf data none vec = .err)
      ∧ ∀ env mf_name vec, data < buf.length →
          thin_pass env mf_name buf ⟨data, none, vec⟩ = .inr .undefined := by
  have hrn : ∀ ptr, ArHdr.read_name buf (align2 data) none ptr = none := by
    intro ptr
    simp only [ArHdr.read_name, h3, h4]
  refine ⟨hrn, ?_, ?_⟩
  · intro n vec hc
    have ha : (if data % 2 ≠ 0 then data + 1 else data) = align2 data := rfl
    rw [read_fat_loop]
    simp only [if_pos hc, ha, h1, h2, hrn]
    cases (at_off buf (align2 data + 48)).bind atol <;> rfl
  · intro env mf_name vec hin
    have hl : ArHdr.is_long_filename buf (align2 data) = some true := by
      simp only [ArHdr.is_long_filename, h3, h4]
    simp only [thin_pass, if_pos hin, h1, h2, hl, hrn]
    cases (at_off buf (align2 data + 48)).bind atol <;> rfl

theorem read_name_sysv_no_strtab_witness :
    ArHdr.is_strtab sysv_only_fat (align2 8) = some false
      ∧ ArHdr.is_symtab sysv_only_fat (align2 8) = some false
      ∧ ArHdr.starts_with sysv_only_fat (align2 8) [35, 49, 47] = some false
      ∧ ArHdr.starts_with sysv_only_fat (align2 8) [47] = some true
      ∧ ((∀ ptr, ArHdr.read_name sysv_only_fat (align2 8) none ptr = none)
        ∧ (∀ n vec, 2 ≤ wrap64 (sysv_only_fat.length - 8) →
            read_fat_loop (n + 1) sysv_only_fat 8 none vec = .err)
        ∧ ∀ env mf_name vec, (8 : Int) < sysv_only_fat.length →
            thin_pass env mf_name sysv_only_fat ⟨8, none, vec⟩ = .inr .undefined) :=
  ⟨by decide, by decide, by decide, by decide,
    read_name_sysv_no_strtab sysv_only_fat 8 (by decide) (by decide) (by decide) (by decide)⟩

/-- C21: for every buffer and plugin setting, `get_file_type` returns `EMPTY`
exactly when the buffer has length zero. -/
theorem get_file_type_empty (plugin : Bool) (data : List Byte) :
    get_file_type plugin data = some .EMPTY ↔ data.length = 0 := by
  cases data with
  | nil => simp [get_file_type]
  | cons a l =>
    simp only [List.length_cons, Nat.succ_ne_zero, iff_false]
    by_cases helf : starts_with (a :: l) [127, 69, 76, 70] = true
    · rcases elf_magic_cases plugin (a :: l) helf with h | h | h | h | h <;> rw [h] <;> simp
    · simp only [get_file_type, List.isEmpty_cons, Bool.false_eq_true, if_false, helf]
      repeat' split
      all_goals simp

/-! ## BSD names and the legacy symbol table of thin archives -/

theorem find_char_takeWhile (c : Byte) :
    ∀ (f : List Byte) (pos : Nat), find_char f c = some pos →
      f.take pos = f.takeWhile (fun d => d != c) := by
  intro f
  induction f with
  | nil => intro pos h; cases h
  | cons d ds ih =>
    intro pos h
    simp only [find_char] at h
    by_cases hd : d = c
    · rw [if_pos hd] at h
      injection h with h
      subst h
      simp [List.takeWhile, hd]
    · rw [if_neg hd] at h
      cases hf : find_char ds c with
      | none => rw [hf] at h; cases h
      | some q =>
        rw [hf] at h
        simp only [Option.map_some', Option.some.injEq] at h
        subst h
        have hne : (d != c) = true := by simpa using hd
        rw [List.take_succ_cons, ih q hf, List.takeWhile_cons, hne]
        rfl

theorem find_char_none_takeWhile (c : Byte) :
    ∀ (f : List Byte), find_char f c = none → f.takeWhile (fun d => d != c) = f := by
  intro f
  induction f with
  | nil => intro _; rfl
  | cons d ds ih =>
    intro h
    simp only [find_char] at h
    by_cases hd : d = c
    · rw [if_pos hd] at h; cases h
    · rw [if_neg hd] at h
      cases hf : find_char ds c with
      | none =>
        have hne : (d != c) = true := by simpa using hd
        rw [List.takeWhile_cons, hne, ih hf]
        rfl
      | some q => rw [hf] at h; cases h

theorem find_char_zero_head (c : Byte) (f : List Byte) (h : find_char f c = some 0) :
    f.head? = some c := by
  cases f with
  | nil => cases h
  | cons d ds =>
    simp only [find_char] at h
    by_cases hd : d = c
    · simp [hd]
    · rw [if_neg hd] at h
      cases hf : find_char ds c with
      | none => rw [hf] at h; cases h
      | some q => rw [hf] at h; simp at h

theorem find_char_pos_head (c : Byte) (f : List Byte) (pos : Nat)
    (h : find_char f c = some (pos + 1)) : f.head? ≠ some c := by
  cases f with
  | nil => cases h
  | cons d ds =>
    simp only [find_char] at h
    by_cases hd : d = c
    · rw [if_pos hd] at h; cases h
    · simpa using hd

/-- What `read_name` returns for a BSD header `#1/<n>` whose name field is
`f`: the bytes of `f` before its first NUL, except that a field beginning with
a NUL byte is returned whole. -/
theorem read_name_bsd_trim (buf : List Byte) (hdr ptr n : Int) (strtab : Option StrView)
    (f : List Byte)
    (hbsd : ArHdr.starts_with buf hdr [35, 49, 47] = some true)
    (hn : (at_off buf (hdr + 3)).bind atoi = some n) (hn0 : 0 ≤ n)
    (hf : read_range buf ptr n.toNat = some f) :
    ArHdr.read_name buf hdr strtab ptr
      = some (if f.head? = some 0 then f else before_nul f, ptr + n) := by
  have hneg : ¬ n < 0 := by omega
  simp only [ArHdr.read_name, hbsd, hn, if_neg hneg, hf]
  cases hfc : find_char f 0 with
  | none =>
    simp only []
    have := find_char_none_takeWhile 0 f hfc
    by_cases hh : f.head? = some 0
    · rw [if_pos hh]
    · rw [if_neg hh, before_nul, this]
  | some pos =>
    cases pos with
    | zero =>
      simp only []
      rw [if_pos (find_char_zero_head 0 f hfc)]
    | succ q =>
      simp only []
      rw [if_neg (find_char_pos_head 0 f q hfc), before_nul,
        find_char_takeWhile 0 f (q + 1) hfc]

set_option maxRecDepth 100000 in
/-- C22: the only member of `leading_nul_archive` has the BSD header `#1/3` and
the name field `\0ab`. The bytes before its first NUL are none, yet `read_name`
returns the whole field, NUL byte included, and `read_fat_archive_members`
returns the member under that name. -/
theorem read_name_bsd_leading_nul :
    ArHdr.starts_with (serialize leading_nul_archive) 8 [35, 49, 47] = some true
      ∧ (at_off (serialize leading_nul_archive) (8 + 3)).bind atoi = some 3
      ∧ read_range (serialize leading_nul_archive) 68 3 = some [0, 97, 98]
      ∧ before_nul [0, 97, 98] = []
      ∧ ArHdr.read_name (serialize leading_nul_archive) 8 none 68 = some ([0, 97, 98], 71)
      ∧ (0 : Byte) ∈ ([0, 97, 98] : List Byte)
      ∧ read_fat_archive_members (serialize leading_nul_archive) = .val [⟨[0, 97, 98], 71, 2⟩] := by
  decide

theorem read_thin_loop_stuck (env : Env) (mf_name buf : List Byte) (s : ThinState)
    (h : thin_pass env mf_name buf s = .inl s) :
    ∀ n, read_thin_loop env mf_name buf n s = .more := by
  intro n
  induction n with
  | zero => rfl
  | succ n ih => simp only [read_thin_loop, h, ih]

set_option maxRecDepth 100000 in
/-- C25: in the thin archive `symdef_thin` the member named `__.SYMDEF` is
followed by the ordinary member `/abs/b.o`. The pass that decodes `__.SYMDEF`
leaves the loop variables as they were (`continue` without moving `data`), so
`read_thin_archive_members` returns for no budget of passes; without that
member the archive yields `/abs/b.o`. -/
theorem read_thin_symdef_no_progress :
    ArHdr.read_name symdef_thin 8 none 68 = some ([95, 95, 46, 83, 89, 77, 68, 69, 70], 77)
      ∧ thin_pass example_env thin_example_name symdef_thin ⟨8, none, []⟩ = .inl ⟨8, none, []⟩
      ∧ (∀ budget,
          read_thin_archive_members budget example_env thin_example_name symdef_thin = .more)
      ∧ read_thin_archive_members 2 example_env thin_example_name no_symdef_thin
          = .ret [⟨[47, 97, 98, 115, 47, 98, 46, 111], [4, 5], some thin_example_name⟩] := by
  refine ⟨by decide, by decide, ?_, by decide⟩
  intro budget
  exact read_thin_loop_stuck example_env thin_example_name symdef_thin ⟨8, none, []⟩
    (by decide) budget

/-- A header that starts with `#1/` and whose size field lies in the buffer is
neither a string table nor a symbol table. -/
theorem bsd_not_pseudo (buf : List Byte) (hdr : Int)
    (hbsd : ArHdr.starts_with buf hdr [35, 49, 47] = some true)
    (hsz : at_off buf (hdr + 48) ≠ none) :
    ArHdr.is_strtab buf hdr = some false ∧ ArHdr.is_symtab buf hdr = some false := by
  have h48 : 0 ≤ hdr + 48 ∧ hdr + 48 ≤ buf.length := by
    unfold at_off at hsz
    by_contra hcon
    rw [if_neg hcon] at hsz
    exact hsz rfl
  unfold ArHdr.starts_with read_range at hbsd
  simp only [List.length_cons, List.length_nil] at hbsd
  rw [if_neg (by decide)] at hbsd
  split at hbsd
  · rename_i hr
    simp only [Option.map_some', Option.some.injEq, beq_iff_eq] at hbsd
    have h0 : 0 ≤ hdr := hr.1
    obtain ⟨rest, hrest⟩ : ∃ rest, buf.drop hdr.toNat = 35 :: 49 :: 47 :: rest := by
      have := List.take_append_drop 3 (buf.drop hdr.toNat)
      rw [hbsd] at this
      exact ⟨_, this.symm⟩
    have hlen : (buf.drop hdr.toNat).length = buf.length - hdr.toNat := List.length_drop _ _
    have hrl : 8 ≤ (35 :: 49 :: 47 :: rest : List Byte).length := by
      rw [← hrest, hlen]; omega
    obtain ⟨a, b, c, d, e, rest2, hr2⟩ : ∃ a b c d e rest2, rest = a :: b :: c :: d :: e :: rest2 := by
      match rest, hrl with
      | a :: b :: c :: d :: e :: rest2, _ => exact ⟨a, b, c, d, e, rest2, rfl⟩
    have c2 : 0 ≤ hdr ∧ hdr + ((0 + 1 + 1 : Nat) : Int) ≤ buf.length := ⟨h0, by omega⟩
    have c3 : 0 ≤ hdr ∧ hdr + ((0 + 1 + 1 + 1 : Nat) : Int) ≤ buf.length := ⟨h0, by omega⟩
    have c8 : 0 ≤ hdr ∧ hdr + ((0 + 1 + 1 + 1 + 1 + 1 + 1 + 1 + 1 : Nat) : Int) ≤ buf.length :=
      ⟨h0, by omega⟩
    constructor
    · simp only [ArHdr.is_strtab, ArHdr.starts_with, read_range, List.length_cons,
        List.length_nil]
      rw [if_neg (by decide), if_pos c3, hrest]
      simp
    · simp only [ArHdr.is_symtab, ArHdr.starts_with, read_range, List.length_cons,
        List.length_nil]
      rw [if_neg (by decide), if_pos c2, hrest]
      simp
      omega
  · cases hbsd

/-- One pass of `read_fat_archive_members` over a header with a BSD name
(`#1/<n>`, size field `s`, `0 <= n <= s`, the `n` bytes of the name field
readable at the body offset `b`, `b + s` below `2^63`): unless the name decoded
is a legacy symbol-table name, the slice pushed has offset `b + n` and length
`s - n`, and the next pass starts from `b + s`. -/
theorem read_fat_loop_bsd_pass (k : Nat) (buf : List Byte) (data n s : Int)
    (strtab : Option StrView) (vec : List Member) (f : List Byte)
    (hc : 2 ≤ wrap64 (buf.length - data))
    (h0 : 0 ≤ data)
    (hsize : (at_off buf (align2 data + 48)).bind atol = some s)
    (hbsd : ArHdr.starts_with buf (align2 data) [35, 49, 47] = some true)
    (hn : (at_off buf (align2 data + 3)).bind atoi = some n) (hn0 : 0 ≤ n) (hns : n ≤ s)
    (hf : read_range buf (align2 data + 60) n.toNat = some f)
    (hw : align2 data + 60 + s < 2 ^ 63) :
    ∃ name, ArHdr.read_name buf (align2 data) strtab (align2 data + 60)
          = some (name, align2 data + 60 + n)
      ∧ (name ≠ [95, 95, 46, 83, 89, 77, 68, 69, 70] →
          name ≠ [95, 95, 46, 83, 89, 77, 68, 69, 70, 32, 83, 79, 82, 84, 69, 68] →
          read_fat_loop (k + 1) buf data strtab vec
            = read_fat_loop k buf (align2 data + 60 + s) strtab
                (vec ++ [⟨name, (align2 data + 60 + n).toNat, (s - n).toNat⟩])) := by
  have hrn := read_name_bsd_trim buf (align2 data) (align2 data + 60) n strtab f hbsd hn hn0 hf
  refine ⟨_, hrn, ?_⟩
  intro hs1 hs2
  have hsz : at_off buf (align2 data + 48) ≠ none := by
    intro h; rw [h] at hsize; cases hsize
  obtain ⟨hp1, hp2⟩ := bsd_not_pseudo buf (align2 data) hbsd hsz
  have ha : (if data % 2 ≠ 0 then data + 1 else data) = align2 data := rfl
  have ha0 : 0 ≤ align2 data := by unfold align2; split <;> omega
  have hw' : align2 data + 60 + s < 9223372036854775808 := by simpa using hw
  have hwrap : wrap64 (align2 data + 60 + s) = align2 data + 60 + s :=
    wrap64_id _ (by omega) hw
  have hu1 : to_u64 (align2 data + 60 + n) = (align2 data + 60 + n).toNat := by
    unfold to_u64
    congr 1
    norm_num
    omega
  have hu2 : to_u64 (align2 data + 60 + s - (align2 data + 60 + n)) = (s - n).toNat := by
    unfold to_u64
    congr 1
    norm_num
    omega
  rw [read_fat_loop]
  simp only [if_pos hc, ha, hsize, hp1, hp2, hrn, hwrap, hu1, hu2]
  rw [if_neg (by intro h; rcases h with h | h; exact hs1 h; exact hs2 h)]

/-! ## Slim LTO objects -/

theorem first_unskipped_cons (E : Target) (data : List Byte) (symtab_off i : Nat)
    (rest : List Nat) :
    first_unskipped E data symtab_off (i :: rest)
      = match sym_type E data symtab_off i with
        | none => none
        | some ty => if skip ty then first_unskipped E data symtab_off rest else some (some i) := by
  simp only [first_unskipped, sym_type]
  cases read_uint E.is_le data (symtab_off + i * sizeof_sym E + off_st_info E) 1 <;> rfl

/-- The loop over the symbols stops at `i` when `i` is the first index of the
range whose symbol type is not skipped. -/
theorem first_unskipped_found (E : Target) (data : List Byte) (symtab_off : Nat) :
    ∀ (m a i : Nat), a ≤ i → i < a + m →
      (∀ j, a ≤ j → j < i → ∃ ty, sym_type E data symtab_off j = some ty ∧ skip ty = true) →
      (∃ ty, sym_type E data symtab_off i = some ty ∧ skip ty = false) →
      first_unskipped E data symtab_off (List.range' a m) = some (some i) := by
  intro m
  induction m with
  | zero => intro a i h1 h2; omega
  | succ m ih =>
    intro a i h1 h2 hbefore hat
    rw [List.range'_succ, first_unskipped_cons]
    by_cases hai : a = i
    · subst hai
      obtain ⟨ty, ht1, ht2⟩ := hat
      simp only [ht1, ht2, Bool.false_eq_true, if_false]
    · obtain ⟨ty, ht1, ht2⟩ := hbefore a (Nat.le_refl _) (by omega)
      simp only [ht1, ht2, if_true]
      exact ih (a + 1) i (by omega) (by omega) (fun j hj1 hj2 => hbefore j (by omega) hj2) hat

/-- When the loop over the symbols stops at `i`, then `i` is the first index of
the range whose symbol type is not skipped. -/
theorem first_unskipped_sound (E : Target) (data : List Byte) (symtab_off : Nat) :
    ∀ (m a i : Nat), first_unskipped E data symtab_off (List.range' a m) = some (some i) →
      a ≤ i ∧ i < a + m
        ∧ (∀ j, a ≤ j → j < i → ∃ ty, sym_type E data symtab_off j = some ty ∧ skip ty = true)
        ∧ ∃ ty, sym_type E data symtab_off i = some ty ∧ skip ty = false := by
  intro m
  induction m with
  | zero => intro a i h; simp [first_unskipped] at h
  | succ m ih =>
    intro a i h
    rw [List.range'_succ, first_unskipped_cons] at h
    cases hs : sym_type E data symtab_off a with
    | none => rw [hs] at h; cases h
    | some ty =>
      rw [hs] at h
      simp only [] at h
      by_cases hk : skip ty = true
      · rw [if_pos hk] at h
        obtain ⟨h1, h2, h3, h4⟩ := ih (a + 1) i h
        refine ⟨by omega, by omega, ?_, h4⟩
        intro j hj1 hj2
        by_cases hja : j = a
        · subst hja; exact ⟨ty, hs, hk⟩
        · exact h3 j (by omega) hj2
      · rw [if_neg hk] at h
        simp only [Option.some.injEq] at h
        subst h
        refine ⟨Nat.le_refl _, by omega, fun j hj1 hj2 => by omega, ty, hs, by simpa using hk⟩

/-- The lambda `skip` answers true for the symbol types NOTYPE (0), SECTION (3)
and FILE (4) and for no other. -/
theorem skip_iff (ty : Nat) : skip ty = true ↔ (ty = 0 ∨ ty = 3 ∨ ty = 4) := by
  simp only [skip, STT_NOTYPE, STT_FILE, STT_SECTION, Bool.or_eq_true, beq_iff_eq]
  omega

/-- At a section of type `SHT_SYMTAB` that carries the slim marker the scan
answers true, once the name test has not ended it. -/
theorem scan_sections_slim (E : Target) (plugin : Bool) (data : List Byte)
    (shdrs_off idx s : Nat) (rest : List Nat)
    (hty : read_uint E.is_le data (shdrs_off + s * sizeof_shdr E + off_sh_type) 4
      = some SHT_SYMTAB)
    (hm : slim_marker E data shdrs_off s)
    (hp : plugin = true → names_readable E data shdrs_off idx s) :
    scan_sections E plugin data shdrs_off idx (s :: rest) = some true := by
  obtain ⟨sh_offset, sh_size, i, sh_link, strtab_off, st_name, name, r1, r2, hi1, hi2, hbef, hat,
    r3, r4, r5, r6, r7, r8⟩ := hm
  have hfu : first_unskipped E data sh_offset (List.range' 1 (sh_size / sizeof_sym E - 1))
      = some (some i) := by
    apply first_unskipped_found E data sh_offset _ 1 i hi1 (by omega)
    · intro j hj1 hj2
      obtain ⟨ty, h1, h2⟩ := hbef j hj1 hj2
      exact ⟨ty, h1, (skip_iff ty).2 h2⟩
    · obtain ⟨ty, h1, h2⟩ := hat
      refine ⟨ty, h1, ?_⟩
      cases hk : skip ty with
      | false => rfl
      | true =>
        have := (skip_iff ty).1 hk
        omega
  have hsym : (match read_uint E.is_le data (shdrs_off + s * sizeof_shdr E + off_sh_type) 4 with
      | none => none
      | some sh_type =>
        if sh_type ≠ SHT_SYMTAB then scan_sections E plugin data shdrs_off idx rest
        else
          match read_uint E.is_le data (shdrs_off + s * sizeof_shdr E + (off_sh_offset E).1)
              (off_sh_offset E).2,
            read_uint E.is_le data (shdrs_off + s * sizeof_shdr E + (off_sh_size E).1)
              (off_sh_size E).2 with
          | some sh_offset, some sh_size =>
            match first_unskipped E data sh_offset
                (List.range' 1 (sh_size / sizeof_sym E - 1)) with
            | none => none
            | some none => some false
            | some (some i) =>
              match read_uint E.is_le data (sh_offset + i * sizeof_sym E + off_st_shndx E) 2 with
              | none => none
              | some st_shndx =>
                if st_shndx = SHN_COMMON then
                  match read_uint E.is_le data
                      (shdrs_off + s * sizeof_shdr E + off_sh_link E) 4 with
                  | none => none
                  | some sh_link =>
                    match read_uint E.is_le data
                        (shdrs_off + sh_link * sizeof_shdr E + (off_sh_offset E).1)
                        (off_sh_offset E).2,
                      read_uint E.is_le data (sh_offset + i * sizeof_sym E + off_st_name) 4 with
                    | some strtab_off, some st_name =>
                      (c_str data (strtab_off + st_name)).map
                        (fun name => starts_with name [95, 95, 103, 110, 117, 95, 108, 116, 111, 95])
                    | _, _ => none
                else some false
          | _, _ => none) = some true := by
    have r3' : read_uint E.is_le data (sh_offset + i * sizeof_sym E + off_st_shndx E) 2
        = some SHN_COMMON := r3
    simp only [hty, ne_eq, not_true_eq_false, if_false, r1, r2, hfu, r3', if_true, r4, r5, r6, r7,
      Option.map_some', r8]
  cases plugin with
  | false =>
    simp only [scan_sections, Bool.false_eq_true, if_false]
    exact hsym
  | true =>
    obtain ⟨so, hso, hnames⟩ := hp rfl
    obtain ⟨nm, nme, hn1, hn2⟩ := hnames s (Nat.le_refl _)
    simp only [scan_sections, if_true, hso, hn1, hn2, Option.map_some']
    cases starts_with nme [46, 103, 110, 117, 46, 108, 116, 111, 95, 46, 115, 121, 109, 116, 97,
      98, 46] with
    | true => rfl
    | false => exact hsym

/-- Without a plugin, a true answer of the scan at a section of type
`SHT_SYMTAB` comes from the slim marker in its symbol table. -/
theorem scan_sections_slim_only (E : Target) (data : List Byte) (shdrs_off idx s : Nat)
    (rest : List Nat)
    (hty : read_uint E.is_le data (shdrs_off + s * sizeof_shdr E + off_sh_type) 4
      = some SHT_SYMTAB)
    (h : scan_sections E false data shdrs_off idx (s :: rest) = some true) :
    slim_marker E data shdrs_off s := by
  simp only [scan_sections, Bool.false_eq_true, if_false, hty, ne_eq, not_true_eq_false] at h
  split at h
  · rename_i sh_offset sh_size r1 r2
    split at h
    · cases h
    · cases h
    · rename_i i hfu
      obtain ⟨hi1, hi2, hbef, hat⟩ := first_unskipped_sound E data sh_offset _ 1 i hfu
      split at h
      · cases h
      · rename_i st_shndx r3
        split at h
        · rename_i hcom
          subst hcom
          split at h
          · cases h
          · rename_i sh_link r4
            split at h
            · rename_i strtab_off st_name r5 r6
              cases hc : c_str data (strtab_off + st_name) with
              | none => rw [hc] at h; cases h
              | some name =>
                rw [hc] at h
                simp only [Option.map_some', Option.some.injEq] at h
                refine ⟨sh_offset, sh_size, i, sh_link, strtab_off, st_name, name, r1, r2, hi1,
                  by omega, ?_, ?_, r3, r4, r5, r6, hc, h⟩
                · intro j hj1 hj2
                  obtain ⟨ty, h1, h2⟩ := hbef j hj1 hj2
                  exact ⟨ty, h1, (skip_iff ty).1 h2⟩
                · obtain ⟨ty, h1, h2⟩ := hat
                  refine ⟨ty, h1, ?_⟩
                  have hn : ¬ (ty = 0 ∨ ty = 3 ∨ ty = 4) := by
                    intro hh
                    rw [(skip_iff ty).2 hh] at h2
                    cases h2
                  omega
            · cases h
        · cases h
  · cases h

theorem scan_sections_reach_slim (E : Target) (plugin : Bool) (data : List Byte)
    (shdrs_off idx s : Nat)
    (hfirst : first_symtab E data shdrs_off s) (hm : slim_marker E data shdrs_off s)
    (hp : plugin = true → names_readable E data shdrs_off idx s) :
    ∀ (m a : Nat), a ≤ s → s < a + m →
      scan_sections E plugin data shdrs_off idx (List.range' a m) = some true := by
  intro m
  induction m with
  | zero => intro a h1 h2; omega
  | succ m ih =>
    intro a h1 h2
    rw [List.range'_succ]
    by_cases has : a = s
    · subst has
      exact scan_sections_slim E plugin data shdrs_off idx a _ hfirst.2 hm hp
    · obtain ⟨ty, ht1, ht2⟩ := hfirst.1 a (by omega)
      have hrest := ih (a + 1) (by omega) (by omega)
      cases plugin with
      | false =>
        simp only [scan_sections, Bool.false_eq_true, if_false, ht1, ne_eq, ht2,
          not_false_eq_true, if_true]
        exact hrest
      | true =>
        obtain ⟨so, hso, hnames⟩ := hp rfl
        obtain ⟨nm, nme, hn1, hn2⟩ := hnames a (by omega)
        simp only [scan_sections, if_true, hso, hn1, hn2, Option.map_some']
        cases starts_with nme [46, 103, 110, 117, 46, 108, 116, 111, 95, 46, 115, 121, 109, 116,
          97, 98, 46] with
        | true => rfl
        | false =>
          simp only [ht1, ne_eq, ht2, not_false_eq_true, if_true]
          exact hrest

theorem scan_sections_true_slim (E : Target) (data : List Byte) (shdrs_off idx : Nat) :
    ∀ (m a : Nat), scan_sections E false data shdrs_off idx (List.range' a m) = some true →
      ∃ s, a ≤ s ∧ s < a + m
        ∧ (∀ q, a ≤ q → q < s → ∃ ty,
            read_uint E.is_le data (shdrs_off + q * sizeof_shdr E + off_sh_type) 4 = some ty
              ∧ ty ≠ SHT_SYMTAB)
        ∧ read_uint E.is_le data (shdrs_off + s * sizeof_shdr E + off_sh_type) 4
            = some SHT_SYMTAB
        ∧ slim_marker E data shdrs_off s := by
  intro m
  induction m with
  | zero => intro a h; simp [scan_sections] at h
  | succ m ih =>
    intro a h
    rw [List.range'_succ] at h
    cases hty : read_uint E.is_le data (shdrs_off + a * sizeof_shdr E + off_sh_type) 4 with
    | none =>
      simp only [scan_sections, Bool.false_eq_true, if_false, hty] at h
      cases h
    | some ty =>
      by_cases hs : ty = SHT_SYMTAB
      · subst hs
        exact ⟨a, Nat.le_refl _, by omega, fun q h1 h2 => by omega, hty,
          scan_sections_slim_only E data shdrs_off idx a _ hty h⟩
      · have h' : scan_sections E false data shdrs_off idx (List.range' (a + 1) m) = some true := by
          simpa only [scan_sections, Bool.false_eq_true, if_false, hty, ne_eq, hs,
            not_false_eq_true, if_true] using h
        obtain ⟨s, h1, h2, h3, h4, h5⟩ := ih (a + 1) h'
        refine ⟨s, by omega, by omega, ?_, h4, h5⟩
        intro q hq1 hq2
        by_cases hqa : q = a
        · subst hqa; exact ⟨ty, hty, hs⟩
        · exact h3 q (by omega) hq2

/-- C27: in an ELF relocatable object whose header fields `e_shoff`,
`e_shnum` and the index of the section name table can be read: when the first
`SHT_SYMTAB` section carries the slim marker (the first symbol after index 0
whose type is none of NOTYPE, FILE, SECTION has `st_shndx = SHN_COMMON` and a
name beginning with `__gnu_lto_`), `is_gcc_lto_obj` returns true without a
plugin, and with a plugin as well, the names of the sections up to that one
being readable; and without a plugin it returns true only when the first
`SHT_SYMTAB` section carries the slim marker. -/
theorem is_gcc_lto_obj_slim (E : Target) (data : List Byte) (e_shoff e_shnum e_shstrndx idx : Nat)
    (h1 : read_uint E.is_le data (off_e_shoff E).1 (off_e_shoff E).2 = some e_shoff)
    (h2 : read_uint E.is_le data (off_e_shnum E) 2 = some e_shnum)
    (h3 : read_uint E.is_le data (off_e_shstrndx E) 2 = some e_shstrndx)
    (h4 : (if e_shstrndx = SHN_XINDEX then read_uint E.is_le data (e_shoff + off_sh_link E) 4
      else some e_shstrndx) = some idx) :
    (∀ s, s < e_shnum → first_symtab E data e_shoff s → slim_marker E data e_shoff s →
        is_gcc_lto_obj E false data = some true
          ∧ (names_readable E data e_shoff idx s → is_gcc_lto_obj E true data = some true))
      ∧ (is_gcc_lto_obj E false data = some true →
          ∃ s, s < e_shnum ∧ first_symtab E data e_shoff s ∧ slim_marker E data e_shoff s) := by
  have hval : ∀ plugin, is_gcc_lto_obj E plugin data
      = scan_sections E plugin data e_shoff idx (List.range' 0 e_shnum) := by
    intro plugin
    simp only [is_gcc_lto_obj, h1, h2, h3, h4, List.range_eq_range']
  constructor
  · intro s hs hfirst hm
    constructor
    · rw [hval]
      exact scan_sections_reach_slim E false data e_shoff idx s hfirst hm
        (by intro h; cases h) e_shnum 0 (Nat.zero_le _) (by omega)
    · intro hn
      rw [hval]
      exact scan_sections_reach_slim E true data e_shoff idx s hfirst hm
        (fun _ => hn) e_shnum 0 (Nat.zero_le _) (by omega)
  · intro h
    rw [hval] at h
    obtain ⟨s, _, hs2, hs3, hs4, hs5⟩ := scan_sections_true_slim E data e_shoff idx e_shnum 0 h
    exact ⟨s, by omega, ⟨fun q hq => hs3 q (Nat.zero_le _) hq, hs4⟩, hs5⟩

set_option maxRecDepth 100000 in
theorem slim_example_marker :
    first_symtab I386 slim_example 52 1 ∧ slim_marker I386 slim_example 52 1
      ∧ names_readable I386 slim_example 52 3 1 := by
  refine ⟨⟨?_, by decide⟩, ?_, ?_⟩
  · intro q hq
    have : q = 0 := by omega
    subst this
    exact ⟨0, by decide, by decide⟩
  · refine ⟨212, 64, 3, 2, 276, 1, [95, 95, 103, 110, 117, 95, 108, 116, 111, 95, 115, 108, 105,
      109], by decide, by decide, by decide, by decide, ?_, ⟨1, by decide, by decide⟩, by decide,
      by decide, by decide, by decide, by decide, by decide⟩
    intro j hj1 hj2
    have : j = 1 ∨ j = 2 := by omega
    rcases this with rfl | rfl
    · exact ⟨4, by decide, by decide⟩
    · exact ⟨3, by decide, by decide⟩
  · refine ⟨296, by decide, ?_⟩
    intro q hq
    have : q = 0 ∨ q = 1 := by omega
    rcases this with rfl | rfl
    · exact ⟨0, [], by decide, by decide⟩
    · exact ⟨1, [46, 115, 121, 109, 116, 97, 98], by decide, by decide⟩

set_option maxRecDepth 100000 in
theorem is_gcc_lto_obj_slim_witness :
    read_uint I386.is_le slim_example (off_e_shoff I386).1 (off_e_shoff I386).2 = some 52
      ∧ read_uint I386.is_le slim_example (off_e_shnum I386) 2 = some 4
      ∧ read_uint I386.is_le slim_example (off_e_shstrndx I386) 2 = some 3
      ∧ (if 3 = SHN_XINDEX then read_uint I386.is_le slim_example (52 + off_sh_link I386) 4
          else some 3) = some 3
      ∧ first_symtab I386 slim_example 52 1 ∧ slim_marker I386 slim_example 52 1
      ∧ names_readable I386 slim_example 52 3 1
      ∧ ((∀ s, s < 4 → first_symtab I386 slim_example 52 s → slim_marker I386 slim_example 52 s →
            is_gcc_lto_obj I386 false slim_example = some true
              ∧ (names_readable I386 slim_example 52 3 s →
                  is_gcc_lto_obj I386 true slim_example = some true))
        ∧ (is_gcc_lto_obj I386 false slim_example = some true →
            ∃ s, s < 4 ∧ first_symtab I386 slim_example 52 s ∧ slim_marker I386 slim_example 52 s))
      ∧ sym_type I386 slim_example 212 1 = some 4 ∧ sym_type I386 slim_example 212 2 = some 3
      ∧ sym_type I386 slim_example 212 3 = some 1
      ∧ is_gcc_lto_obj I386 false slim_example = some true
      ∧ is_gcc_lto_obj I386 true slim_example = some true
      ∧ get_file_type false slim_example = some .GCC_LTO_OBJ
      ∧ sym_type I386 (slim_object 1 1) 212 1 = some 1
      ∧ is_gcc_lto_obj I386 false (slim_object 1 1) = some false
      ∧ is_gcc_lto_obj I386 false (slim_object 0 0) = some true
      ∧ is_gcc_lto_obj I386 false (lto_example false) = some false
      ∧ get_file_type false (lto_example false) = some .ELF_OBJ :=
  ⟨by decide, by decide, by decide, by decide,
    slim_example_marker.1, slim_example_marker.2.1, slim_example_marker.2.2,
    is_gcc_lto_obj_slim I386 slim_example 52 4 3 3 (by decide) (by decide) (by decide) (by decide),
    by decide, by decide, by decide, by decide, by decide, by decide, by decide, by decide,
    by decide, by decide, by decide⟩

/-! ## Progress of the fat-archive scan -/

theorem atol_lt {l : List Byte} {s : Int} (h : atol l = some s) : s < 2 ^ 63 := by
  unfold atol at h
  cases hc : strtol_core l with
  | none => rw [hc] at h; cases h
  | some v =>
    rw [hc] at h
    simp only [Option.some_bind] at h
    split at h
    · rename_i hr
      injection h with h
      rw [← h]; exact hr.2
    · cases h

theorem size_field_bounds {buf : List Byte} {p s : Int}
    (hs : (at_off buf p).bind atol = some s) : 0 ≤ p ∧ p ≤ buf.length ∧ s < 2 ^ 63 := by
  unfold at_off at hs
  split at hs
  · rename_i hp
    simp only [Option.some_bind] at hs
    exact ⟨hp.1, hp.2, atol_lt hs⟩
  · cases hs

theorem is_strtab_negative (buf : List Byte) (hdr : Int) (h : hdr < 0) :
    ArHdr.is_strtab buf hdr = none := by
  have hc : ¬ (0 ≤ hdr ∧ hdr + ((3 : Nat) : Int) ≤ buf.length) := by omega
  simp only [ArHdr.is_strtab, ArHdr.starts_with, read_range, List.length_cons, List.length_nil]
  rw [if_neg (by decide), if_neg hc]
  rfl

/-- What one pass of the recorded loop does: it ends the scan (the buffer is
used up, or a read fails), or it goes on from the offset `hdr + 60 + size`
after recording the header at `hdr`. -/
theorem read_fat_trace_pass (n : Nat) (buf : List Byte) (data : Int) (strtab : Option StrView)
    (tr : List Pass) :
    read_fat_trace (n + 1) buf data strtab tr = .err
      ∨ (¬ 2 ≤ wrap64 (buf.length - data) ∧ read_fat_trace (n + 1) buf data strtab tr = .val tr)
      ∨ ∃ (size : Int) (st : Option StrView) (o : Option Member),
          2 ≤ wrap64 (buf.length - data)
            ∧ (at_off buf ((if data % 2 ≠ 0 then data + 1 else data) + 48)).bind atol = some size
            ∧ ArHdr.is_strtab buf (if data % 2 ≠ 0 then data + 1 else data) ≠ none
            ∧ read_fat_trace (n + 1) buf data strtab tr
                = read_fat_trace n buf
                    (wrap64 ((if data % 2 ≠ 0 then data + 1 else data) + 60 + size)) st
                    (tr ++ [⟨if data % 2 ≠ 0 then data + 1 else data, o⟩]) := by
  rw [read_fat_trace]
  by_cases hc : 2 ≤ wrap64 (buf.length - data)
  · simp only [if_pos hc]
    rcases hsz : (at_off buf ((if data % 2 ≠ 0 then data + 1 else data) + 48)).bind atol
      with _ | size
    · left; rfl
    · rcases hst : ArHdr.is_strtab buf (if data % 2 ≠ 0 then data + 1 else data) with _ | _ | _
      · left; rfl
      · rcases ArHdr.is_symtab buf (if data % 2 ≠ 0 then data + 1 else data) with _ | _ | _
        · left; rfl
        · rcases ArHdr.read_name buf (if data % 2 ≠ 0 then data + 1 else data) strtab
            ((if data % 2 ≠ 0 then data + 1 else data) + 60) with _ | ⟨name, body1⟩
          · left; rfl
          · dsimp only
            split
            · exact Or.inr (Or.inr ⟨size, _, _, hc, rfl, by simp, rfl⟩)
            · exact Or.inr (Or.inr ⟨size, _, _, hc, rfl, by simp, rfl⟩)
        · exact Or.inr (Or.inr ⟨size, _, _, hc, rfl, by simp, rfl⟩)
      · exact Or.inr (Or.inr ⟨size, _, _, hc, rfl, by simp, rfl⟩)
  · right; left
    exact ⟨hc, by simp only [if_neg hc]⟩

theorem wrap64_cases (x : Int) (h0 : 0 ≤ x) (h1 : x < 2 ^ 64) :
    (x < 2 ^ 63 ∧ wrap64 x = x) ∨ (2 ^ 63 ≤ x ∧ wrap64 x = x - 2 ^ 64) := by
  unfold wrap64
  have h1' : x < 18446744073709551616 := by simpa using h1
  norm_num
  omega

set_option maxRecDepth 100000 in
/-- C31, as stated, fails: `negative_size_archive` begins with the fat magic and
its only header, a symbol table, has the size field `-60`. The pass over that
header leaves the read offset where it was, at 8 (`body + size` is `68 - 60`),
so every budget of passes is used up and `read_fat_archive_members` does not
return. -/
theorem read_fat_archive_negative_size :
    starts_with negative_size_archive [33, 60, 97, 114, 99, 104, 62, 10] = true
      ∧ (at_off negative_size_archive (8 + 48)).bind atol = some (-60)
      ∧ wrap64 (8 + 60 + -60) = 8
      ∧ (∀ (n : Nat) (strtab : Option StrView) (vec : List Member),
          read_fat_loop (n + 1) negative_size_archive 8 strtab vec
            = read_fat_loop n negative_size_archive 8 strtab vec)
      ∧ (∀ n : Nat, read_fat_loop n negative_size_archive 8 none [] = .more)
      ∧ read_fat_archive_members negative_size_archive = .more := by
  have hstep : ∀ (n : Nat) (strtab : Option StrView) (vec : List Member),
      read_fat_loop (n + 1) negative_size_archive 8 strtab vec
        = read_fat_loop n negative_size_archive 8 strtab vec := by
    intro n strtab vec
    have hc : (2 : Int) ≤ wrap64 ((negative_size_archive.length : Int) - 8) := by decide
    have ha : (if (8 : Int) % 2 ≠ 0 then (8 : Int) + 1 else 8) = 8 := by decide
    have hsz : (at_off negative_size_archive ((8 : Int) + 48)).bind atol = some (-60) := by decide
    have hst : ArHdr.is_strtab negative_size_archive 8 = some false := by decide
    have hsy : ArHdr.is_symtab negative_size_archive 8 = some true := by decide
    have hw : wrap64 ((8 : Int) + 60 + -60) = 8 := by decide
    rw [read_fat_loop]
    simp only [if_pos hc, ha, hsz, hst, hsy, hw]
  have hall : ∀ n : Nat, read_fat_loop n negative_size_archive 8 none [] = .more := by
    intro n
    induction n with
    | zero => rfl
    | succ n ih => rw [hstep, ih]
  exact ⟨by decide, by decide, by decide, hstep, hall, hall _⟩

/-- One pass of the recorded loop over a buffer whose size fields are not
negative along the scan: it ends the scan, or it goes on from `hdr + 60 + size`
with `size` not negative, and the size fields of the passes that follow are not
negative either. -/
theorem read_fat_trace_pass_nonneg (n : Nat) (buf : List Byte) (data : Int)
    (strtab : Option StrView) (tr : List Pass)
    (hs : size_fields_nonneg (n + 1) buf data strtab = true) :
    read_fat_trace (n + 1) buf data strtab tr = .err
      ∨ (¬ 2 ≤ wrap64 (buf.length - data) ∧ read_fat_trace (n + 1) buf data strtab tr = .val tr)
      ∨ ∃ (size : Int) (st : Option StrView) (o : Option Member),
          2 ≤ wrap64 (buf.length - data)
            ∧ (at_off buf (align2 data + 48)).bind atol = some size
            ∧ 0 ≤ size
            ∧ ArHdr.is_strtab buf (align2 data) ≠ none
            ∧ size_fields_nonneg n buf (wrap64 (align2 data + 60 + size)) st = true
            ∧ read_fat_trace (n + 1) buf data strtab tr
                = read_fat_trace n buf (wrap64 (align2 data + 60 + size)) st
                    (tr ++ [⟨align2 data, o⟩]) := by
  have ha : (if data % 2 ≠ 0 then data + 1 else data) = align2 data := rfl
  rw [read_fat_trace]
  rw [size_fields_nonneg] at hs
  by_cases hc : 2 ≤ wrap64 (buf.length - data)
  · simp only [if_pos hc, ha] at hs ⊢
    rcases hsz : (at_off buf (align2 data + 48)).bind atol with _ | size
    · left; rfl
    · rw [hsz] at hs
      simp only [Bool.and_eq_true, decide_eq_true_eq] at hs
      obtain ⟨h0, hs⟩ := hs
      rcases hst : ArHdr.is_strtab buf (align2 data) with _ | _ | _
      · left; rfl
      · rw [hst] at hs
        rcases hsy : ArHdr.is_symtab buf (align2 data) with _ | _ | _
        · left; rfl
        · rw [hsy] at hs
          rcases hrn : ArHdr.read_name buf (align2 data) strtab (align2 data + 60)
            with _ | ⟨name, body1⟩
          · left; rfl
          · rw [hrn] at hs
            dsimp only at hs ⊢
            split
            · exact Or.inr (Or.inr ⟨size, _, _, hc, rfl, h0, by simp, hs, rfl⟩)
            · exact Or.inr (Or.inr ⟨size, _, _, hc, rfl, h0, by simp, hs, rfl⟩)
        · rw [hsy] at hs
          exact Or.inr (Or.inr ⟨size, _, _, hc, rfl, h0, by simp, hs, rfl⟩)
      · rw [hst] at hs
        exact Or.inr (Or.inr ⟨size, _, _, hc, rfl, h0, by simp, hs, rfl⟩)
  · right; left
    exact ⟨hc, by simp only [if_neg hc]⟩

/-- The recorded scan of a buffer whose size fields, as far as the scan reads
them, are not negative ends within its budget, and the headers it records stand
at offsets that grow by 60 or more from one to the next. -/
theorem read_fat_trace_progress (buf : List Byte) (hlen : buf.length < 2 ^ 62) :
    ∀ (n : Nat) (data : Int) (strtab : Option StrView) (tr : List Pass),
      size_fields_nonneg n buf data strtab = true →
      1 ≤ n → data < 2 ^ 63 → tr.Pairwise (fun p q => p.hdr + 60 ≤ q.hdr) →
      (data ≤ -2 ∨ (0 ≤ data ∧ (∀ p ∈ tr, p.hdr + 60 ≤ data)
        ∧ ((buf.length : Int) < data + 2 ∨ (buf.length : Int) + 120 ≤ data + 60 * n))) →
      read_fat_trace n buf data strtab tr = .err
        ∨ ∃ t, read_fat_trace n buf data strtab tr = .val t
            ∧ t.Pairwise (fun p q => p.hdr + 60 ≤ q.hdr) := by
  have hlen' : (buf.length : Int) < 4611686018427387904 := by
    have : buf.length < 4611686018427387904 := by simpa using hlen
    omega
  intro n
  induction n with
  | zero => intro data strtab tr _ h1; omega
  | succ n ih =>
    intro data strtab tr hs _ hd hpw hinv
    have hd' : data < 9223372036854775808 := by simpa using hd
    rcases read_fat_trace_pass_nonneg n buf data strtab tr hs with he | ⟨_, hv⟩
      | ⟨size, st, o, hc, hsz, hsz0, hst, hs', hstep⟩
    · exact Or.inl he
    · exact Or.inr ⟨tr, hv, hpw⟩
    · obtain ⟨hb0, hb1, hb2⟩ := size_field_bounds hsz
      have hb2' : size < 9223372036854775808 := by simpa using hb2
      have hhdr : data ≤ align2 data ∧ align2 data ≤ data + 1 := by
        unfold align2; split <;> omega
      rcases hinv with hneg | ⟨h0, htr, hbud⟩
      · exfalso
        apply hst
        apply is_strtab_negative
        omega
      · have hcond : data + 2 ≤ buf.length := by
          have hw : wrap64 ((buf.length : Int) - data) = buf.length - data := by
            unfold wrap64
            norm_num
            omega
          rw [hw] at hc; omega
        generalize align2 data = hdr at *
        have hn2 : 2 ≤ n := by omega
        have hpw' : (tr ++ [(⟨hdr, o⟩ : Pass)]).Pairwise (fun p q => p.hdr + 60 ≤ q.hdr) := by
          rw [List.pairwise_append]
          refine ⟨hpw, List.pairwise_singleton _ _, ?_⟩
          intro p hp q hq
          simp only [List.mem_singleton] at hq
          subst hq
          have := htr p hp
          show p.hdr + 60 ≤ hdr
          omega
        rw [hstep]
        rcases wrap64_cases (hdr + 60 + size) (by omega) (by norm_num; omega)
          with ⟨hlt, hw⟩ | ⟨hge, hw⟩
        · rw [hw] at hs' ⊢
          apply ih _ _ _ hs' (by omega) hlt hpw'
          right
          refine ⟨by omega, ?_, Or.inr (by push_cast at hbud ⊢; omega)⟩
          intro p hp
          rcases List.mem_append.1 hp with hp | hp
          · have := htr p hp; omega
          · simp only [List.mem_singleton] at hp
            subst hp
            show hdr + 60 ≤ hdr + 60 + size
            omega
        · rw [hw] at hs' ⊢
          have hge' : (9223372036854775808 : Int) ≤ hdr + 60 + size := by simpa using hge
          apply ih _ _ _ hs' (by omega) (by norm_num; omega) hpw'
          left
          norm_num
          omega

/-- C31, amended. For every buffer shorter than `2^62` bytes in which every
size field that the scan reads holds a number that is not negative, the scan of
`read_fat_archive_members` ends within its budget of passes (it returns, or it
reads outside the buffer), and each pass moves the read offset forward: the
headers parsed stand at offsets that grow by 60 or more from one pass to the
next. -/
theorem read_fat_archive_ends (buf : List Byte) (hlen : buf.length < 2 ^ 62)
    (hs : size_fields_nonneg (buf.length + 1) buf 8 none = true) :
    (read_fat_archive_members buf = .err ∨ ∃ ms, read_fat_archive_members buf = .val ms)
      ∧ ∀ tr, read_fat_archive_trace buf = .val tr →
          tr.Pairwise (fun p q => p.hdr + 60 ≤ q.hdr) := by
  have hp := read_fat_trace_progress buf hlen (buf.length + 1) 8 none [] hs
    (by omega) (by norm_num) List.Pairwise.nil
    (Or.inr ⟨by omega, (by intro p hp; cases hp), (by push_cast; omega)⟩)
  have he := read_fat_trace_slices buf (buf.length + 1) 8 none []
  constructor
  · unfold read_fat_archive_members
    have e0 : slices [] = ([] : List Member) := rfl
    rw [e0] at he
    rw [he]
    rcases hp with hp | ⟨t, hp, _⟩
    · rw [hp]; exact Or.inl rfl
    · rw [hp]; exact Or.inr ⟨_, rfl⟩
  · intro tr htr
    unfold read_fat_archive_trace at htr
    rcases hp with hp | ⟨t, hp, hpw⟩
    · rw [hp] at htr; cases htr
    · rw [hp] at htr
      injection htr with htr
      rw [← htr]; exact hpw

set_option maxRecDepth 100000 in
theorem read_fat_archive_ends_witness :
    (serialize minus_body_archive).length < 2 ^ 62
      ∧ size_fields_nonneg ((serialize minus_body_archive).length + 1)
          (serialize minus_body_archive) 8 none = true
      ∧ ((read_fat_archive_members (serialize minus_body_archive) = .err
          ∨ ∃ ms, read_fat_archive_members (serialize minus_body_archive) = .val ms)
        ∧ ∀ tr, read_fat_archive_trace (serialize minus_body_archive) = .val tr →
            tr.Pairwise (fun p q => p.hdr + 60 ≤ q.hdr))
      ∧ (at_off (serialize minus_body_archive) 68).bind atol = some (-1)
      ∧ read_fat_archive_members (serialize minus_body_archive) = .val [⟨[97], 68, 3⟩]
      ∧ size_fields_nonneg ((serialize example_archive).length + 1)
          (serialize example_archive) 8 none = true
      ∧ read_fat_archive_trace (serialize example_archive)
          = .val [⟨8, none⟩, ⟨72, none⟩, ⟨140, some ⟨[102, 111, 111], 200, 3⟩⟩,
              ⟨204, some ⟨[120], 264, 1⟩⟩, ⟨266, some ⟨[98, 115, 100], 329, 2⟩⟩]
      ∧ size_fields_nonneg (negative_size_archive.length + 1) negative_size_archive 8 none
          = false :=
  ⟨by decide, by decide,
    read_fat_archive_ends (serialize minus_body_archive) (by decide) (by decide),
    by decide, by decide, by decide, by decide, by decide⟩

/-! ## The slice of a member with a BSD name -/

/-- One pass of the recorded loop, with what it pushes. -/
theorem read_fat_trace_pass_pushed (n : Nat) (buf : List Byte) (data : Int)
    (strtab : Option StrView) (tr : List Pass) :
    read_fat_trace (n + 1) buf data strtab tr = .err
      ∨ (¬ 2 ≤ wrap64 (buf.length - data) ∧ read_fat_trace (n + 1) buf data strtab tr = .val tr)
      ∨ ∃ (size : Int) (st : Option StrView) (o : Option Member),
          2 ≤ wrap64 (buf.length - data)
            ∧ (at_off buf (align2 data + 48)).bind atol = some size
            ∧ Pass.pushed buf ⟨align2 data, o⟩ size
            ∧ read_fat_trace (n + 1) buf data strtab tr
                = read_fat_trace n buf (wrap64 (align2 data + 60 + size)) st
                    (tr ++ [⟨align2 data, o⟩]) := by
  have ha : (if data % 2 ≠ 0 then data + 1 else data) = align2 data := rfl
  rw [read_fat_trace]
  by_cases hc : 2 ≤ wrap64 (buf.length - data)
  · simp only [if_pos hc, ha]
    rcases hsz : (at_off buf (align2 data + 48)).bind atol with _ | size
    · left; rfl
    · rcases hst : ArHdr.is_strtab buf (align2 data) with _ | _ | _
      · left; rfl
      · rcases hsy : ArHdr.is_symtab buf (align2 data) with _ | _ | _
        · left; rfl
        · rcases hrn : ArHdr.read_name buf (align2 data) strtab (align2 data + 60)
            with _ | ⟨name, body1⟩
          · left; rfl
          · dsimp only
            split
            · rename_i hnm
              exact Or.inr (Or.inr ⟨size, _, _, hc, rfl,
                Or.inl ⟨rfl, Or.inr (Or.inr ⟨strtab, name, body1, hrn, hnm⟩)⟩, rfl⟩)
            · rename_i hnm
              exact Or.inr (Or.inr ⟨size, _, _, hc, rfl,
                Or.inr ⟨strtab, name, body1, hst, hsy, hrn, hnm, rfl⟩, rfl⟩)
        · exact Or.inr (Or.inr ⟨size, _, _, hc, rfl, Or.inl ⟨rfl, Or.inr (Or.inl hsy)⟩, rfl⟩)
      · exact Or.inr (Or.inr ⟨size, _, _, hc, rfl, Or.inl ⟨rfl, Or.inl hst⟩, rfl⟩)
  · right; left
    exact ⟨hc, by simp only [if_neg hc]⟩

/-- The record of a scan that returns is the record it was started with
followed by a chain of passes from the starting offset. -/
theorem read_fat_trace_chain (buf : List Byte) :
    ∀ (n : Nat) (data : Int) (strtab : Option StrView) (tr t : List Pass),
      read_fat_trace n buf data strtab tr = .val t →
      ∃ out, t = tr ++ out ∧ pass_chain buf data out := by
  intro n
  induction n with
  | zero => intro data strtab tr t h; cases h
  | succ n ih =>
    intro data strtab tr t h
    rcases read_fat_trace_pass_pushed n buf data strtab tr with he | ⟨hc, hv⟩
      | ⟨size, st, o, hc, hsz, hpu, hstep⟩
    · rw [he] at h; cases h
    · rw [hv] at h
      injection h with h
      exact ⟨[], by rw [← h, List.append_nil], hc⟩
    · rw [hstep] at h
      obtain ⟨out, ht, hch⟩ := ih _ _ _ _ h
      refine ⟨⟨align2 data, o⟩ :: out, by rw [ht]; simp, hc, rfl, size, hsz, hpu, hch⟩

theorem pass_chain_suffix (buf : List Byte) :
    ∀ (l1 : List Pass) (data : Int) (l : List Pass), pass_chain buf data (l1 ++ l) →
      ∃ d, pass_chain buf d l := by
  intro l1
  induction l1 with
  | nil => intro data l h; exact ⟨data, h⟩
  | cons q l1 ih =>
    intro data l h
    obtain ⟨_, _, size, _, _, hrest⟩ := h
    exact ih _ l hrest

/-- What `read_name` returning a name for a BSD header `#1/<n>` tells: `n` is
not negative, the `n` bytes of the name field were read at `ptr`, the name is
made of them, and `ptr` has moved behind them. -/
theorem read_name_bsd_inv (buf : List Byte) (hdr ptr n body1 : Int) (strtab : Option StrView)
    (name : List Byte)
    (hbsd : ArHdr.starts_with buf hdr [35, 49, 47] = some true)
    (hn : (at_off buf (hdr + 3)).bind atoi = some n)
    (h : ArHdr.read_name buf hdr strtab ptr = some (name, body1)) :
    0 ≤ n ∧ body1 = ptr + n
      ∧ ∃ f, read_range buf ptr n.toNat = some f ∧ name = bsd_name f := by
  by_cases hneg : n < 0
  · simp only [ArHdr.read_name, hbsd, hn, if_pos hneg] at h
    cases h
  · have hn0 : 0 ≤ n := by omega
    cases hf : read_range buf ptr n.toNat with
    | none =>
      simp only [ArHdr.read_name, hbsd, hn, if_neg hneg, hf] at h
      cases h
    | some f =>
      rw [read_name_bsd_trim buf hdr ptr n strtab f hbsd hn hn0 hf] at h
      simp only [Option.some.injEq, Prod.mk.injEq] at h
      exact ⟨hn0, h.2.symm, f, rfl, h.1.symm⟩

/-- C23: whenever `read_fat_archive_members` returns, for every pass of its
scan over a header with a BSD name (`#1/<n>`, size field `s` with `n <= s`,
body offset `b = hdr + 60`, `b + s` below `2^63`): the `n` bytes of the name
field were read at `b`; unless the name made of them is `__.SYMDEF` or
`__.SYMDEF SORTED`, the pass pushes the slice of offset `b + n` and length
`s - n` under that name, which is among the members returned; and the next pass
parses the header at `b + s` after the alignment fix-up, the scan ending when
fewer than two bytes are left from `b + s` on. -/
theorem read_fat_bsd_member (buf : List Byte) (ms : List Member)
    (h : read_fat_archive_members buf = .val ms) :
    ∃ tr, read_fat_archive_trace buf = .val tr ∧ ms = slices tr
      ∧ ∀ (l1 l2 : List Pass) (p : Pass) (n s : Int), tr = l1 ++ p :: l2 →
          ArHdr.starts_with buf p.hdr [35, 49, 47] = some true →
          (at_off buf (p.hdr + 3)).bind atoi = some n →
          (at_off buf (p.hdr + 48)).bind atol = some s →
          n ≤ s → p.hdr + 60 + s < 2 ^ 63 →
          ∃ f, 0 ≤ n ∧ read_range buf (p.hdr + 60) n.toNat = some f
            ∧ p.out = (if bsd_name f = [95, 95, 46, 83, 89, 77, 68, 69, 70]
                  ∨ bsd_name f = [95, 95, 46, 83, 89, 77, 68, 69, 70, 32, 83, 79, 82, 84, 69, 68]
                then none
                else some ⟨bsd_name f, (p.hdr + 60 + n).toNat, (s - n).toNat⟩)
            ∧ (∀ m, p.out = some m → m ∈ ms)
            ∧ next_header buf (p.hdr + 60 + s) l2 := by
  obtain ⟨tr, htr, hms⟩ := read_fat_trace_of_members h
  refine ⟨tr, htr, hms, ?_⟩
  intro l1 l2 p n s hsplit hbsd hn hs hns hw
  obtain ⟨out, hout, hch⟩ := read_fat_trace_chain buf _ _ _ _ _ htr
  rw [List.nil_append] at hout
  subst hout
  rw [hsplit] at hch
  obtain ⟨d, hd⟩ := pass_chain_suffix buf l1 8 (p :: l2) hch
  obtain ⟨_, _, size, hsz, hpu, hrest⟩ := hd
  rw [hs] at hsz
  injection hsz with hsz
  subst hsz
  have hszne : at_off buf (p.hdr + 48) ≠ none := by
    intro hh; rw [hh] at hs; cases hs
  obtain ⟨hp1, hp2⟩ := bsd_not_pseudo buf p.hdr hbsd hszne
  have hsb := size_field_bounds hs
  have hh0 : 0 ≤ p.hdr := by
    unfold ArHdr.starts_with read_range at hbsd
    simp only [List.length_cons, List.length_nil] at hbsd
    rw [if_neg (by decide)] at hbsd
    split at hbsd
    · rename_i hr; exact hr.1
    · cases hbsd
  have hw' : p.hdr + 60 + s < 9223372036854775808 := by simpa using hw
  have key : ∀ (st : Option StrView) (name : List Byte) (body1 : Int),
      ArHdr.read_name buf p.hdr st (p.hdr + 60) = some (name, body1) →
      0 ≤ n ∧ body1 = p.hdr + 60 + n
        ∧ ∃ f, read_range buf (p.hdr + 60) n.toNat = some f ∧ name = bsd_name f :=
    fun st name body1 hrn => read_name_bsd_inv buf p.hdr (p.hdr + 60) n body1 st name hbsd hn hrn
  have hmem : ∀ m, p.out = some m → m ∈ ms := by
    intro m hm
    rw [hms, hsplit]
    exact List.mem_filterMap.2 ⟨p, by simp, hm⟩
  have hnext : next_header buf (p.hdr + 60 + s) l2 := by
    have hn0 : 0 ≤ n := by
      rcases hpu with ⟨_, hh | hh | ⟨st, name, body1, hrn, _⟩⟩ | ⟨st, name, body1, _, _, hrn, _⟩
      · rw [hp1] at hh; cases hh
      · rw [hp2] at hh; cases hh
      · exact (key st name body1 hrn).1
      · exact (key st name body1 hrn).1
    have hwr : wrap64 (p.hdr + 60 + s) = p.hdr + 60 + s := wrap64_id _ (by omega) hw
    rw [hwr] at hrest
    cases l2 with
    | nil => exact hrest
    | cons q l2 => exact hrest.2.1
  rcases hpu with ⟨ho, hh | hh | ⟨st, name, body1, hrn, hnm⟩⟩
    | ⟨st, name, body1, _, _, hrn, hnm, ho⟩
  · rw [hp1] at hh; cases hh
  · rw [hp2] at hh; cases hh
  · obtain ⟨hn0, _, f, hf, hname⟩ := key st name body1 hrn
    subst hname
    exact ⟨f, hn0, hf, by rw [if_pos hnm, ho], hmem, hnext⟩
  · obtain ⟨hn0, hb1, f, hf, hname⟩ := key st name body1 hrn
    subst hname
    subst hb1
    refine ⟨f, hn0, hf, ?_, hmem, hnext⟩
    rw [if_neg hnm, ho, wrap64_id _ (by omega) hw]
    have hu1 : to_u64 (p.hdr + 60 + n) = (p.hdr + 60 + n).toNat := by
      unfold to_u64
      congr 1
      norm_num
      omega
    have hu2 : to_u64 (p.hdr + 60 + s - (p.hdr + 60 + n)) = (s - n).toNat := by
      unfold to_u64
      congr 1
      norm_num
      omega
    rw [hu1, hu2]

set_option maxRecDepth 100000 in
theorem read_fat_bsd_member_witness :
    read_fat_archive_members (serialize bsd_then_short)
        = .val [⟨[98, 115, 100], 71, 2⟩, ⟨[102, 111, 111], 134, 3⟩]
      ∧ (∃ tr, read_fat_archive_trace (serialize bsd_then_short) = .val tr
          ∧ [⟨[98, 115, 100], 71, 2⟩, ⟨[102, 111, 111], 134, 3⟩] = slices tr
          ∧ ∀ (l1 l2 : List Pass) (p : Pass) (n s : Int), tr = l1 ++ p :: l2 →
              ArHdr.starts_with (serialize bsd_then_short) p.hdr [35, 49, 47] = some true →
              (at_off (serialize bsd_then_short) (p.hdr + 3)).bind atoi = some n →
              (at_off (serialize bsd_then_short) (p.hdr + 48)).bind atol = some s →
              n ≤ s → p.hdr + 60 + s < 2 ^ 63 →
              ∃ f, 0 ≤ n ∧ read_range (serialize bsd_then_short) (p.hdr + 60) n.toNat = some f
                ∧ p.out = (if bsd_name f = [95, 95, 46, 83, 89, 77, 68, 69, 70]
                      ∨ bsd_name f
                        = [95, 95, 46, 83, 89, 77, 68, 69, 70, 32, 83, 79, 82, 84, 69, 68]
                    then none
                    else some ⟨bsd_name f, (p.hdr + 60 + n).toNat, (s - n).toNat⟩)
                ∧ (∀ m, p.out = some m →
                    m ∈ ([⟨[98, 115, 100], 71, 2⟩, ⟨[102, 111, 111], 134, 3⟩] : List Member))
                ∧ next_header (serialize bsd_then_short) (p.hdr + 60 + s) l2)
      ∧ read_fat_archive_trace (serialize bsd_then_short)
          = .val ([] ++ ⟨8, some ⟨[98, 115, 100], 71, 2⟩⟩
              :: [⟨74, some ⟨[102, 111, 111], 134, 3⟩⟩])
      ∧ ArHdr.starts_with (serialize bsd_then_short) 8 [35, 49, 47] = some true
      ∧ (at_off (serialize bsd_then_short) (8 + 3)).bind atoi = some 3
      ∧ (at_off (serialize bsd_then_short) (8 + 48)).bind atol = some 5
      ∧ read_range (serialize bsd_then_short) (8 + 60) (3 : Int).toNat = some [98, 115, 100]
      ∧ bsd_name [98, 115, 100] = [98, 115, 100]
      ∧ ((8 : Int) + 60 + 3).toNat = 71 ∧ ((5 : Int) - 3).toNat = 2
      ∧ align2 (8 + 60 + 5) = 74 :=
  ⟨by decide,
    read_fat_bsd_member (serialize bsd_then_short)
      [⟨[98, 115, 100], 71, 2⟩, ⟨[102, 111, 111], 134, 3⟩] (by decide),
    by decide, by decide, by decide, by decide, by decide, by decide, by decide, by decide,
    by decide⟩

end Mold
